import Mathlib

/-! # The pseudocode interpreter of `psd.cpp`

A shallow embedding of the interpreter runtime of `src/psd.cpp`: the type
registry, the value model, casting, the (stub) expression evaluator, the
path-based assignment, the declaration parser and the line-driven execution
engine.  `std::string` is a list of characters, `std::map` an association
list, `std::any` the closed variant `Value`, a thrown exception an `Err`.
-/

namespace Psd

/-- A `std::string`. -/
abbrev Str := List Char

/-! ## `std::regex` (ECMAScript grammar, backtracking executor) -/

/-- The fragment of the ECMAScript regular expressions that `psd.cpp` uses. -/
inductive Regex where
  /-- One character of a class: a literal, `.`, `\w`, `\s`, `\d`, `[...]`. -/
  | chr (p : Char → Bool)
  /-- Concatenation. -/
  | seq (a b : Regex)
  /-- Alternation `a|b`, the left branch first. -/
  | alt (a b : Regex)
  /-- Repetition `r*` (greedy) or `r*?` (lazy). -/
  | star (greedy : Bool) (r : Regex)
  /-- Capture group number `i`. -/
  | group (i : Nat) (r : Regex)
  /-- The empty expression. -/
  | eps
  /-- The assertion `^`. -/
  | bol
  /-- The assertion `$`. -/
  | eol

/-- Captured groups, the most recent capture of a group first. -/
abbrev Caps := List (Nat × Str)

/-- What a successful run leaves: the unread input and the captures. -/
abbrev Hit := Str × Caps

/-- A continuation of the backtracking matcher. -/
abbrev Cont := Str → Caps → Option Hit

/-- Iterations of a quantified sub-expression: `step` runs the body once, `n`
bounds the number of iterations by the length of the input, and an iteration
that reads nothing is rejected. -/
def starLoop (greedy : Bool) (step : Str → Caps → Cont → Option Hit) :
    Nat → Str → Caps → Cont → Option Hit
  | 0, s, c, k => k s c
  | n + 1, s, c, k =>
    if greedy then
      match step s c (fun s2 c2 =>
          if s2.length < s.length then starLoop greedy step n s2 c2 k else none) with
      | some h => some h
      | none => k s c
    else
      match k s c with
      | some h => some h
      | none => step s c (fun s2 c2 =>
          if s2.length < s.length then starLoop greedy step n s2 c2 k else none)

/-- The depth-first matcher: `run total r s c k` reads a prefix of `s` that
matches `r`, in the priority order of ECMAScript, and hands the rest to `k`;
`total` is the length of the whole subject, for `^`. -/
def Regex.run (total : Nat) : Regex → Str → Caps → Cont → Option Hit
  | .chr p, s, c, k =>
    match s with
    | [] => none
    | x :: xs => if p x then k xs c else none
  | .seq a b, s, c, k => Regex.run total a s c (fun s2 c2 => Regex.run total b s2 c2 k)
  | .alt a b, s, c, k =>
    match Regex.run total a s c k with
    | some h => some h
    | none => Regex.run total b s c k
  | .star g r, s, c, k => starLoop g (Regex.run total r) s.length s c k
  | .group i r, s, c, k =>
    Regex.run total r s c (fun s2 c2 => k s2 ((i, s.take (s.length - s2.length)) :: c2))
  | .eps, s, c, k => k s c
  | .bol, s, c, k => if s.length = total then k s c else none
  | .eol, s, c, k => if s.isEmpty then k s c else none

/-- The text of group `i` of a match, empty when the group did not take part
(`std::sub_match::str`). -/
def sub (c : Caps) (i : Nat) : Str :=
  match c.find? (fun e => e.1 == i) with
  | some e => e.2
  | none => []

/-- The accepting state of `std::regex_match`: the whole subject is read. -/
def atEnd : Cont := fun rest c => if rest.isEmpty then some (rest, c) else none

/-- The accepting state of `std::regex_search`: a match may end anywhere. -/
def anywhere : Cont := fun rest c => some (rest, c)

/-- The function `std::regex_match`: the whole subject must match. -/
def regex_match (r : Regex) (s : Str) : Option Caps :=
  match Regex.run s.length r s [] atEnd with
  | some h => some h.2
  | none => none

/-- One `std::regex_search` from the front of `s`, the subject having `total`
characters: the leftmost match, as (matched text, captures, rest). -/
def regex_search (total : Nat) (r : Regex) : Str → Option (Str × Caps × Str)
  | [] =>
    match Regex.run total r [] [] anywhere with
    | some h => some ([], h.2, h.1)
    | none => none
  | x :: xs =>
    match Regex.run total r (x :: xs) [] anywhere with
    | some h => some ((x :: xs).take ((x :: xs).length - h.1.length), h.2, h.1)
    | none => regex_search total r xs

/-- The matches a `std::sregex_iterator` walks through, each as (matched text,
captures); `fuel` bounds the number of matches by the length of the subject. -/
def regex_iter (total : Nat) (r : Regex) : Nat → Str → List (Str × Caps)
  | 0, _ => []
  | fuel + 1, s =>
    match regex_search total r s with
    | none => []
    | some (m, c, rest) =>
      if m.isEmpty then
        match rest with
        | [] => [(m, c)]
        | _ :: rest2 => (m, c) :: regex_iter total r fuel rest2
      else (m, c) :: regex_iter total r fuel rest

/-- All matches of `r` in `s`, left to right (`std::sregex_iterator`). -/
def regex_all (r : Regex) (s : Str) : List (Str × Caps) :=
  regex_iter s.length r (s.length + 1) s

/-- The class `\w` in the C locale. -/
def isWord (c : Char) : Bool := c.isAlphanum || c == '_'

/-- The class `\s`, which is also the set `trim` strips. -/
def isSpace (c : Char) : Bool :=
  c == ' ' || c == '\t' || c == '\n' || c == '\r' || c == Char.ofNat 12 || c == Char.ofNat 11

/-- The class `.`: anything but a line terminator. -/
def isDot (c : Char) : Bool := !(c == '\n' || c == '\r')

/-- A literal character. -/
def Regex.lit (x : Char) : Regex := .chr (fun c => c == x)

/-- A literal character under `std::regex_constants::icase`. -/
def Regex.liti (x : Char) : Regex := .chr (fun c => c.toLower == x.toLower)

/-- A literal text. -/
def Regex.text : Str → Regex
  | [] => .eps
  | [x] => .lit x
  | x :: xs => .seq (.lit x) (Regex.text xs)

/-- A literal text under `icase`. -/
def Regex.texti : Str → Regex
  | [] => .eps
  | [x] => .liti x
  | x :: xs => .seq (.liti x) (Regex.texti xs)

/-- The quantifier `r+`. -/
def Regex.plus (r : Regex) : Regex := .seq r (.star true r)

/-- The quantifier `r+?`. -/
def Regex.plusLazy (r : Regex) : Regex := .seq r (.star false r)

/-- A sequence of expressions. -/
def Regex.cat : List Regex → Regex
  | [] => .eps
  | [r] => r
  | r :: rs => .seq r (Regex.cat rs)

/-! ## Library functions on strings and numbers -/

/-- The test `s.rfind(p, 0) == 0`: `s` starts with `p`. -/
def startsWith (s p : Str) : Bool := p.isPrefixOf s

/-- The text `s.substr(pos, count)` for `pos ≤ s.length`. -/
def substr (s : Str) (pos count : Nat) : Str := (s.drop pos).take count

/-- The value of a decimal digit. -/
def digitVal (c : Char) : Nat := c.toNat - 48

/-- The number a sequence of decimal digits denotes. -/
def digitsVal (ds : Str) : Nat := ds.foldl (fun a c => 10 * a + digitVal c) 0

/-- The function `std::stoi` in base 10: leading white space, an optional sign
and the longest run of digits are read and what follows is ignored; `none`
when it throws (no digit: `std::invalid_argument`; a value that is not an
`int`: `std::out_of_range`). -/
def stoi (s : Str) : Option Int :=
  let s1 := s.dropWhile isSpace
  let neg := s1.head? == some '-'
  let s2 := if s1.head? == some '-' || s1.head? == some '+' then s1.drop 1 else s1
  let ds := s2.takeWhile Char.isDigit
  if ds.isEmpty then none
  else
    let v : Int := if neg then -(digitsVal ds : Int) else (digitsVal ds : Int)
    if -2147483648 ≤ v ∧ v ≤ 2147483647 then some v else none

/-- The decimal digit of `n < 10`. -/
def digitChar (n : Nat) : Char := Char.ofNat (48 + n)

/-- The decimal digits of `n`, most significant first; `fuel` exceeds their
number. -/
def natToStr : Nat → Nat → Str
  | 0, _ => []
  | fuel + 1, n =>
    if n < 10 then [digitChar n] else natToStr fuel (n / 10) ++ [digitChar (n % 10)]

/-- The function `std::to_string(int)`. -/
def to_string (v : Int) : Str :=
  if v < 0 then '-' :: natToStr (v.natAbs + 1) v.natAbs else natToStr (v.natAbs + 1) v.natAbs

/-- The result of `v + 1` and the like in an `int` (two's complement, 32 bits). -/
def wrapInt (v : Int) : Int := (v + 2147483648) % 4294967296 - 2147483648

/-- The type `double` as far as the interpreter uses it: a value is only ever
made by `std::stod` and read by `std::to_string`.  Both library functions are
parameters of the development. -/
class StdDouble (D : Type) where
  /-- The function `std::stod`; `none` when it throws. -/
  stod : Str → Option D
  /-- The function `std::to_string(double)`. -/
  to_string : D → Str
  /-- The literal `0.0`. -/
  zero : D

/-- The helper `trim`: a text without a character other than white space is
returned as it is, any other text loses its leading and trailing white space. -/
def trim (str : Str) : Str :=
  if str.all isSpace then str
  else ((str.dropWhile isSpace).reverse.dropWhile isSpace).reverse

/-- The text `line.substr(0, line.find("//"))`: a line up to its comment. -/
def stripLineComment : Str → Str
  | [] => []
  | [c] => [c]
  | c :: d :: cs => if c == '/' && d == '/' then [] else c :: stripLineComment (d :: cs)

/-- The pieces `split` reads with `std::getline`: `acc` is the piece being
read, reversed; nothing is pushed for an empty piece at the end of the text. -/
def splitGo (delimiter : Char) : Str → Str → List Str
  | [], acc => if acc.isEmpty then [] else [acc.reverse]
  | c :: cs, acc =>
    if c == delimiter then acc.reverse :: splitGo delimiter cs []
    else splitGo delimiter cs (c :: acc)

/-- The helper `split`. -/
def split (s : Str) (delimiter : Char) : List Str := splitGo delimiter s []

/-- The element `v[0]` of a list of strings. -/
def first (v : List Str) : Str := v.headD []

/-! ## Data model -/

/-- A `std::map` with string keys: an association list in which `set` keeps
one entry per key and `erase` leaves no entry of the key. -/
abbrev Map (α : Type) := List (Str × α)

/-- The entry of `k`, if any (`count` and `at`). -/
def Map.find {α : Type} (m : Map α) (k : Str) : Option α :=
  match m with
  | [] => none
  | (k2, v) :: rest => if k2 == k then some v else Map.find rest k

/-- The test `m.count(k) != 0`. -/
def Map.has {α : Type} (m : Map α) (k : Str) : Bool := (Map.find m k).isSome

/-- The assignment `m[k] = v`. -/
def Map.set {α : Type} (m : Map α) (k : Str) (v : α) : Map α :=
  match m with
  | [] => [(k, v)]
  | (k2, v2) :: rest => if k2 == k then (k, v) :: rest else (k2, v2) :: Map.set rest k v

/-- The call `m.erase(k)`. -/
def Map.erase {α : Type} (m : Map α) (k : Str) : Map α :=
  match m with
  | [] => []
  | (k2, v2) :: rest => if k2 == k then Map.erase rest k else (k2, v2) :: Map.erase rest k

/-- What a `std::any` of the interpreter holds. -/
inductive Value (D : Type) where
  /-- An `int`. -/
  | int (n : Int)
  /-- A `double`. -/
  | real (d : D)
  /-- A `bool`. -/
  | bool (b : Bool)
  /-- A `std::string`: a text or a character. -/
  | str (s : Str)
  /-- A `std::vector<std::any>`. -/
  | arr (xs : List (Value D))
  /-- A `std::map<std::string, std::any>`. -/
  | struct (fs : List (Str × Value D))
  /-- The value `nullptr`. -/
  | null
  /-- An `std::any` that holds nothing. -/
  | empty

/-- The struct `Variable`. -/
structure Variable (D : Type) where
  value : Value D
  type : Str
  isConst : Bool

/-- The struct `TypeDef`; `type` is "primitive", "alias" or "struct". -/
structure TypeDef where
  type : Str
  aliasedTo : Str
  fields : Map Str

/-- The struct `ParsedType`. -/
structure ParsedType where
  baseType : Str
  dimensions : List Nat

/-- The global `environment`. -/
abbrev Env (D : Type) := Map (Variable D)

/-- The global `typeDefinitions`. -/
abbrev TypeDefs := Map TypeDef

/-- The exceptions of the interpreter, one per `throw` site. -/
inductive Err where
  /-- The error "Indeks string di luar jangkauan." of `setStringAtIndex`. -/
  | stringIndex
  /-- An exception of `std::stoi` outside a `try` block. -/
  | stoiFailed
  /-- The error "Deteksi definisi tipe sirkular: ". -/
  | circularType (name : Str)
  /-- The error "Tipe data tidak dikenal: ". -/
  | unknownType (base : Str)
  /-- The error "Input ... tidak valid untuk integer." -/
  | castInteger (text : Str)
  /-- The error "Input ... tidak valid untuk real." -/
  | castReal (text : Str)
  /-- The exception `std::out_of_range` of `vector::at` or `string::at`. -/
  | outOfRangeAt
  /-- The error "Tidak dapat mengevaluasi ekspresi (atau STUB tidak menangani): ". -/
  | cannotEvaluate (expr : Str)
  /-- The error "Sintaks assignment tidak valid: ". -/
  | assignSyntax (lhs : Str)
  /-- The error "Variabel ... belum dideklarasikan." -/
  | undeclared (name : Str)
  /-- The error "Tidak bisa mengubah nilai ... (konstan)." -/
  | constant (name : Str)
  /-- The error "Tipe ... bukan struct." -/
  | notStruct (base : Str)
  /-- The error "Struct ... tidak punya member ...". -/
  | noMember (base member : Str)
  /-- The error "Internal: Gagal cast ke struct map." -/
  | internalStruct
  /-- The error "Index array tidak boleh kosong." -/
  | emptyIndex
  /-- The exception `std::bad_any_cast`. -/
  | badAnyCast
  /-- The error "Tidak bisa mengakses member/index dari sebuah karakter string." -/
  | stringMember
  /-- The error "Tidak bisa mengakses index pada tipe non-array." -/
  | indexNonArray
  /-- The error "Internal: Gagal cast ke vector." -/
  | internalVector
  /-- The error "Indeks array di luar jangkauan." -/
  | arrayIndex
  /-- A null pointer is dereferenced (`*std::any_cast<std::string>(currentTarget)`
  on a target that holds no string): the run crashes. -/
  | nullDereference
  /-- The error "Nilai konstan string untuk ... harus menggunakan kutip ganda". -/
  | constString (name : Str)
  /-- The error "Nilai konstan character untuk ... harus menggunakan kutip tunggal". -/
  | constCharacter (name : Str)
  /-- The error "Sintaks assignment salah: ". -/
  | statementAssign (line : Str)
  /-- The error "Sintaks 'if' salah: ". -/
  | ifSyntax (line : Str)
  /-- The error "Sintaks 'for' salah: ". -/
  | forSyntax (line : Str)
  /-- The error "'endfor' tanpa 'for'". -/
  | endforWithoutFor
  /-- The error "Sintaks 'while' salah: ". -/
  | whileSyntax (line : Str)
  /-- The error "'endwhile' tanpa 'while'". -/
  | endwhileWithoutWhile
  /-- The error "Sintaks 'untuk' salah: ". -/
  | untukSyntax (line : Str)
  /-- The error "'untuk' tanpa 'repeat'". -/
  | untukWithoutRepeat
  /-- The error "Sintaks tidak dikenal di algoritma: ". -/
  | unknownStatement (line : Str)
  deriving DecidableEq

/-! ## Type registry -/

section Interpreter
open Regex

/-- The pattern `([\w]+)((?:\[\d+\])*)$` of `parseType`. -/
def typeNameRegex : Regex :=
  cat [group 1 (plus (chr isWord)),
    group 2 (star true (cat [lit '[', plus (chr Char.isDigit), lit ']'])), eol]

/-- The pattern `\[(\d+)\]` of `parseType`. -/
def dimRegex : Regex := cat [lit '[', group 1 (plus (chr Char.isDigit)), lit ']']

/-- The loop of `parseType` over the dimensions: `std::stoi` of each. -/
def parseDims : List (Str × Caps) → Except Err (List Nat)
  | [] => .ok []
  | (_, c) :: rest =>
    match stoi (sub c 1) with
    | none => .error .stoiFailed
    | some d =>
      match parseDims rest with
      | .error e => .error e
      | .ok ds => .ok (d.toNat :: ds)

/-- The function `parseType`. -/
def parseType (typeName : Str) : Except Err ParsedType :=
  match regex_match typeNameRegex typeName with
  | none => .ok { baseType := typeName, dimensions := [] }
  | some m =>
    match parseDims (regex_all dimRegex (sub m 2)) with
    | .error e => .error e
    | .ok dimensions => .ok { baseType := sub m 1, dimensions := dimensions }

/-- The function `initializeTypeSystem`: the five primitives. -/
def initializeTypeSystem : TypeDefs :=
  ["integer".toList, "real".toList, "character".toList, "string".toList, "boolean".toList].foldl
    (fun td p => Map.set td p { type := "primitive".toList, aliasedTo := [], fields := [] }) []

/-- The `while` loop of `resolveType`; every round adds a key of
`typeDefinitions` to `seen`, so `fuel` above their number is never used up. -/
def resolveLoop (td : TypeDefs) : Nat → List Str → Str → Except Err Str
  | 0, _, current => .error (.circularType current)
  | fuel + 1, seen, current =>
    match Map.find td current with
    | none => .ok current
    | some d =>
      if d.type == "alias".toList then
        if seen.contains current then .error (.circularType current)
        else resolveLoop td fuel (current :: seen) d.aliasedTo
      else .ok current

/-- The text `[d0][d1]...[dn]` that `resolveType` appends. -/
def dimsText : List Nat → Str
  | [] => []
  | d :: ds => '[' :: (to_string (d : Int) ++ (']' :: dimsText ds))

/-- The function `resolveType`. -/
def resolveType (td : TypeDefs) (typeName : Str) : Except Err Str :=
  match parseType typeName with
  | .error e => .error e
  | .ok pt =>
    match resolveLoop td (td.length + 1) [] pt.baseType with
    | .error e => .error e
    | .ok current => .ok (current ++ dimsText pt.dimensions)

/-! ## Value model -/

variable {D : Type} [StdDouble D]

/-- The loop `for (int i = 0; i < size; ++i) arr[i] = ...` of
`createArrayRecursive`: the element is built anew `size` times, `elem` being
the outcome of building it (`none`: the call does not return). -/
def fillArray (elem : Option (Except Err (Value D))) : Nat → Option (Except Err (List (Value D)))
  | 0 => some (.ok [])
  | n + 1 =>
    match elem with
    | none => none
    | some (.error e) => some (.error e)
    | some (.ok v) =>
      match fillArray elem n with
      | none => none
      | some (.error e) => some (.error e)
      | some (.ok vs) => some (.ok (v :: vs))

/-- The function `createArrayRecursive`, `mk` being `createDefaultValue`. -/
def createArrayRecursive (mk : Str → Option (Except Err (Value D))) :
    List Nat → Str → Option (Except Err (Value D))
  | [], _ => some (.ok (.arr []))
  | [size], baseType =>
    match fillArray (mk baseType) size with
    | none => none
    | some (.error e) => some (.error e)
    | some (.ok vs) => some (.ok (.arr vs))
  | size :: d :: ds, baseType =>
    match fillArray (createArrayRecursive mk (d :: ds) baseType) size with
    | none => none
    | some (.error e) => some (.error e)
    | some (.ok vs) => some (.ok (.arr vs))

/-- The loop of `createDefaultValue` over the fields of a record, `mk` being
`createDefaultValue`.  The fields are visited in the order of the list, the
order of their declaration, where the code visits a `std::map` in the order
of the names; the two differ in which exception is raised when the defaults
of several fields fail, and in nothing else. -/
def defaultFields (mk : Str → Option (Except Err (Value D))) :
    Map Str → Map (Value D) → Option (Except Err (Map (Value D)))
  | [], structInstance => some (.ok structInstance)
  | (name, ty) :: rest, structInstance =>
    match mk ty with
    | none => none
    | some (.error e) => some (.error e)
    | some (.ok v) => defaultFields mk rest (Map.set structInstance name v)

/-- The function `createDefaultValue`; the recursion through the fields of
records need not end, `fuel` bounds its depth and `none` says that it was
used up. -/
def createDefaultValue (td : TypeDefs) : Nat → Str → Option (Except Err (Value D))
  | 0, _ => none
  | fuel + 1, typeName =>
    match resolveType td typeName with
    | .error e => some (.error e)
    | .ok resolvedFullType =>
      match parseType resolvedFullType with
      | .error e => some (.error e)
      | .ok pt =>
        match Map.find td pt.baseType with
        | none => some (.error (.unknownType pt.baseType))
        | some typeDef =>
          let baseTypeDefault : Option (Except Err (Value D)) :=
            if typeDef.type == "primitive".toList then
              if pt.baseType == "integer".toList then some (.ok (.int 0))
              else if pt.baseType == "real".toList then some (.ok (.real StdDouble.zero))
              else if pt.baseType == "boolean".toList then some (.ok (.bool false))
              else if pt.baseType == "string".toList then some (.ok (.str []))
              else if pt.baseType == "character".toList then some (.ok (.str []))
              else some (.ok .null)
            else if typeDef.type == "struct".toList then
              match defaultFields (createDefaultValue td fuel) typeDef.fields [] with
              | none => none
              | some (.error e) => some (.error e)
              | some (.ok fs) => some (.ok (.struct fs))
            else some (.ok .null)
          match baseTypeDefault with
          | none => none
          | some (.error e) => some (.error e)
          | some (.ok v) =>
            if pt.dimensions.isEmpty then some (.ok v)
            else createArrayRecursive (createDefaultValue td fuel) pt.dimensions pt.baseType

/-- The helper `anyToString`. -/
def anyToString : Value D → Str
  | .int n => to_string n
  | .real d => StdDouble.to_string d
  | .bool b => if b then "true".toList else "false".toList
  | .str s => s
  | .null => "null".toList
  | _ => "[Object]".toList

/-- The function `castValue`. -/
def castValue (td : TypeDefs) (value : Value D) (targetType : Str) : Except Err (Value D) :=
  match resolveType td targetType with
  | .error e => .error e
  | .ok resolvedType =>
    match parseType resolvedType with
    | .error e => .error e
    | .ok pt =>
      match value with
      | .arr _ => .ok value
      | .struct _ => .ok value
      | _ =>
        let strValue := anyToString value
        if pt.baseType == "integer".toList then
          match stoi strValue with
          | some n => .ok (.int n)
          | none => .error (.castInteger strValue)
        else if pt.baseType == "real".toList then
          match (StdDouble.stod strValue : Option D) with
          | some d => .ok (.real d)
          | none => .error (.castReal strValue)
        else if pt.baseType == "boolean".toList then
          match value with
          | .bool _ => .ok value
          | _ => .ok (.bool (strValue.map Char.toLower == "true".toList))
        else if pt.baseType == "string".toList then .ok (.str strValue)
        else if pt.baseType == "character".toList then
          .ok (.str (strValue.take 1))
        else .ok value

/-! ## Expression evaluator (the stub of the source) -/

/-- The pattern `([\w]+)\[(.)\]` of `evaluateExpression`. -/
def arrAccess : Regex :=
  cat [group 1 (plus (chr isWord)), lit '[', group 2 (chr isDot), lit ']']

/-- The characters of the test `expr.find_first_of("+-*/><=!|&")`. -/
def operatorChars : Str := "+-*/><=!|&".toList

/-- Steps 5 to the end of `evaluateExpression`: a variable, a one-digit array
or string access, the fallback `false` for a text with an operator character,
and the final `throw`. -/
def evaluateRest (expr : Str) (env : Env D) : Except Err (Value D) :=
  match Map.find env expr with
  | some v => .ok v.value
  | none =>
    let fallback : Except Err (Value D) :=
      if expr.any (fun c => operatorChars.contains c) then .ok (.bool false)
      else .error (.cannotEvaluate expr)
    match regex_match arrAccess expr with
    | none => fallback
    | some m =>
      match stoi (sub m 2) with
      | none => .error .stoiFailed
      | some index =>
        match Map.find env (sub m 1) with
        | none => fallback
        | some v =>
          match v.value with
          | .arr xs =>
            match xs.get? index.toNat with
            | some x => if index < 0 then .error .outOfRangeAt else .ok x
            | none => .error .outOfRangeAt
          | .str t =>
            match t.get? index.toNat with
            | some ch => if index < 0 then .error .outOfRangeAt else .ok (.str [ch])
            | none => .error .outOfRangeAt
          | _ => fallback

/-- The function `evaluateExpression`. -/
def evaluateExpression (expr : Str) (env : Env D) : Except Err (Value D) :=
  let expr := trim expr
  if expr.length ≥ 2 && expr.head? == some (Char.ofNat 34) && expr.getLast? == some (Char.ofNat 34) then
    .ok (.str (substr expr 1 (expr.length - 2)))
  else if expr.length ≥ 2 && expr.head? == some (Char.ofNat 39)
      && expr.getLast? == some (Char.ofNat 39) then
    .ok (.str (substr expr 1 (expr.length - 2)))
  else if expr == "true".toList then .ok (.bool true)
  else if expr == "false".toList then .ok (.bool false)
  else
    let number : Option (Value D) :=
      if expr.contains '.' then (StdDouble.stod expr : Option D).map Value.real
      else (stoi expr).map Value.int
    match number with
    | some v => .ok v
    | none => evaluateRest expr env

/-! ## Path-based assignment -/

/-- The helper `setStringAtIndex`. -/
def setStringAtIndex (str : Str) (index : Int) (charStr : Str) : Except Err Str :=
  if index < 0 ∨ index ≥ str.length then .error .stringIndex
  else .ok (str.set index.toNat (charStr.headD (Char.ofNat 0)))

/-- The pattern `(?:\.[\w]+)|(?:\[.*?\])` of `assignValue`. -/
def accessorRegex : Regex :=
  alt (seq (lit '.') (plus (chr isWord))) (cat [lit '[', star false (chr isDot), lit ']'])

/-- The pattern `([\w]+)(.*)` of `assignValue`. -/
def baseMatchRegex : Regex := cat [group 1 (plus (chr isWord)), group 2 (star true (chr isDot))]

/-- The variable `elementType` of `assignValue`: the type to which the value
is cast that is written at a terminal index into an array of type `pt`. -/
def elementTypeOf (pt : ParsedType) : Str :=
  if pt.dimensions.length > 1 then
    pt.baseType ++ ('[' :: (to_string ((pt.dimensions.getD 1 0 : Nat) : Int) ++ [']']))
  else pt.baseType

/-- The loop of `assignValue` over the accessors.  The pointer `currentTarget`
is the value `cur` it points to, and the result is that value after the call
together with the exception thrown, if any: a struct member that an
intermediate accessor reaches through `operator[]` exists afterwards, also
when a later accessor throws.  Index expressions are evaluated in the
environment of the call, which such a new member does not change for the
evaluator. -/
def assignWalk (td : TypeDefs) (env : Env D) (rightValue : Value D) :
    List Str → Value D → Str → Value D × Option Err
  | [], cur, _ => (cur, none)
  | part :: rest, cur, currentType =>
    match resolveType td currentType with
    | .error e => (cur, some e)
    | .ok resolved =>
      match parseType resolved with
      | .error e => (cur, some e)
      | .ok pt =>
        if part.head? == some '.' then
          let memberName := part.drop 1
          match Map.find td pt.baseType with
          | none => (cur, some (.notStruct pt.baseType))
          | some typeDef =>
            if typeDef.type != "struct".toList then (cur, some (.notStruct pt.baseType))
            else
              match Map.find typeDef.fields memberName with
              | none => (cur, some (.noMember pt.baseType memberName))
              | some fieldType =>
                match cur with
                | .struct structMap =>
                  if rest.isEmpty then
                    match castValue td rightValue fieldType with
                    | .error e => (cur, some e)
                    | .ok v => (.struct (Map.set structMap memberName v), none)
                  else
                    let r := assignWalk td env rightValue rest
                      ((Map.find structMap memberName).getD .empty) fieldType
                    (.struct (Map.set structMap memberName r.1), r.2)
                | _ => (cur, some .internalStruct)
        else
          let indexExpr := substr part 1 (part.length - 2)
          if indexExpr.isEmpty then (cur, some .emptyIndex)
          else
            match evaluateExpression indexExpr env with
            | .error e => (cur, some e)
            | .ok (.int index) =>
              if pt.dimensions.isEmpty then
                if pt.baseType == "string".toList then
                  if rest.isEmpty then
                    match castValue td rightValue "character".toList with
                    | .error e => (cur, some e)
                    | .ok (.str newChar) =>
                      match cur with
                      | .str oldString =>
                        match setStringAtIndex oldString index newChar with
                        | .error e => (cur, some e)
                        | .ok s => (.str s, none)
                      | _ => (cur, some .nullDereference)
                    | .ok _ => (cur, some .badAnyCast)
                  else (cur, some .stringMember)
                else (cur, some .indexNonArray)
              else
                match cur with
                | .arr arrVec =>
                  if index < 0 ∨ index ≥ arrVec.length then (cur, some .arrayIndex)
                  else if rest.isEmpty then
                    match castValue td rightValue (elementTypeOf pt) with
                    | .error e => (cur, some e)
                    | .ok v => (.arr (arrVec.set index.toNat v), none)
                  else
                    let nextType := pt.baseType ++ dimsText (pt.dimensions.drop 1)
                    let r := assignWalk td env rightValue rest
                      (arrVec.getD index.toNat .empty) nextType
                    (.arr (arrVec.set index.toNat r.1), r.2)
                | _ => (cur, some .internalVector)
            | .ok _ => (cur, some .badAnyCast)

/-- The function `assignValue`: the environment after the call and the
exception it threw, if any. -/
def assignValue (td : TypeDefs) (leftHandExpr : Str) (rightValue : Value D) (env : Env D) :
    Env D × Option Err :=
  match regex_match baseMatchRegex leftHandExpr with
  | none => (env, some (.assignSyntax leftHandExpr))
  | some baseMatch =>
    let varName := sub baseMatch 1
    let accessorString := sub baseMatch 2
    match Map.find env varName with
    | none => (env, some (.undeclared varName))
    | some varData =>
      if varData.isConst then (env, some (.constant varName))
      else
        let accessors := (regex_all accessorRegex accessorString).map Prod.fst
        if accessors.isEmpty then
          match castValue td rightValue varData.type with
          | .error e => (env, some e)
          | .ok v => (Map.set env varName { varData with value := v }, none)
        else
          let r := assignWalk td env rightValue accessors varData.value varData.type
          (Map.set env varName { varData with value := r.1 }, r.2)

/-! ## Declarations (`kamus`) -/

/-- The pattern `^\s*type\s+([\w]+)\s+([\w]+)\s*$`, ignoring case. -/
def typeAliasRegex : Regex :=
  cat [bol, star true (chr isSpace), texti "type".toList, plus (chr isSpace),
    group 1 (plus (chr isWord)), plus (chr isSpace), group 2 (plus (chr isWord)),
    star true (chr isSpace), eol]

/-- The pattern `^\s*type\s+([\w]+)\s*<\s*$`, ignoring case. -/
def typeStructStartRegex : Regex :=
  cat [bol, star true (chr isSpace), texti "type".toList, plus (chr isSpace),
    group 1 (plus (chr isWord)), star true (chr isSpace), lit '<', star true (chr isSpace), eol]

/-- The pattern `^\s*const\s+([\w]+)\s*:\s*(.+?)\s*=\s*(.+)$`, ignoring case. -/
def constRegex : Regex :=
  cat [bol, star true (chr isSpace), texti "const".toList, plus (chr isSpace),
    group 1 (plus (chr isWord)), star true (chr isSpace), lit ':', star true (chr isSpace),
    group 2 (plusLazy (chr isDot)), star true (chr isSpace), lit '=', star true (chr isSpace),
    group 3 (plus (chr isDot)), eol]

/-- The pattern `^\s*([\w\s,]+)\s*:\s*(.+)\s*$` of `varRegex` and of
`structMemberRegex`. -/
def varRegex : Regex :=
  cat [bol, star true (chr isSpace),
    group 1 (plus (chr (fun c => isWord c || isSpace c || c == ','))),
    star true (chr isSpace), lit ':', star true (chr isSpace),
    group 2 (plus (chr isDot)), star true (chr isSpace), eol]

/-- The loop `for (const std::string& var : vars) fields[trim(var)] = typeName`. -/
def addFields (typeName : Str) : List Str → Map Str → Map Str
  | [], fields => fields
  | var :: vars, fields => addFields typeName vars (Map.set fields (trim var) typeName)

/-- The first loop of `parseKamus`, over the lines that are left.  `block` is
the record being read, with the fields found so far, when the loop is between
a line `type NAME <` and the line `>` that ends the block. -/
def parseTypes : List Str → Option (Str × Map Str) → TypeDefs → TypeDefs
  | [], none, td => td
  | [], some (structName, fields), td =>
    Map.set td structName { type := "struct".toList, aliasedTo := [], fields := fields }
  | l :: rest, some (structName, fields), td =>
    let memberLine := trim (stripLineComment l)
    if memberLine == ">".toList then
      parseTypes rest none
        (Map.set td structName { type := "struct".toList, aliasedTo := [], fields := fields })
    else if memberLine.isEmpty then parseTypes rest (some (structName, fields)) td
    else
      match regex_match varRegex memberLine with
      | some memberMatch =>
        parseTypes rest
          (some (structName, addFields (trim (sub memberMatch 2))
            (split (trim (sub memberMatch 1)) ',') fields)) td
      | none => parseTypes rest (some (structName, fields)) td
  | l :: rest, none, td =>
    let line := trim (stripLineComment l)
    if line.isEmpty then parseTypes rest none td
    else
      match regex_match typeAliasRegex line with
      | some m =>
        parseTypes rest none
          (Map.set td (sub m 1) { type := "alias".toList, aliasedTo := sub m 2, fields := [] })
      | none =>
        match regex_match typeStructStartRegex line with
        | some m => parseTypes rest (some (sub m 1, [])) td
        | none => parseTypes rest none td

/-- What `parseKamus` leaves behind: the two globals and the exception it
threw, if any. -/
structure KamusResult (D : Type) where
  typeDefinitions : TypeDefs
  environment : Env D
  error : Option Err

/-- The loop of `parseKamus` over the names of one variable declaration. -/
def declareVars (td : TypeDefs) (fuel : Nat) (resolvedType : Str) :
    List Str → Env D → Option (Env D × Option Err)
  | [], env => some (env, none)
  | v :: vars, env =>
    let varName := trim v
    if varName.isEmpty then declareVars td fuel resolvedType vars env
    else
      match createDefaultValue td fuel resolvedType with
      | none => none
      | some (.error e) => some (env, some e)
      | some (.ok defaultValue) =>
        declareVars td fuel resolvedType vars
          (Map.set env varName { value := defaultValue, type := resolvedType, isConst := false })

/-- The branch of `parseKamus` for a line `const NAME : TYPE = VALUE`. -/
def declareConst (td : TypeDefs) (m : Caps) (env : Env D) : Env D × Option Err :=
  let varName := trim (sub m 1)
  let typeName := trim (sub m 2)
  let valueStrRaw := trim (sub m 3)
  match resolveType td typeName with
  | .error e => (env, some e)
  | .ok resolvedType =>
    match parseType resolvedType with
    | .error e => (env, some e)
    | .ok pt =>
      if pt.baseType == "string".toList
          && (valueStrRaw.head? != some (Char.ofNat 34)
            || valueStrRaw.getLast? != some (Char.ofNat 34)) then
        (env, some (.constString varName))
      else if pt.baseType == "character".toList
          && (valueStrRaw.head? != some (Char.ofNat 39)
            || valueStrRaw.getLast? != some (Char.ofNat 39)) then
        (env, some (.constCharacter varName))
      else
        let valueToCast :=
          if (pt.baseType == "string".toList || pt.baseType == "character".toList)
              && valueStrRaw.length > 1 then
            substr valueStrRaw 1 (valueStrRaw.length - 2)
          else valueStrRaw
        match castValue td (.str valueToCast) resolvedType with
        | .error e => (env, some e)
        | .ok value =>
          (Map.set env varName { value := value, type := resolvedType, isConst := true }, none)

/-- The second loop of `parseKamus`, over the lines that are left; `skipping`
says that the loop is inside the `while` that looks for a line with a `>`. -/
def parseBindings (td : TypeDefs) (fuel : Nat) :
    List Str → Bool → Env D → Option (Env D × Option Err)
  | [], _, env => some (env, none)
  | l :: rest, true, env =>
    if l.contains '>' then parseBindings td fuel rest false env
    else parseBindings td fuel rest true env
  | l :: rest, false, env =>
    let line := trim (stripLineComment l)
    if line.isEmpty || startsWith line "type ".toList then
      if line.contains '<' then
        if l.contains '>' then parseBindings td fuel rest false env
        else parseBindings td fuel rest true env
      else parseBindings td fuel rest false env
    else
      match regex_match constRegex line with
      | some m =>
        match declareConst td m env with
        | (env2, some e) => some (env2, some e)
        | (env2, none) => parseBindings td fuel rest false env2
      | none =>
        match regex_match varRegex line with
        | some m =>
          match resolveType td (trim (sub m 2)) with
          | .error e => some (env, some e)
          | .ok resolvedType =>
            match declareVars td fuel resolvedType (split (trim (sub m 1)) ',') env with
            | none => none
            | some (env2, some e) => some (env2, some e)
            | some (env2, none) => parseBindings td fuel rest false env2
        | none => parseBindings td fuel rest false env

/-- The function `parseKamus`, run on the global `environment`; `fuel` is the
bound for `createDefaultValue`, and `none` says that it did not suffice. -/
def parseKamus (fuel : Nat) (lines : List Str) (environment : Env D) : Option (KamusResult D) :=
  let td := parseTypes lines none initializeTypeSystem
  match parseBindings td fuel lines false environment with
  | none => none
  | some (env, error) => some { typeDefinitions := td, environment := env, error := error }

/-! ## Execution engine (`algoritma`) -/

/-- The state of the loop of `parseOutputArgs`. -/
structure ArgScan where
  parts : List Str
  currentPart : Str
  inString : Bool
  inChar : Bool
  bracketLevel : Int

/-- The body of the loop of `parseOutputArgs` for the character `c`. -/
def ArgScan.step (a : ArgScan) (c : Char) : ArgScan :=
  let a1 : ArgScan :=
    if c == Char.ofNat 34 && !a.inChar then { a with inString := !a.inString }
    else if c == Char.ofNat 39 && !a.inString then { a with inChar := !a.inChar }
    else if c == '[' && !a.inString && !a.inChar then { a with bracketLevel := a.bracketLevel + 1 }
    else if c == ']' && !a.inString && !a.inChar then { a with bracketLevel := a.bracketLevel - 1 }
    else a
  if c == ',' && !a1.inString && !a1.inChar && a1.bracketLevel == 0 then
    { a1 with parts := a1.parts ++ [trim a1.currentPart], currentPart := [] }
  else { a1 with currentPart := a1.currentPart ++ [c] }

/-- The helper `parseOutputArgs`. -/
def parseOutputArgs (args : Str) : List Str :=
  let a := args.foldl ArgScan.step
    { parts := [], currentPart := [], inString := false, inChar := false, bracketLevel := 0 }
  a.parts ++ [trim a.currentPart]

/-- The first statement of a line, as `findJumpTarget` and `findMatchingBlock`
read it. -/
def firstStatementOf (line : Str) : Str :=
  if line.contains ';' then trim (first (split line ';')) else line

/-- The end keyword `findJumpTarget` looks for. -/
def matchingEndOf (startKeyword : Str) : Str :=
  if startKeyword == "repeat".toList then "untuk".toList
  else if startKeyword == "while".toList then "endwhile".toList
  else if startKeyword == "for".toList then "endfor".toList
  else if startKeyword == "if".toList || startKeyword == "else".toList then "endif".toList
  else []

/-- The loop of `findJumpTarget` from line `i` on, `rest` being the lines from
there. -/
def findJumpScan (startKeyword matchingEnd : Str) (targets : List Str) :
    List Str → Nat → Nat → Option Nat
  | [], _, _ => none
  | l :: rest, i, nestingLevel =>
    let line := trim (stripLineComment l)
    if line.isEmpty then findJumpScan startKeyword matchingEnd targets rest (i + 1) nestingLevel
    else
      let firstStatement := firstStatementOf line
      if firstStatement.isEmpty then
        findJumpScan startKeyword matchingEnd targets rest (i + 1) nestingLevel
      else
        let keyword := first (split firstStatement ' ')
        if keyword == startKeyword then
          findJumpScan startKeyword matchingEnd targets rest (i + 1) (nestingLevel + 1)
        else if startsWith firstStatement matchingEnd then
          if nestingLevel == 0 then
            if targets.any (fun t => startsWith firstStatement t) then some i
            else findJumpScan startKeyword matchingEnd targets rest (i + 1) nestingLevel
          else findJumpScan startKeyword matchingEnd targets rest (i + 1) (nestingLevel - 1)
        else if nestingLevel == 0 then
          if targets.any (fun t => startsWith firstStatement t) then some i
          else findJumpScan startKeyword matchingEnd targets rest (i + 1) nestingLevel
        else findJumpScan startKeyword matchingEnd targets rest (i + 1) nestingLevel

/-- The function `findJumpTarget`; the result is the field `pc`. -/
def findJumpTarget (lines : List Str) (startPC : Nat) (targets : List Str) : Nat :=
  let startLine := trim (stripLineComment (lines.getD startPC []))
  let startKeyword := first (split startLine ' ')
  match findJumpScan startKeyword (matchingEndOf startKeyword) targets
      (lines.drop (startPC + 1)) (startPC + 1) 0 with
  | some i => i
  | none => lines.length - 1

/-- The end keyword `findMatchingBlock` counts. -/
def endKeywordOf (startKeyword : Str) : Str :=
  if startKeyword == "repeat".toList then "untuk".toList
  else if startKeyword == "while".toList then "endwhile".toList
  else if startKeyword == "for".toList then "endfor".toList
  else []

/-- The loop of `findMatchingBlock`, downwards; `before` holds the lines
before the current one in reverse, so that its head is line `before.length - 1`. -/
def findBlockScan (startKeyword endKeyword : Str) : List Str → Nat → Option Nat
  | [], _ => none
  | l :: before, nestingLevel =>
    let line := trim (stripLineComment l)
    if line.isEmpty then findBlockScan startKeyword endKeyword before nestingLevel
    else
      let firstStatement := firstStatementOf line
      if firstStatement.isEmpty then findBlockScan startKeyword endKeyword before nestingLevel
      else if startsWith firstStatement endKeyword then
        findBlockScan startKeyword endKeyword before (nestingLevel + 1)
      else if startsWith firstStatement startKeyword then
        if nestingLevel == 0 then some before.length
        else findBlockScan startKeyword endKeyword before (nestingLevel - 1)
      else findBlockScan startKeyword endKeyword before nestingLevel

/-- The function `findMatchingBlock`; `none` is the result `-1`. -/
def findMatchingBlock (lines : List Str) (endPC : Nat) (startKeyword : Str) : Option Nat :=
  findBlockScan startKeyword (endKeywordOf startKeyword) (lines.take endPC).reverse 0

/-- The helper `prettyPrintAny`. -/
def prettyPrintAny : Value D → Str
  | .str s => s
  | .bool b => if b then "true".toList else "false".toList
  | .int n => to_string n
  | .real d => StdDouble.to_string d
  | .arr _ => "[Array]".toList
  | .struct _ => "[Struct]".toList
  | v => anyToString v

/-- The pattern `^\s*([\w\.\[\]'""]+)\s*=\s*(.+)$` of the assignment. -/
def assignRegex : Regex :=
  cat [bol, star true (chr isSpace),
    group 1 (plus (chr (fun c => isWord c || c == '.' || c == '[' || c == ']'
      || c == Char.ofNat 39 || c == Char.ofNat 34))),
    star true (chr isSpace), lit '=', star true (chr isSpace), group 2 (plus (chr isDot)), eol]

/-- The pattern `^if\s+(.+)\s+then$`. -/
def ifRegex : Regex :=
  cat [bol, text "if".toList, plus (chr isSpace), group 1 (plus (chr isDot)),
    plus (chr isSpace), text "then".toList, eol]

/-- The pattern `^for\s+(\w+)\s*=\s*(.+)\s+to\s+(.+)\s+do$`. -/
def forRegex : Regex :=
  cat [bol, text "for".toList, plus (chr isSpace), group 1 (plus (chr isWord)),
    star true (chr isSpace), lit '=', star true (chr isSpace), group 2 (plus (chr isDot)),
    plus (chr isSpace), text "to".toList, plus (chr isSpace), group 3 (plus (chr isDot)),
    plus (chr isSpace), text "do".toList, eol]

/-- The pattern `^while\s+(.+)\s+do$`. -/
def whileRegex : Regex :=
  cat [bol, text "while".toList, plus (chr isSpace), group 1 (plus (chr isDot)),
    plus (chr isSpace), text "do".toList, eol]

/-- The pattern `^untuk\s+(.+)$`. -/
def untukRegex : Regex :=
  cat [bol, text "untuk".toList, plus (chr isSpace), group 1 (plus (chr isDot)), eol]

/-- The globals a run of `executeAlgoritma` changes, and the lines that
`std::cin` still holds. -/
structure State (D : Type) where
  environment : Env D
  outputBuffer : List Str
  inputTokenBuffer : List Str
  input : List Str

/-- How the execution of a statement, or of a line, ends. -/
inductive Flow (D : Type) where
  /-- It is done; control goes on with what follows. -/
  | next (st : State D)
  /-- The program counter was assigned (`didJump`); the rest of the line is
  skipped. -/
  | jump (pc : Nat) (st : State D)
  /-- An exception was caught: the diagnostic is printed and the process exits. -/
  | fail (e : Err) (st : State D)
  /-- The statement waits for input that never comes. -/
  | hang

/-- The words `ss >> buf` reads from a line; `acc` is the word being read,
reversed. -/
def tokensGo : Str → Str → List Str
  | [], acc => if acc.isEmpty then [] else [acc.reverse]
  | c :: cs, acc =>
    if isSpace c then
      if acc.isEmpty then tokensGo cs [] else acc.reverse :: tokensGo cs []
    else tokensGo cs (c :: acc)

/-- The refill of the token buffer in the `input` statement: lines are read
until one holds a word; at the end of the input the loop never ends (`none`). -/
def fetchToken : List Str → Option (Str × List Str × List Str)
  | [] => none
  | l :: input =>
    match tokensGo l [] with
    | [] => fetchToken input
    | t :: ts => some (t, ts, input)

/-- The loop `while (token.empty())` of the `input` statement: the token, the
buffer and the input afterwards. -/
def nextToken (buffer input : List Str) : Option (Str × List Str × List Str) :=
  match buffer.dropWhile (fun t => t.isEmpty) with
  | t :: rest => some (t, rest, input)
  | [] => fetchToken input

/-- The loop of the `input` statement over its targets. -/
def readInputs (td : TypeDefs) : List Str → State D → Flow D
  | [], st => .next st
  | v :: vars, st =>
    match nextToken st.inputTokenBuffer st.input with
    | none => .hang
    | some (token, buffer, input) =>
      match assignValue td v (.str token) st.environment with
      | (env, some e) =>
        .fail e { st with environment := env, inputTokenBuffer := buffer, input := input }
      | (env, none) =>
        readInputs td vars { st with environment := env, inputTokenBuffer := buffer, input := input }

/-- The loop of the `output` statement over its arguments: the line built. -/
def outputLineOf (env : Env D) : List Str → Except Err Str
  | [] => .ok []
  | [p] =>
    match evaluateExpression p env with
    | .error e => .error e
    | .ok value => .ok (prettyPrintAny value)
  | p :: q :: ps =>
    match evaluateExpression p env with
    | .error e => .error e
    | .ok value =>
      match outputLineOf env (q :: ps) with
      | .error e => .error e
      | .ok rest => .ok (prettyPrintAny value ++ (' ' :: rest))

/-- The name of the entry that holds the upper bound of the `for` loop over
`loopVar`. -/
def forEndName (loopVar : Str) : Str := "__FOR_".toList ++ loopVar ++ "_END__".toList

/-- The access `environment[name]`: an entry that is missing is made, with an
empty `std::any`. -/
def touch (env : Env D) (name : Str) : Env D :=
  if Map.has env name then env
  else Map.set env name { value := .empty, type := [], isConst := false }

/-- The value `environment[name].value` after `touch`. -/
def valueOf (env : Env D) (name : Str) : Value D :=
  match Map.find env name with
  | some v => v.value
  | none => .empty

/-- The text `line.substr(n, line.length() - (n + 1))` of `output(` and
`input(`: what follows the first `n` characters, without the last character. -/
def callContent (line : Str) (n : Nat) : Str :=
  if line.length ≥ n + 1 then substr line n (line.length - (n + 1)) else line.drop n

/-- The body of the loop of `executeAlgoritma` over the statements of a line:
the statement `line`, trimmed and not empty, of line `pc`. -/
def executeStatement (td : TypeDefs) (lines : List Str) (pc : Nat) (line : Str) (st : State D) :
    Flow D :=
  if startsWith line "output(".toList then
    match outputLineOf st.environment (parseOutputArgs (callContent line 7)) with
    | .error e => .fail e st
    | .ok outputLine => .next { st with outputBuffer := st.outputBuffer ++ [outputLine] }
  else if startsWith line "input(".toList then
    readInputs td (parseOutputArgs (callContent line 6)) st
  else if line.contains '=' && !startsWith line "if ".toList && !startsWith line "for ".toList then
    match regex_match assignRegex line with
    | none => .fail (.statementAssign line) st
    | some m =>
      match evaluateExpression (trim (sub m 2)) st.environment with
      | .error e => .fail e st
      | .ok value =>
        match assignValue td (trim (sub m 1)) value st.environment with
        | (env, some e) => .fail e { st with environment := env }
        | (env, none) => .next { st with environment := env }
  else if startsWith line "if ".toList then
    match regex_match ifRegex line with
    | none => .fail (.ifSyntax line) st
    | some m =>
      match evaluateExpression (sub m 1) st.environment with
      | .error e => .fail e st
      | .ok (.bool result) =>
        if !result then
          .jump (findJumpTarget lines pc ["else if".toList, "else".toList, "endif".toList]) st
        else .next st
      | .ok _ => .fail .badAnyCast st
  else if startsWith line "else if".toList then
    .jump (findJumpTarget lines pc ["endif".toList]) st
  else if line == "else".toList then
    .jump (findJumpTarget lines pc ["endif".toList]) st
  else if line == "endif".toList then .next st
  else if startsWith line "for ".toList then
    match regex_match forRegex line with
    | none => .fail (.forSyntax line) st
    | some m =>
      let loopVar := sub m 1
      match evaluateExpression (sub m 2) st.environment with
      | .error e => .fail e st
      | .ok (.int startVal) =>
        match evaluateExpression (sub m 3) st.environment with
        | .error e => .fail e st
        | .ok (.int endVal) =>
          let env1 := Map.set st.environment (forEndName loopVar)
            { value := .int endVal, type := "integer".toList, isConst := false }
          match assignValue td loopVar (.int startVal) env1 with
          | (env2, some e) => .fail e { st with environment := env2 }
          | (env2, none) =>
            if startVal > endVal then
              .jump (findJumpTarget lines pc ["endfor".toList]) { st with environment := env2 }
            else .next { st with environment := env2 }
        | .ok _ => .fail .badAnyCast st
      | .ok _ => .fail .badAnyCast st
  else if line == "endfor".toList then
    match findMatchingBlock lines pc "for".toList with
    | none => .fail .endforWithoutFor st
    | some forLinePC =>
      let forLine := trim (stripLineComment (lines.getD forLinePC []))
      let loopVar :=
        match regex_match forRegex forLine with
        | some m => sub m 1
        | none => []
      let env1 := touch st.environment (forEndName loopVar)
      match valueOf env1 (forEndName loopVar) with
      | .int endVal =>
        let env2 := touch env1 loopVar
        match valueOf env2 loopVar with
        | .int current =>
          let currentVal := wrapInt (current + 1)
          match assignValue td loopVar (.int currentVal) env2 with
          | (env3, some e) => .fail e { st with environment := env3 }
          | (env3, none) =>
            if currentVal ≤ endVal then .jump (forLinePC + 1) { st with environment := env3 }
            else .next { st with environment := Map.erase env3 (forEndName loopVar) }
        | _ => .fail .badAnyCast { st with environment := env2 }
      | _ => .fail .badAnyCast { st with environment := env1 }
  else if startsWith line "while ".toList then
    match regex_match whileRegex line with
    | none => .fail (.whileSyntax line) st
    | some m =>
      match evaluateExpression (sub m 1) st.environment with
      | .error e => .fail e st
      | .ok (.bool result) =>
        if !result then .jump (findJumpTarget lines pc ["endwhile".toList] + 1) st
        else .next st
      | .ok _ => .fail .badAnyCast st
  else if line == "endwhile".toList then
    match findMatchingBlock lines pc "while".toList with
    | none => .fail .endwhileWithoutWhile st
    | some whileLinePC => .jump whileLinePC st
  else if line == "repeat".toList then .next st
  else if startsWith line "untuk ".toList then
    match regex_match untukRegex line with
    | none => .fail (.untukSyntax line) st
    | some m =>
      match evaluateExpression (sub m 1) st.environment with
      | .error e => .fail e st
      | .ok (.bool result) =>
        match findMatchingBlock lines pc "repeat".toList with
        | none => .fail .untukWithoutRepeat st
        | some repeatLinePC => if result then .jump (repeatLinePC + 1) st else .next st
      | .ok _ => .fail .badAnyCast st
  else .fail (.unknownStatement line) st

/-- The loop of `executeAlgoritma` over the statements of line `pc`. -/
def executeStatements (td : TypeDefs) (lines : List Str) (pc : Nat) :
    List Str → State D → Flow D
  | [], st => .next st
  | s :: rest, st =>
    if (trim s).isEmpty then executeStatements td lines pc rest st
    else
      match executeStatement td lines pc (trim s) st with
      | .next st2 => executeStatements td lines pc rest st2
      | r => r

/-- One round of the `while (pc < lines.size())` loop of `executeAlgoritma`, at
line `pc`; `next` stands for `pc++`. -/
def executeLine (td : TypeDefs) (lines : List Str) (pc : Nat) (st : State D) : Flow D :=
  let fullLine := trim (stripLineComment (lines.getD pc []))
  if fullLine.isEmpty then .next st
  else executeStatements td lines pc (split fullLine ';') st

/-- How a run of `executeAlgoritma` ends. -/
inductive Run (D : Type) where
  /-- The program counter left the program: the function returns. -/
  | finished (st : State D)
  /-- A statement of line `pc` threw: the process exits with status 1. -/
  | failed (pc : Nat) (e : Err) (st : State D)
  /-- The run waits for input that never comes. -/
  | blocked
  /-- The run is still going, at line `pc`, after the rounds allowed. -/
  | running (pc : Nat) (st : State D)

/-- The function `executeAlgoritma` from line `pc` on, for at most `fuel`
rounds of its loop. -/
def executeFrom (td : TypeDefs) (lines : List Str) : Nat → Nat → State D → Run D
  | 0, pc, st => if pc < lines.length then .running pc st else .finished st
  | fuel + 1, pc, st =>
    if pc < lines.length then
      match executeLine td lines pc st with
      | .next st2 => executeFrom td lines fuel (pc + 1) st2
      | .jump pc2 st2 => executeFrom td lines fuel pc2 st2
      | .fail e st2 => .failed pc e st2
      | .hang => .blocked
    else .finished st

/-- The function `executeAlgoritma`, for at most `fuel` rounds of its loop. -/
def executeAlgoritma (td : TypeDefs) (lines : List Str) (fuel : Nat) (st : State D) : Run D :=
  executeFrom td lines fuel 0 st

end Interpreter

/-! ## A decimal model of `double`, for closed examples -/

/-- A `double` that is read from a plain decimal numeral, kept exactly: the
value is `digits / 10 ^ scale`, negated when `neg`.  Exponents, hexadecimal
numerals, infinities, NaN and the rounding to 53 bits are not modelled; the
theorems on the interpreter hold for every `StdDouble`, and this one only
serves to run the interpreter on concrete programs. -/
structure Decimal where
  neg : Bool
  digits : Nat
  scale : Nat
  deriving DecidableEq

/-- The function `std::stod` on `[ws][+-]digits[.digits]`. -/
def Decimal.stod (s : Str) : Option Decimal :=
  let s1 := s.dropWhile isSpace
  let neg := s1.head? == some '-'
  let s2 := if s1.head? == some '-' || s1.head? == some '+' then s1.drop 1 else s1
  let whole := s2.takeWhile Char.isDigit
  let s3 := s2.dropWhile Char.isDigit
  let frac := if s3.head? == some '.' then (s3.drop 1).takeWhile Char.isDigit else []
  if whole.isEmpty && frac.isEmpty then none
  else some { neg := neg, digits := digitsVal (whole ++ frac), scale := frac.length }

/-- The function `std::to_string(double)`, the format `%f`: six digits after
the point.  The exact decimal is rounded half up, where the code prints the
nearest binary `double`; the two differ at ties such as 0.0000005. -/
def Decimal.to_string (d : Decimal) : Str :=
  let micro : Nat :=
    if d.scale ≤ 6 then d.digits * 10 ^ (6 - d.scale)
    else (d.digits + 10 ^ (d.scale - 6) / 2) / 10 ^ (d.scale - 6)
  let frac := natToStr 7 (micro % 1000000)
  let body := natToStr (micro + 1) (micro / 1000000)
    ++ ('.' :: (List.replicate (6 - frac.length) '0' ++ frac))
  if d.neg then '-' :: body else body

instance decimalDouble : StdDouble Decimal where
  stod := Decimal.stod
  to_string := Decimal.to_string
  zero := { neg := false, digits := 0, scale := 0 }

/-! ## Auxiliary definitions of the proofs -/

/-- The step of a one-character class, as `Regex.run` performs it. -/
def chrStep (p : Char → Bool) : Str → Caps → Cont → Option Hit := fun s c k =>
  match s with
  | [] => none
  | x :: xs => if p x then k xs c else none

/-- The environment after `const x : integer = 5`. -/
def constEnv : Env Decimal :=
  [("x".toList, { value := .int 5, type := "integer".toList, isConst := true })]

/-! ## Example programs -/

/-- A state with the environment `env`, nothing printed and nothing to read. -/
def startState (env : Env Decimal) : State Decimal :=
  { environment := env, outputBuffer := [], inputTokenBuffer := [], input := [] }

/-- An integer variable that is not const. -/
def intVar (n : Int) : Variable Decimal :=
  { value := .int n, type := "integer".toList, isConst := false }

/-- The if-block of claim C3. -/
def ifElseProgram : List Str :=
  ["if false then".toList, ['o', 'u', 't', 'p', 'u', 't', '(', Char.ofNat 34, 'a', Char.ofNat 34, ')'],
    "else".toList, ['o', 'u', 't', 'p', 'u', 't', '(', Char.ofNat 34, 'b', Char.ofNat 34, ')'],
    "endif".toList]

/-- A post-test loop whose condition is the literal `true`. -/
def repeatProgram : List Str :=
  ["repeat".toList, ['o', 'u', 't', 'p', 'u', 't', '(', Char.ofNat 34, 'a', Char.ofNat 34, ')'],
    "untuk true".toList]

/-- A counted loop with no iteration whose body assigns a variable named
`endforce`. -/
def endforceProgram : List Str :=
  ["for i = 5 to 1 do".toList, "endforce = 1".toList, "output(i)".toList, "endfor".toList]

/-- A pre-test loop with a false condition whose body assigns a variable named
`endwhiles`. -/
def endwhilesProgram : List Str :=
  ["while false do".toList, "endwhiles = 1".toList, "output(endwhiles)".toList, "endwhile".toList]

/-- A pre-test loop whose body assigns a variable named `whilego`. -/
def whilegoProgram : List Str :=
  ["while go do".toList, "whilego = 1".toList, "go = false".toList, "endwhile".toList]

/-- A post-test loop whose condition is the literal `false`. -/
def repeatOnceProgram : List Str :=
  ["repeat".toList, ['o', 'u', 't', 'p', 'u', 't', '(', Char.ofNat 34, 'a', Char.ofNat 34, ')'],
    "untuk false".toList]

/-! ## Vocabulary of the claim on the counted loop -/

/-- The line `for i = S to E do` with the literals in the digits of
`std::to_string`. -/
def forText (i : Str) (S E : Int) : Str :=
  "for ".toList ++ (i ++ (" = ".toList ++ (to_string S ++ (" to ".toList ++ (to_string E
    ++ " do".toList)))))

/-- A line whose first statement does not begin with the letters `for` or
`endfor`. -/
def noForKeyword (l : Str) : Bool :=
  !startsWith (firstStatementOf (trim (stripLineComment l))) "for".toList
    && !startsWith (firstStatementOf (trim (stripLineComment l))) "endfor".toList

/-- The variable `name` takes the integer value `k`; its type and const flag
stay. -/
def setInt {D : Type} (env : Env D) (name : Str) (k : Int) : Env D :=
  match Map.find env name with
  | some v => Map.set env name { v with value := .int k }
  | none => env

/-- One pass through `count` lines from line `pc` on, each of them executed
without an exception and without a jump; `none` otherwise. -/
def runBody {D : Type} [StdDouble D] (td : TypeDefs) (lines : List Str) :
    Nat → Nat → State D → Option (State D)
  | 0, _, st => some st
  | count + 1, pc, st =>
    match executeLine td lines pc st with
    | .next st2 => runBody td lines count (pc + 1) st2
    | _ => none

/-- The counted loop as the claim describes it: `n` times, the variable `i`
takes the next value, from `k` on, and the `count` lines of the body from line
`pc` on are run. -/
def forIterations {D : Type} [StdDouble D] (td : TypeDefs) (lines : List Str) (pc count : Nat)
    (i : Str) : Nat → Int → State D → Option (State D)
  | 0, _, st => some st
  | n + 1, k, st =>
    match runBody td lines count pc { st with environment := setInt st.environment i k } with
    | some st2 => forIterations td lines pc count i n (k + 1) st2
    | none => none

/-! ## Vocabulary of the claims on expressions -/

/-- A character of an operand text: a digit, a minus sign or a word character. -/
def operandChar (c : Char) : Bool := c.isDigit || c == '-' || isWord c

/-- A name as the patterns read one: `[\w]+`. -/
def isName (x : Str) : Bool := !x.isEmpty && x.all isWord

/-- The path `rec.field[idx]`. -/
def fieldIndexPath (rec field idx : Str) : Str :=
  rec ++ ('.' :: (field ++ ('[' :: (idx ++ [']']))))

/-- An identifier: a letter or an underscore, followed by word characters. -/
def isIdentifier : Str → Bool
  | [] => false
  | c :: cs => !c.isDigit && (c :: cs).all isWord

/-- An operand of the claims on operators: an integer literal or a variable. -/
inductive Operand where
  | lit (n : Int)
  | var (name : Str)

/-- The text of an operand, a literal in the digits of `std::to_string`. -/
def Operand.text : Operand → Str
  | .lit n => to_string n
  | .var name => name

/-- A literal that is an `int`, or a variable whose name is an identifier. -/
def Operand.wellFormed : Operand → Bool
  | .lit n => decide (-2147483648 ≤ n ∧ n ≤ 2147483647)
  | .var name => isIdentifier name

/-- The relational operators. -/
def comparisonOperators : List Str :=
  ["<".toList, "<=".toList, ">".toList, ">=".toList, "=".toList, "<>".toList]

/-- The text `a op b`, with one blank on each side of the operator. -/
def binaryText (a op b : Str) : Str := a ++ (' ' :: (op ++ (' ' :: b)))

/-- An environment with the integer variables `x = 1` and `y = 2`. -/
def xyEnv : Env Decimal := [("x".toList, intVar 1), ("y".toList, intVar 2)]

/-- Declarations of a record type `R` with an array member and of a variable
`r` of that type. -/
def recordKamus : List Str :=
  ["type R <".toList, "a : integer[3]".toList, "b : integer".toList, ">".toList, "r : R".toList,
    "n : integer".toList]

/-- The types after `recordKamus`. -/
def recordTypes : TypeDefs :=
  Map.set initializeTypeSystem "R".toList
    { type := "struct".toList, aliasedTo := [],
      fields := [("a".toList, "integer[3]".toList), ("b".toList, "integer".toList)] }

/-- The environment after `recordKamus`, the member `a` of `r` holding the
array `xs`. -/
def recordEnv (xs : List (Value Decimal)) : Env Decimal :=
  [("r".toList,
      { value := .struct [("a".toList, .arr xs), ("b".toList, .int 0)], type := "R".toList,
        isConst := false }),
    ("n".toList, intVar 0)]

/-- The part `\s+to\s+(.+)\s+do$` of the pattern of `for`. -/
def forTail : Regex :=
  .seq (.plus (.chr isSpace)) (.seq (.text "to".toList) (.seq (.plus (.chr isSpace))
    (.seq (.group 3 (.plus (.chr isDot)))
      (.seq (.plus (.chr isSpace)) (.seq (.text "do".toList) .eol)))))

/-- A counted loop that prints its variable. -/
def countProgram : List Str :=
  ["for i = 1 to 3 do".toList, "output(i)".toList, "endfor".toList]

/-- A counted loop whose body assigns the bookkeeping entry of the loop. -/
def boundProgram : List Str :=
  ["for i = 1 to 3 do".toList, "__FOR_i_END__ = 1".toList, "output(i)".toList, "endfor".toList]

/-- An if-block whose `else` branch holds a complete nested if-block. -/
def nestedIfProgram : List Str :=
  ["if true then".toList, "output(1)".toList, "else".toList, "if false then".toList,
    "output(2)".toList, "endif".toList, "output(3)".toList, "endif".toList]

/-! ## Vocabulary of the claim on the cast to integer -/

/-- The integer that the digits `ds` behind the sign `sign` denote; `sign` is
empty, `+` or `-`. -/
def numeralValue (sign ds : Str) : Int :=
  if sign = ['-'] then -(digitsVal ds : Int) else (digitsVal ds : Int)

/-- A value in the range of `int`. -/
def inIntRange (v : Int) : Bool := decide (-2147483648 ≤ v ∧ v ≤ 2147483647)

/-! ## Vocabulary of the claim on operands that do not fit -/

/-- A literal that is no number: a text in double quotes or a Boolean. -/
inductive NonNumber where
  /-- The text `s` in double quotes. -/
  | quoted (s : Str)
  /-- The literal `true` or `false`. -/
  | boolean (b : Bool)

/-- The text of a literal that is no number. -/
def NonNumber.text : NonNumber → Str
  | .quoted s => Char.ofNat 34 :: (s ++ [Char.ofNat 34])
  | .boolean b => if b then "true".toList else "false".toList

/-- The arithmetic operators. -/
def arithmeticOperators : List Char := ['+', '-', '*', '/']

/-! ## Vocabulary of the claim on `output` -/

/-- The texts `es` with the character `sep` between them. -/
def joinWith (sep : Char) : List Str → Str
  | [] => []
  | [e] => e
  | e :: e2 :: es => e ++ sep :: joinWith sep (e2 :: es)

/-- The scan of `parseOutputArgs` at its start. -/
def ArgScan.start : ArgScan :=
  { parts := [], currentPart := [], inString := false, inChar := false, bracketLevel := 0 }

/-- An argument text as `parseOutputArgs` needs it: the scan does not cut it
at a comma, and at its end is outside quotes and brackets. -/
def argClosed (e : Str) : Bool :=
  let a := e.foldl ArgScan.step ArgScan.start
  a.parts.isEmpty && !a.inString && !a.inChar && a.bracketLevel == 0

/-- The line `output("a,b", 1, true)`. -/
def commaTextLine : Str :=
  "output(".toList ++ (Char.ofNat 34 :: ("a,b".toList ++ (Char.ofNat 34 :: ", 1, true)".toList)))

/-- The text `"a;b"`, in its quotes. -/
def semicolonText : Str := Char.ofNat 34 :: ("a;b".toList ++ [Char.ofNat 34])

/-- The line `output("a;b")`. -/
def semicolonTextLine : Str := "output(".toList ++ (semicolonText ++ [')'])

/-! ## Vocabulary of the claims on `resolveType` -/

/-- The alias link of a name: the name it is defined as, when `typeDefinitions`
holds it as an alias. -/
def aliasNext (td : TypeDefs) (name : Str) : Option Str :=
  match Map.find td name with
  | some d => if d.type == "alias".toList then some d.aliasedTo else none
  | none => none

/-- The name `n` alias links after `name`, if the chain is that long. -/
def aliasChain (td : TypeDefs) : Nat → Str → Option Str
  | 0, name => some name
  | n + 1, name =>
    match aliasNext td name with
    | some next => aliasChain td n next
    | none => none

/-- The `while` loop of `resolveType` for at most `fuel` rounds: `none` when
the loop is still going after them. -/
def resolveWhile (td : TypeDefs) : Nat → List Str → Str → Option (Except Err Str)
  | 0, _, _ => none
  | fuel + 1, seen, current =>
    match Map.find td current with
    | none => some (.ok current)
    | some d =>
      if d.type == "alias".toList then
        if seen.contains current then some (.error (.circularType current))
        else resolveWhile td fuel (current :: seen) d.aliasedTo
      else some (.ok current)

/-- Declarations with a chain of aliases that ends and with two aliases of
each other. -/
def aliasKamus : List Str :=
  ["type A B".toList, "type B integer".toList, "type C D".toList, "type D C".toList]

/-- The type definitions after the declarations `aliasKamus`. -/
def aliasTypes : TypeDefs := parseTypes aliasKamus none initializeTypeSystem

/-- Declarations of a record with a member of a type that is not declared. -/
def holeKamus : List Str := ["type R <".toList, "x : foo".toList, ">".toList]

/-- The type definitions after the declarations `holeKamus`. -/
def holeTypes : TypeDefs := parseTypes holeKamus none initializeTypeSystem

/-! ## Vocabulary of the claim on the defaults of arrays -/

/-- The array of the dimensions `ds` with `v` in every place: `v` itself when
there is no dimension. -/
def nestedArray {D : Type} (v : Value D) : List Nat → Value D
  | [] => v
  | d :: ds => .arr (List.replicate d (nestedArray v ds))

/-- The default `createDefaultValue` computes for the base type before it
looks at the dimensions, `mk` being `createDefaultValue` for the members of a
record. -/
def baseDefault {D : Type} [StdDouble D] (mk : Str → Option (Except Err (Value D)))
    (baseType : Str) (typeDef : TypeDef) : Option (Except Err (Value D)) :=
  if typeDef.type == "primitive".toList then
    if baseType == "integer".toList then some (.ok (.int 0))
    else if baseType == "real".toList then some (.ok (.real StdDouble.zero))
    else if baseType == "boolean".toList then some (.ok (.bool false))
    else if baseType == "string".toList then some (.ok (.str []))
    else if baseType == "character".toList then some (.ok (.str []))
    else some (.ok .null)
  else if typeDef.type == "struct".toList then
    match defaultFields mk typeDef.fields [] with
    | none => none
    | some (.error e) => some (.error e)
    | some (.ok fs) => some (.ok (.struct fs))
  else some (.ok .null)

/-! ## Vocabulary of the claim on the cast to boolean -/

/-- The comparison of a text with `true` that ignores the case of letters. -/
def isTrueText (s : Str) : Bool := s.map Char.toLower == "true".toList

/-- The line `type P T` of a declarations section. -/
def typeAliasText (p t : Str) : Str := "type ".toList ++ (p ++ (' ' :: t))

/-! ## Vocabulary of the claims on index accessors -/

/-- The path `x[idx]`. -/
def indexPath (x idx : Str) : Str := x ++ ('[' :: (idx ++ [']']))

/-- The value is an array or a record, which `castValue` returns as it is. -/
def isContainer {D : Type} : Value D → Bool
  | .arr _ => true
  | .struct _ => true
  | _ => false

/-- The environment after the declaration `a : integer[3]`. -/
def rowEnv : Env Decimal :=
  [("a".toList, { value := .arr [.int 0, .int 0, .int 0], type := "integer[3]".toList,
                  isConst := false })]

/-- The environment after the declaration `s : string` and the assignment of
the text `abc` to `s`. -/
def textEnv : Env Decimal :=
  [("s".toList, { value := .str "abc".toList, type := "string".toList, isConst := false })]

/-! ## Vocabulary of the claim on type conformance -/

/-- The line `const NAME : TYPE = VALUE` of a declarations section. -/
def constText (name type value : Str) : Str :=
  "const ".toList ++ (name ++ (" : ".toList ++ (type ++ (" = ".toList ++ value))))

/-- The text between the first and the last character of `value`, and `value`
itself when it has one character only: the variable `valueToCast` for a
constant of text. -/
def unquoted (value : Str) : Str :=
  if value.length > 1 then substr value 1 (value.length - 2) else value

/-- The type definitions after `type Text string`. -/
def aliasTextTypes : TypeDefs :=
  Map.set initializeTypeSystem "Text".toList
    { type := "alias".toList, aliasedTo := "string".toList, fields := [] }

/-! ## Vocabulary of the claim on the end of createDefaultValue -/

/-- The base of the type that a type name resolves to: the field `baseType`
of `parseType(resolveType(typeName))`, when neither call raises. -/
def resolvedBase (td : TypeDefs) (typeName : Str) : Option Str :=
  match resolveType td typeName with
  | .error _ => none
  | .ok r =>
    match parseType r with
    | .error _ => none
    | .ok pt => some pt.baseType

/-- The base name `B` is registered, not as an alias, and when it is a record
the type of every field resolves to a base that is grounded in turn: every
field type that is reached from `B` resolves to a registered type, and no
record that is reached from `B` contains itself, directly or through other
records, aliases or arrays. -/
inductive Grounded (td : TypeDefs) : Str → Prop where
  /-- A registered name that is no record and no alias. -/
  | plain (B : Str) (d : TypeDef) : Map.find td B = some d →
      (d.type == "alias".toList) = false → (d.type == "struct".toList) = false → Grounded td B
  /-- A record all of whose field types resolve to grounded bases. -/
  | record (B : Str) (d : TypeDef) : Map.find td B = some d →
      (d.type == "struct".toList) = true →
      (∀ f ty, (f, ty) ∈ d.fields → (resolvedBase td ty).isSome = true) →
      (∀ f ty b, (f, ty) ∈ d.fields → resolvedBase td ty = some b → Grounded td b) →
      Grounded td B

/-- Declarations of a record with members that are a record, an array of
records and an alias of a primitive. -/
def nestedKamus : List Str :=
  ["type Num integer".toList, "type P <".toList, "x, y : Num".toList, ">".toList,
    "type L <".toList, "a : P".toList, "b : P[2]".toList, ">".toList]

/-- The type definitions after the declarations `nestedKamus`. -/
def nestedTypes : TypeDefs := parseTypes nestedKamus none initializeTypeSystem

/-! ## Vocabulary of the claim on the post-test loop -/

/-- A line whose first statement does not begin with the letters `repeat` or
`untuk`. -/
def noRepeatKeyword (l : Str) : Bool :=
  !startsWith (firstStatementOf (trim (stripLineComment l))) "repeat".toList
    && !startsWith (firstStatementOf (trim (stripLineComment l))) "untuk".toList

/-- The body of `count` lines from line `pc` on, run `n` times in a row, each
pass without an exception and without a jump; `none` otherwise. -/
def bodyPasses {D : Type} [StdDouble D] (td : TypeDefs) (lines : List Str) (pc count : Nat) :
    Nat → State D → Option (State D)
  | 0, st => some st
  | n + 1, st =>
    match runBody td lines count pc st with
    | some st2 => bodyPasses td lines pc count n st2
    | none => none

/-! # Theorems -/

/-! ## The regular expressions -/

section RegexLemmas
open Regex

theorem run_chr (total : Nat) (p : Char → Bool) : Regex.run total (.chr p) = chrStep p := by
  funext s c k
  cases s <;> simp [Regex.run, chrStep]

theorem starLoop_chr_fuel (g : Bool) (p : Char → Bool) (k : Cont) :
    ∀ (s : Str) (n : Nat) (c : Caps), s.length ≤ n →
      starLoop g (chrStep p) n s c k = starLoop g (chrStep p) s.length s c k := by
  intro s
  induction s with
  | nil =>
    intro n c _
    cases n with
    | zero => rfl
    | succ n =>
      cases g <;> simp [starLoop, chrStep]
      cases k [] c <;> rfl
  | cons x xs ih =>
    intro n c hn
    cases n with
    | zero => simp at hn
    | succ n =>
      have hn2 : xs.length ≤ n := by simpa using hn
      cases g <;> simp [starLoop, chrStep, ih n c hn2]

theorem star_nil (g : Bool) (total : Nat) (p : Char → Bool) (c : Caps) (k : Cont) :
    Regex.run total (.star g (.chr p)) [] c k = k [] c := by
  simp [Regex.run, starLoop]

theorem star_greedy_cons (total : Nat) (p : Char → Bool) (x : Char) (xs : Str) (c : Caps)
    (k : Cont) :
    Regex.run total (.star true (.chr p)) (x :: xs) c k
      = if p x then
          (Regex.run total (.star true (.chr p)) xs c k).orElse (fun _ => k (x :: xs) c)
        else k (x :: xs) c := by
  rw [Regex.run, Regex.run, run_chr]
  simp only [List.length_cons, starLoop]
  by_cases hp : p x <;> simp [hp, chrStep]
  cases starLoop true (chrStep p) (List.length xs) xs c k <;> rfl

theorem star_lazy_cons (total : Nat) (p : Char → Bool) (x : Char) (xs : Str) (c : Caps)
    (k : Cont) :
    Regex.run total (.star false (.chr p)) (x :: xs) c k
      = (k (x :: xs) c).orElse
          (fun _ => if p x then Regex.run total (.star false (.chr p)) xs c k else none) := by
  rw [Regex.run, Regex.run, run_chr]
  simp only [List.length_cons, starLoop]
  by_cases hp : p x <;> simp [hp, chrStep] <;> cases k (x :: xs) c <;> rfl


/-- A greedy class loop reads all of a run of class characters when what
follows is accepted there. -/
theorem star_greedy_append_some (total : Nat) (p : Char → Bool) (k : Cont) (rest : Str) (c : Caps)
    (h : Hit) (hk : Regex.run total (.star true (.chr p)) rest c k = some h) :
    ∀ w : Str, (∀ x ∈ w, p x = true) →
      Regex.run total (.star true (.chr p)) (w ++ rest) c k = some h := by
  intro w
  induction w with
  | nil => intro _; simpa using hk
  | cons x xs ih =>
    intro hw
    have hx : p x = true := hw x (List.mem_cons_self _ _)
    have hxs : ∀ y ∈ xs, p y = true := fun y hy => hw y (List.mem_cons_of_mem _ hy)
    rw [List.cons_append, star_greedy_cons, if_pos hx, ih hxs]
    rfl

/-- A class loop stops where the class ends. -/
theorem star_stop (g : Bool) (total : Nat) (p : Char → Bool) (k : Cont) (rest : Str) (c : Caps)
    (hrest : ∀ x ∈ rest.head?, p x = false) :
    Regex.run total (.star g (.chr p)) rest c k = k rest c := by
  cases rest with
  | nil => exact star_nil g total p c k
  | cons x xs =>
    have hx : p x = false := hrest x (by simp)
    cases g
    · rw [star_lazy_cons]; simp [hx]
    · rw [star_greedy_cons]; simp [hx]

/-- A greedy class loop fails when what follows is rejected at every place
the loop can stop. -/
theorem star_greedy_none (total : Nat) (p : Char → Bool) (k : Cont) (c : Caps) :
    ∀ s : Str, (∀ j, j ≤ s.length → k (s.drop j) c = none) →
      Regex.run total (.star true (.chr p)) s c k = none := by
  intro s
  induction s with
  | nil => intro h; rw [star_nil]; exact h 0 (Nat.le_refl _)
  | cons x xs ih =>
    intro h
    have h0 : k (x :: xs) c = none := h 0 (Nat.zero_le _)
    have hxs : ∀ j, j ≤ xs.length → k (xs.drop j) c = none := fun j hj => by
      have := h (j + 1) (by simpa using hj)
      simpa using this
    rw [star_greedy_cons, ih hxs]
    by_cases hp : p x = true <;> simp [hp, h0]


theorem run_seq (total : Nat) (a b : Regex) (s : Str) (c : Caps) (k : Cont) :
    Regex.run total (.seq a b) s c k
      = Regex.run total a s c (fun s2 c2 => Regex.run total b s2 c2 k) := by
  rw [Regex.run]

theorem run_group (total : Nat) (i : Nat) (r : Regex) (s : Str) (c : Caps) (k : Cont) :
    Regex.run total (.group i r) s c k
      = Regex.run total r s c (fun s2 c2 => k s2 ((i, s.take (s.length - s2.length)) :: c2)) := by
  rw [Regex.run]

theorem run_chr_cons (total : Nat) (p : Char → Bool) (x : Char) (xs : Str) (c : Caps) (k : Cont) :
    Regex.run total (.chr p) (x :: xs) c k = if p x then k xs c else none := by
  rw [Regex.run]

theorem run_chr_nil (total : Nat) (p : Char → Bool) (c : Caps) (k : Cont) :
    Regex.run total (.chr p) [] c k = none := by
  rw [Regex.run]

theorem run_eps (total : Nat) (s : Str) (c : Caps) (k : Cont) :
    Regex.run total .eps s c k = k s c := by
  rw [Regex.run]

theorem run_bol (total : Nat) (s : Str) (c : Caps) (k : Cont) :
    Regex.run total .bol s c k = if s.length = total then k s c else none := by
  rw [Regex.run]

theorem run_eol (total : Nat) (s : Str) (c : Caps) (k : Cont) :
    Regex.run total .eol s c k = if s.isEmpty then k s c else none := by
  rw [Regex.run]

theorem run_alt (total : Nat) (a b : Regex) (s : Str) (c : Caps) (k : Cont) :
    Regex.run total (.alt a b) s c k
      = (Regex.run total a s c k).orElse (fun _ => Regex.run total b s c k) := by
  rw [Regex.run]
  cases Regex.run total a s c k <;> rfl

/-- A greedy class loop gives back characters, one at a time, only while what
follows is rejected. -/
theorem star_greedy_append_none (total : Nat) (p : Char → Bool) (k : Cont) (rest : Str) (c : Caps)
    (hk : Regex.run total (.star true (.chr p)) rest c k = none) :
    ∀ w : Str, (∀ x ∈ w, p x = true) → (∀ j, j < w.length → k (w.drop j ++ rest) c = none) →
      Regex.run total (.star true (.chr p)) (w ++ rest) c k = none := by
  intro w
  induction w with
  | nil => intro _ _; simpa using hk
  | cons x xs ih =>
    intro hw hj
    have hx : p x = true := hw x (List.mem_cons_self _ _)
    have hxs : ∀ y ∈ xs, p y = true := fun y hy => hw y (List.mem_cons_of_mem _ hy)
    have h0 : k (x :: xs ++ rest) c = none := by simpa using hj 0 (by simp)
    have hrec : ∀ j, j < xs.length → k (xs.drop j ++ rest) c = none := fun j hj2 => by
      simpa using hj (j + 1) (by simpa using hj2)
    rw [List.cons_append, star_greedy_cons, if_pos hx, ih hxs hrec]
    simpa using h0

/-- A greedy class loop before the end of the subject reads all of it or
fails. -/
theorem star_greedy_to_end (total : Nat) (p : Char → Bool) (k : Cont) (f : Caps → Caps)
    (hk : ∀ s3 c3, k s3 c3 = if s3.isEmpty then some ([], f c3) else none) :
    ∀ (s : Str) (c : Caps),
      Regex.run total (.star true (.chr p)) s c k = if s.all p then some ([], f c) else none := by
  intro s
  induction s with
  | nil => intro c; rw [star_nil, hk]; simp
  | cons x xs ih =>
    intro c
    rw [star_greedy_cons, ih, hk]
    by_cases hp : p x = true
    · by_cases hall : xs.all p = true <;> simp [hp, hall]
    · simp [hp]

theorem baseMatch_run (x rest : Str) (hx : x ≠ []) (hword : ∀ c ∈ x, isWord c = true)
    (hrest : ∀ c ∈ rest.head?, isWord c = false) :
    regex_match baseMatchRegex (x ++ rest)
      = if rest.all isDot then some [(2, rest), (1, x)] else none := by
  obtain ⟨x0, xs, rfl⟩ := List.exists_cons_of_ne_nil hx
  have hx0 : isWord x0 = true := hword x0 (List.mem_cons_self _ _)
  have hxs : ∀ y ∈ xs, isWord y = true := fun y hy => hword y (List.mem_cons_of_mem _ hy)
  have hK : ∀ (total : Nat) (s2 : Str) (c : Caps),
      Regex.run total (.star true (.chr isDot)) s2 c
        (fun s3 c3 => if s3.isEmpty then some (s3, (2, s2.take (s2.length - s3.length)) :: c3) else none)
        = if s2.all isDot then some ([], (2, s2) :: c) else none := by
    intro total s2 c
    apply star_greedy_to_end total isDot _ (fun c3 => (2, s2) :: c3)
    intro s3 c3
    cases s3 <;> simp
  simp only [regex_match, atEnd, baseMatchRegex, Regex.cat, Regex.plus, run_seq, run_group,
    List.cons_append, run_chr_cons, hx0, if_true, hK]
  generalize hk1 : (fun (s2 : Str) (c2 : Caps) =>
      if List.all s2 isDot = true then
        some (([] : Str), (2, s2) ::
          (1, List.take ((x0 :: (xs ++ rest)).length - List.length s2) (x0 :: (xs ++ rest))) :: c2)
      else none) = k1
  have htake : List.take ((x0 :: (xs ++ rest)).length - rest.length) (x0 :: (xs ++ rest))
      = x0 :: xs := by
    have : (x0 :: (xs ++ rest)).length - rest.length = (x0 :: xs).length := by
      simp only [List.length_cons, List.length_append]; omega
    rw [this, ← List.cons_append, List.take_left]
  have hstop : Regex.run (x0 :: (xs ++ rest)).length (.star true (.chr isWord)) rest [] k1
      = k1 rest [] := star_stop _ _ _ _ _ _ hrest
  by_cases hall : rest.all isDot = true
  · have hval : k1 rest [] = some ([], [(2, rest), (1, x0 :: xs)]) := by
      rw [← hk1]; simp only [hall, if_true, htake]
    rw [star_greedy_append_some _ _ _ rest [] _ (hstop.trans hval) xs hxs]
    simp [hall]
  · have hnone : ∀ w2 : Str, k1 (w2 ++ rest) [] = none := by
      intro w2; rw [← hk1]; simp [hall]
    rw [star_greedy_append_none _ _ _ rest [] (hstop.trans (by simpa using hnone [])) xs hxs
      (fun j _ => hnone _)]
    simp [hall]

end RegexLemmas

/-! ## C1: assignment to a const -/

section
open Regex

/-- C1: in an environment where `x` is const, `assignValue` on any path whose
base identifier is `x` (the identifier followed by nothing or by accessors)
throws, whatever the value, and the environment after the call is the
environment before it: the const error for a path on one line, the syntax
error of the path otherwise. -/
theorem assignValue_const_rejected {D : Type} [StdDouble D] (td : TypeDefs) (env : Env D)
    (x rest : Str) (v : Variable D) (value : Value D)
    (hx : x ≠ []) (hword : ∀ c ∈ x, isWord c = true)
    (hrest : ∀ c ∈ rest.head?, isWord c = false)
    (hfind : Map.find env x = some v) (hconst : v.isConst = true) :
    assignValue td (x ++ rest) value env
      = (env, some (if rest.all isDot then Err.constant x else Err.assignSyntax (x ++ rest))) := by
  unfold assignValue
  rw [baseMatch_run x rest hx hword hrest]
  by_cases hall : rest.all isDot = true
  · simp [hall, sub, hfind, hconst]
  · simp [hall]

/-- C1, the instance of the claim: `parseKamus` on `const x : integer = 5`
declares the const `x` with value 5; on it `assignValue` of 6 to `x` throws the
const error, and so does the statement `x = 6`, at line 0, with `x` still 5. -/
theorem assignValue_const_rejected_witness :
    parseKamus 1 ["const x : integer = 5".toList] ([] : Env Decimal)
        = some { typeDefinitions := initializeTypeSystem, environment := constEnv, error := none }
      ∧ assignValue initializeTypeSystem "x".toList (.int 6) constEnv
        = (constEnv, some (.constant "x".toList))
      ∧ executeAlgoritma initializeTypeSystem ["x = 6".toList] 1 ⟨constEnv, [], [], []⟩
        = .failed 0 (.constant "x".toList) ⟨constEnv, [], [], []⟩ := by
  refine ⟨rfl, ?_, rfl⟩
  have h := assignValue_const_rejected initializeTypeSystem constEnv "x".toList [] ⟨.int 5, "integer".toList, true⟩
    (.int 6) (by decide) (by decide) (by simp) rfl rfl
  simpa using h

end

/-! ## Strings -/

section
open Regex

theorem dropWhile_eq_self {α : Type} (p : α → Bool) (l : List α)
    (h : ∀ c ∈ l.head?, p c = false) : l.dropWhile p = l := by
  cases l with
  | nil => rfl
  | cons x xs =>
    have hx : p x = false := h x (by simp)
    simp [List.dropWhile, hx]

/-- A text that starts and ends with something else than white space is its
own `trim`. -/
theorem trim_eq_self (s : Str) (hne : s ≠ []) (hhead : ∀ c ∈ s.head?, isSpace c = false)
    (hlast : ∀ c ∈ s.getLast?, isSpace c = false) : trim s = s := by
  obtain ⟨x, xs, rfl⟩ := List.exists_cons_of_ne_nil hne
  have hx : isSpace x = false := hhead x (by simp)
  have hall : (x :: xs).all isSpace = false := by simp [hx]
  have hrev : ∀ c ∈ ((x :: xs).reverse).head?, isSpace c = false := by
    intro c hc
    rw [List.head?_reverse] at hc
    exact hlast c hc
  simp only [trim, hall, dropWhile_eq_self isSpace (x :: xs) hhead,
    dropWhile_eq_self isSpace _ hrev, List.reverse_reverse]
  simp

/-- What `trim` returns for a text with a character that is not white space:
a text that neither starts nor ends with white space. -/
theorem trim_spec (s : Str) (hall : s.all isSpace = false) :
    trim s ≠ [] ∧ (∀ c ∈ (trim s).head?, isSpace c = false)
      ∧ (∀ c ∈ (trim s).getLast?, isSpace c = false) := by
  have hts : trim s = List.rdropWhile isSpace (s.dropWhile isSpace) := by
    simp [trim, hall, List.rdropWhile]
  have ht : s.dropWhile isSpace ≠ [] := by
    intro h
    rw [List.dropWhile_eq_nil_iff] at h
    have : s.all isSpace = true := by simpa using h
    rw [this] at hall
    exact Bool.noConfusion hall
  have hthead : isSpace ((s.dropWhile isSpace).head ht) = false := by
    have := List.head_dropWhile_not isSpace s ht
    simpa using this
  have hu : List.rdropWhile isSpace (s.dropWhile isSpace) ≠ [] := by
    intro h
    rw [List.rdropWhile_eq_nil_iff] at h
    have := h _ (List.head_mem ht)
    rw [hthead] at this
    exact Bool.noConfusion this
  obtain ⟨v, hv⟩ := List.rdropWhile_prefix isSpace (s.dropWhile isSpace)
  refine ⟨by rw [hts]; exact hu, ?_, ?_⟩
  · intro c hc
    rw [hts] at hc
    cases hu2 : List.rdropWhile isSpace (s.dropWhile isSpace) with
    | nil => exact absurd hu2 hu
    | cons y ys =>
      rw [hu2] at hc hv
      have hcy : c = y := by simpa using hc.symm
      have : (s.dropWhile isSpace).head ht = y := by
        simp [← hv]
      rw [hcy, ← this]
      exact hthead
  · intro c hc
    rw [hts] at hc
    have hlast := List.rdropWhile_last_not isSpace (s.dropWhile isSpace) hu
    rw [List.getLast?_eq_getLast _ hu] at hc
    have hc2 : c = (List.rdropWhile isSpace (s.dropWhile isSpace)).getLast hu := by
      simpa using hc.symm
    rw [hc2]
    simpa using hlast

theorem trim_idem (s : Str) : trim (trim s) = trim s := by
  by_cases hall : s.all isSpace = true
  · simp [trim, hall]
  · have hall2 : s.all isSpace = false := by simpa using hall
    obtain ⟨h1, h2, h3⟩ := trim_spec s hall2
    exact trim_eq_self _ h1 h2 h3

theorem splitGo_no_delimiter (d : Char) :
    ∀ (s acc : Str), d ∉ s →
      splitGo d s acc = if acc.isEmpty && s.isEmpty then [] else [acc.reverse ++ s] := by
  intro s
  induction s with
  | nil => intro acc _; cases acc <;> simp [splitGo]
  | cons x xs ih =>
    intro acc hd
    have hx : (x == d) = false := by
      have : x ≠ d := fun h => hd (by simp [h])
      simpa using this
    have hxs : d ∉ xs := fun h => hd (List.mem_cons_of_mem _ h)
    simp [splitGo, hx, ih (x :: acc) hxs]

/-- A text without the delimiter is the one piece of its `split`. -/
theorem split_single (s : Str) (d : Char) (hs : s ≠ []) (hd : d ∉ s) : split s d = [s] := by
  unfold split
  rw [splitGo_no_delimiter d s [] hd]
  cases s with
  | nil => exact absurd rfl hs
  | cons x xs => simp

end

/-! ## The patterns of the statements -/

section
open Regex

/-- The tail `(.+)$` of a pattern reads a line to its end. -/
theorem run_group_dots_eol (total i : Nat) (e : Str) (c : Caps) (he : e ≠ [])
    (hdot : ∀ x ∈ e, isDot x = true) :
    Regex.run total (.seq (.group i (plus (.chr isDot))) .eol) e c atEnd = some ([], (i, e) :: c) := by
  obtain ⟨e0, es, rfl⟩ := List.exists_cons_of_ne_nil he
  have h0 : isDot e0 = true := hdot e0 (List.mem_cons_self _ _)
  have hes : es.all isDot = true := by
    simp only [List.all_eq_true]
    exact fun y hy => hdot y (List.mem_cons_of_mem _ hy)
  simp only [Regex.plus, run_seq, run_group, run_chr_cons, h0, if_true, run_eol, atEnd]
  rw [star_greedy_to_end total isDot _ (fun c3 => (i, e0 :: es) :: c3)]
  · simp [hes]
  · intro s3 c3
    cases s3 <;> simp

/-- A literal text reads itself. -/
theorem run_text (total : Nat) : ∀ (t s : Str) (c : Caps) (k : Cont),
    Regex.run total (text t) (t ++ s) c k = k s c := by
  intro t
  induction t with
  | nil => intro s c k; simp [Regex.text, run_eps]
  | cons x xs ih =>
    intro s c k
    cases xs with
    | nil => simp [Regex.text, Regex.lit, run_chr_cons]
    | cons y ys =>
      show Regex.run total (.seq (.lit x) (text (y :: ys))) (x :: (y :: ys ++ s)) c k = k s c
      rw [run_seq, Regex.lit, run_chr_cons]
      simp only [beq_self_eq_true, if_true]
      exact ih s c k

/-- The first character of `p+`. -/
theorem run_plus_cons (total : Nat) (p : Char → Bool) (x : Char) (xs : Str) (c : Caps) (k : Cont) :
    Regex.run total (plus (.chr p)) (x :: xs) c k
      = if p x then Regex.run total (.star true (.chr p)) xs c k else none := by
  rw [Regex.plus, run_seq, run_chr_cons]

theorem untuk_match (e : Str) (he : e ≠ []) (hhead : ∀ c ∈ e.head?, isSpace c = false)
    (hdot : ∀ x ∈ e, isDot x = true) :
    regex_match untukRegex ("untuk ".toList ++ e) = some [(1, e)] := by
  have hs : "untuk ".toList ++ e = "untuk".toList ++ (' ' :: e) := rfl
  have hsp : isSpace ' ' = true := by decide
  simp only [regex_match, untukRegex, Regex.cat, run_seq, run_bol, if_true]
  rw [hs, run_text, run_plus_cons, if_pos hsp, star_stop _ _ _ _ _ _ hhead]
  rw [← run_seq, run_group_dots_eol _ _ _ _ he hdot]

end

/-! ## C3, C4, C6, C7, C8: control flow -/

section
open Regex

/-- The handler of `untuk`: at a line that holds the one statement
`untuk EXPR`, EXPR without `=`, `;` and line terminators and evaluating to the
Boolean `b`, with `r` the line that `findMatchingBlock` returns: when `b` is
true the program counter becomes `r + 1`, when `b` is false the engine falls
through to the next line. -/
theorem untuk_line {D : Type} [StdDouble D] (td : TypeDefs) (lines : List Str) (pc : Nat)
    (st : State D) (e : Str) (b : Bool) (r : Nat)
    (hline : trim (stripLineComment (lines.getD pc [])) = "untuk ".toList ++ e)
    (he : e ≠ []) (hhead : ∀ c ∈ e.head?, isSpace c = false)
    (hchars : ∀ c ∈ e, isDot c = true ∧ c ≠ ';' ∧ c ≠ '=')
    (heval : evaluateExpression e st.environment = .ok (.bool b))
    (hrepeat : findMatchingBlock lines pc "repeat".toList = some r) :
    executeLine td lines pc st = if b then .jump (r + 1) st else .next st := by
  have hu : "untuk ".toList = ['u', 'n', 't', 'u', 'k', ' '] := rfl
  have htrim : trim ("untuk ".toList ++ e) = "untuk ".toList ++ e := by
    rw [← hline, trim_idem]
  have hsemi : ';' ∉ "untuk ".toList ++ e := by
    rw [hu]
    simp only [List.mem_append, List.mem_cons, List.mem_singleton, not_or]
    refine ⟨by decide, fun h => (hchars _ h).2.1 rfl⟩
  have heq : ("untuk ".toList ++ e).contains '=' = false := by
    have he2 : e.contains '=' = false := by
      rw [Bool.eq_false_iff]
      intro h
      have hm : '=' ∈ e := by simpa using h
      exact (hchars _ hm).2.2 rfl
    rw [hu]
    simp only [List.cons_append, List.nil_append, List.contains_cons, he2]
    decide
  have hmatch := untuk_match e he hhead (fun x hx => (hchars x hx).1)
  unfold executeLine
  simp only [hline]
  rw [split_single _ ';' (by simp [hu]) hsemi]
  simp only [executeStatements, htrim]
  have hne : ("untuk ".toList ++ e).isEmpty = false := by simp [hu]
  simp only [hne]
  unfold executeStatement
  rw [hmatch]
  simp only [heq, sub, heval, hrepeat]
  rw [hu]
  simp [startsWith]
  rw [heval]
  cases b <;> rfl


/-- C4 as stated fails: at `untuk true` the engine does not fall through but
sets the program counter to line 1, after the `repeat`; the body of `repeat`,
`output("a")`, `untuk true` has run three times after seven rounds, and the
run is still going. -/
theorem untuk_true_repeats :
    executeLine initializeTypeSystem repeatProgram 2 (startState []) ≠ .next (startState [])
      ∧ executeAlgoritma initializeTypeSystem repeatProgram 7 (startState [])
        = .running 1
            { startState [] with outputBuffer := ["a".toList, "a".toList, "a".toList] } := by
  refine ⟨?_, rfl⟩
  have h : executeLine initializeTypeSystem repeatProgram 2 (startState [])
      = .jump 1 (startState []) := rfl
  rw [h]
  intro hc
  cases hc


/-- C3 (the code departs from the claim): after the false `if` of the lines
`if false then`, `output("a")`, `else`, `output("b")`, `endif` the program
counter is the line of the `else`, which is then executed as the end of a taken
branch and jumps to the `endif`: the run ends with an empty output buffer,
not with the line `b`. -/
theorem if_false_skips_else :
    executeLine initializeTypeSystem ifElseProgram 0 (startState []) = .jump 2 (startState [])
      ∧ executeLine initializeTypeSystem ifElseProgram 2 (startState [])
        = .jump 4 (startState [])
      ∧ executeAlgoritma initializeTypeSystem ifElseProgram 10 (startState [])
        = .finished (startState []) :=
  ⟨rfl, rfl, rfl⟩

/-- C6 (the code departs from the claim): in `for i = 5 to 1 do`,
`endforce = 1`, `output(i)`, `endfor` the scan for the `endfor` stops at the
assignment to `endforce`; the two statements of the body are executed, and the
`endfor` then finds no `for` and throws. -/
theorem for_zero_runs_body :
    parseKamus 1 ["i, endforce : integer".toList] ([] : Env Decimal)
        = some ⟨initializeTypeSystem, [("i".toList, intVar 0), ("endforce".toList, intVar 0)], none⟩
      ∧ findJumpTarget endforceProgram 0 ["endfor".toList] = 1
      ∧ executeAlgoritma initializeTypeSystem endforceProgram 10
          (startState [("i".toList, intVar 0), ("endforce".toList, intVar 0)])
        = .failed 3 .endforWithoutFor
            { startState [("i".toList, intVar 5), ("endforce".toList, intVar 1),
                ("__FOR_i_END__".toList, intVar 1)] with outputBuffer := ["5".toList] } :=
  ⟨rfl, rfl, rfl⟩

/-- C7 (the code departs from the claim): in `while false do`,
`endwhiles = 1`, `output(endwhiles)`, `endwhile` the scan for the `endwhile`
stops at the assignment to `endwhiles`; the program counter becomes line 2,
inside the body, `output(endwhiles)` is executed, and the `endwhile` then finds
no `while` and throws. -/
theorem while_false_runs_body :
    executeLine initializeTypeSystem endwhilesProgram 0
          (startState [("endwhiles".toList, intVar 0)])
        = .jump 2 (startState [("endwhiles".toList, intVar 0)])
      ∧ executeAlgoritma initializeTypeSystem endwhilesProgram 10
          (startState [("endwhiles".toList, intVar 0)])
        = .failed 3 .endwhileWithoutWhile
            { startState [("endwhiles".toList, intVar 0)] with outputBuffer := ["0".toList] } :=
  ⟨rfl, rfl⟩

/-- C8 (the code departs from the claim): in `while go do`, `whilego = 1`,
`go = false`, `endwhile` the `endwhile` of line 3 sets the program counter to
line 1, the assignment to `whilego`, not to the `while` of line 0; the
condition is never evaluated again, and the run is still going after twelve
rounds although `go` is false. -/
theorem endwhile_jumps_into_body :
    findMatchingBlock whilegoProgram 3 "while".toList = some 1
      ∧ executeLine initializeTypeSystem whilegoProgram 3
          (startState [("go".toList, ⟨.bool false, "boolean".toList, false⟩),
            ("whilego".toList, intVar 1)])
        = .jump 1 (startState [("go".toList, ⟨.bool false, "boolean".toList, false⟩),
            ("whilego".toList, intVar 1)])
      ∧ executeAlgoritma initializeTypeSystem whilegoProgram 12
          (startState [("go".toList, ⟨.bool true, "boolean".toList, false⟩),
            ("whilego".toList, intVar 0)])
        = .running 3 (startState [("go".toList, ⟨.bool false, "boolean".toList, false⟩),
            ("whilego".toList, intVar 1)]) :=
  ⟨rfl, rfl, rfl⟩

end

/-! ## Numbers -/

section
open Regex

theorem digitChar_isDigit (d : Nat) (hd : d < 10) : (digitChar d).isDigit = true := by
  interval_cases d <;> decide

theorem digitVal_digitChar (d : Nat) (hd : d < 10) : digitVal (digitChar d) = d := by
  interval_cases d <;> decide

theorem digitChar_ne (d : Nat) (hd : d < 10) (c : Char) (hc : c.isDigit = false) :
    digitChar d ≠ c := by
  intro h
  rw [← h, digitChar_isDigit d hd] at hc
  exact Bool.noConfusion hc

theorem digitsVal_append (l : Str) (c : Char) :
    digitsVal (l ++ [c]) = 10 * digitsVal l + digitVal c := by
  simp [digitsVal, List.foldl_append]

/-- The digits `natToStr` writes, given fuel above the number: decimal digits,
at least one, and they denote the number. -/
theorem natToStr_spec : ∀ (fuel n : Nat), n < fuel →
    natToStr fuel n ≠ [] ∧ (∀ c ∈ natToStr fuel n, c.isDigit = true)
      ∧ digitsVal (natToStr fuel n) = n := by
  intro fuel
  induction fuel with
  | zero => intro n h; exact absurd h (Nat.not_lt_zero _)
  | succ f ih =>
    intro n hn
    by_cases h10 : n < 10
    · simp only [natToStr, h10, if_true]
      refine ⟨by simp, ?_, ?_⟩
      · intro c hc
        have : c = digitChar n := by simpa using hc
        rw [this]; exact digitChar_isDigit n h10
      · simp [digitsVal, digitVal_digitChar n h10]
    · have hlt : n / 10 < f := by omega
      obtain ⟨h1, h2, h3⟩ := ih (n / 10) hlt
      have hmod : n % 10 < 10 := Nat.mod_lt _ (by decide)
      simp only [natToStr, h10, if_false]
      refine ⟨by simp, ?_, ?_⟩
      · intro c hc
        rcases List.mem_append.mp hc with hc | hc
        · exact h2 c hc
        · have : c = digitChar (n % 10) := by simpa using hc
          rw [this]; exact digitChar_isDigit _ hmod
      · rw [digitsVal_append, h3, digitVal_digitChar _ hmod]
        omega

/-- A character of a class differs from a character outside the class. -/
theorem ne_of_class {p : Char → Bool} {c ch : Char} (h : p c = true) (hch : p ch = false) :
    c ≠ ch := by
  intro hc
  rw [hc, hch] at h
  exact Bool.noConfusion h

theorem not_isSpace_of_class {p : Char → Bool} {c : Char} (h : p c = true)
    (hp : ∀ ch, isSpace ch = true → p ch = false) : isSpace c = false := by
  cases hs : isSpace c with
  | false => rfl
  | true => rw [hp c hs] at h; exact Bool.noConfusion h

theorem isSpace_cases (ch : Char) (h : isSpace ch = true) :
    ch = ' ' ∨ ch = '\t' ∨ ch = '\n' ∨ ch = '\r' ∨ ch = Char.ofNat 12 ∨ ch = Char.ofNat 11 := by
  simpa [isSpace, or_assoc] using h

theorem isDigit_not_isSpace (c : Char) (h : c.isDigit = true) : isSpace c = false := by
  apply not_isSpace_of_class h
  intro ch hch
  rcases isSpace_cases ch hch with h | h | h | h | h | h <;> rw [h] <;> decide

theorem isWord_not_isSpace (c : Char) (h : isWord c = true) : isSpace c = false := by
  apply not_isSpace_of_class h
  intro ch hch
  rcases isSpace_cases ch hch with h | h | h | h | h | h <;> rw [h] <;> decide

theorem isDigit_isWord (c : Char) (h : c.isDigit = true) : isWord c = true := by
  simp [isWord, Char.isAlphanum, h]

/-- The text of `to_string`: an optional minus sign and digits. -/
theorem to_string_eq (a : Int) :
    to_string a = (if a < 0 then ['-'] else []) ++ natToStr (a.natAbs + 1) a.natAbs := by
  unfold to_string
  by_cases h : a < 0 <;> simp [h]

theorem takeWhile_append_stop {α : Type} (p : α → Bool) (l rest : List α)
    (hl : ∀ x ∈ l, p x = true) (hrest : ∀ x ∈ rest.head?, p x = false) :
    (l ++ rest).takeWhile p = l := by
  rw [List.takeWhile_append_of_pos hl]
  cases rest with
  | nil => simp
  | cons y ys =>
    have : p y = false := hrest y (by simp)
    simp [List.takeWhile, this]

/-- The function `std::stoi` on digits followed by something else. -/
theorem stoi_digits (ds rest : Str) (hne : ds ≠ []) (hdig : ∀ c ∈ ds, c.isDigit = true)
    (hrest : ∀ c ∈ rest.head?, c.isDigit = false) :
    stoi (ds ++ rest)
      = if (digitsVal ds : Int) ≤ 2147483647 then some (digitsVal ds : Int) else none := by
  obtain ⟨d0, ds2, hds⟩ := List.exists_cons_of_ne_nil hne
  have hd0 : d0.isDigit = true := hdig d0 (by rw [hds]; exact List.mem_cons_self _ _)
  have hd0s : isSpace d0 = false := isDigit_not_isSpace d0 hd0
  have hm : (d0 == '-') = false := by simpa using ne_of_class hd0 (by decide : Char.isDigit '-' = false)
  have hp : (d0 == '+') = false := by simpa using ne_of_class hd0 (by decide : Char.isDigit '+' = false)
  have htw : (ds ++ rest).takeWhile Char.isDigit = ds := takeWhile_append_stop _ _ _ hdig hrest
  have hh : (ds ++ rest).head? = some d0 := by rw [hds]; rfl
  have hdw : (ds ++ rest).dropWhile isSpace = ds ++ rest :=
    dropWhile_eq_self _ _ (by intro c hc; rw [hh] at hc; have : c = d0 := by simpa using hc.symm
                              rw [this]; exact hd0s)
  have hnn : (-2147483648 : Int) ≤ (digitsVal ds : Int) := by
    have : (0 : Int) ≤ (digitsVal ds : Int) := Int.natCast_nonneg _
    omega
  have hemp : ds.isEmpty = false := by rw [hds]; rfl
  have hc1 : (some d0 == some '-') = false := by simpa using hm
  have hc2 : (some d0 == some '+') = false := by simpa using hp
  simp only [stoi, hdw, hh, hc1, hc2, Bool.or_self, Bool.false_eq_true, if_false, htw, hemp,
    hnn, true_and]

/-- The function `std::stoi` on a minus sign, digits and something else. -/
theorem stoi_minus_digits (ds rest : Str) (hne : ds ≠ []) (hdig : ∀ c ∈ ds, c.isDigit = true)
    (hrest : ∀ c ∈ rest.head?, c.isDigit = false) :
    stoi ('-' :: (ds ++ rest))
      = if (digitsVal ds : Int) ≤ 2147483648 then some (-(digitsVal ds : Int)) else none := by
  have htw : (ds ++ rest).takeWhile Char.isDigit = ds := takeWhile_append_stop _ _ _ hdig hrest
  have hdw : ('-' :: (ds ++ rest)).dropWhile isSpace = '-' :: (ds ++ rest) :=
    dropWhile_eq_self _ _ (by intro c hc; have : c = '-' := by simpa using hc.symm
                              rw [this]; decide)
  have hh : ('-' :: (ds ++ rest)).head? = some '-' := rfl
  have hnn : -(digitsVal ds : Int) ≤ 2147483647 := by
    have : (0 : Int) ≤ (digitsVal ds : Int) := Int.natCast_nonneg _
    omega
  have hemp : ds.isEmpty = false := by cases ds <;> simp_all
  have hc1 : (some '-' == some '-') = true := by decide
  simp only [stoi, hdw, hh, hc1, Bool.true_or, if_true, List.drop_one, List.tail_cons, htw, hemp,
    Bool.false_eq_true, if_false, hnn, and_true]
  have hiff : (-2147483648 ≤ -(digitsVal ds : Int)) ↔ ((digitsVal ds : Int) ≤ 2147483648) := by
    omega
  simp only [hiff]

/-- The function `std::stoi` reads back what `std::to_string` wrote, whatever
follows it that is no digit. -/
theorem stoi_to_string_append (a : Int) (ha : -2147483648 ≤ a ∧ a ≤ 2147483647) (rest : Str)
    (hrest : ∀ c ∈ rest.head?, c.isDigit = false) : stoi (to_string a ++ rest) = some a := by
  obtain ⟨hne, hdig, hval⟩ := natToStr_spec (a.natAbs + 1) a.natAbs (Nat.lt_succ_self _)
  by_cases hneg : a < 0
  · have hta : to_string a ++ rest = '-' :: (natToStr (a.natAbs + 1) a.natAbs ++ rest) := by
      rw [to_string_eq]; simp [hneg]
    have habs : (a.natAbs : Int) = -a := Int.ofNat_natAbs_of_nonpos (by omega)
    rw [hta, stoi_minus_digits _ _ hne hdig hrest, hval, habs]
    have h1 : -a ≤ 2147483648 := by omega
    simp [h1]
  · have hta : to_string a ++ rest = natToStr (a.natAbs + 1) a.natAbs ++ rest := by
      rw [to_string_eq]; simp [hneg]
    have habs : (a.natAbs : Int) = a := Int.natAbs_of_nonneg (by omega)
    rw [hta, stoi_digits _ _ hne hdig hrest, hval, habs]
    simp [ha.2]

end

/-! ## C9, C10: the stub evaluator on operator texts -/

section
open Regex

/-- The characters of `std::to_string(int)`. -/
theorem to_string_spec (a : Int) :
    to_string a ≠ [] ∧ (∀ c ∈ to_string a, c = '-' ∨ c.isDigit = true)
      ∧ (∀ c ∈ (to_string a).getLast?, c.isDigit = true) := by
  obtain ⟨hne, hdig, _⟩ := natToStr_spec (a.natAbs + 1) a.natAbs (Nat.lt_succ_self _)
  rw [to_string_eq]
  refine ⟨by simp [hne], ?_, ?_⟩
  · intro c hc
    rcases List.mem_append.mp hc with h | h
    · left
      by_cases hneg : a < 0 <;> simp [hneg] at h
      exact h
    · right; exact hdig c h
  · intro c hc
    rw [List.getLast?_append_of_ne_nil _ hne] at hc
    exact hdig c (List.mem_of_mem_getLast? hc)


theorem operandChar_not_isSpace (c : Char) (h : operandChar c = true) : isSpace c = false := by
  apply not_isSpace_of_class h
  intro ch hch
  rcases isSpace_cases ch hch with h | h | h | h | h | h <;> rw [h] <;> decide

/-- The stub evaluator on a text that starts with an integer literal: the
literal is read by `std::stoi` and what follows it is ignored. -/
theorem evaluate_literal_then {D : Type} [StdDouble D] (env : Env D) (a : Int)
    (ha : -2147483648 ≤ a ∧ a ≤ 2147483647) (rest : Str)
    (hhead : ∀ c ∈ rest.head?, c.isDigit = false)
    (hlast : ∀ c ∈ rest.getLast?, isSpace c = false) (hdot : '.' ∉ rest) :
    evaluateExpression (to_string a ++ rest) env = .ok (.int a) := by
  obtain ⟨hne, hchars, hlastd⟩ := to_string_spec a
  obtain ⟨t0, ts, hts⟩ := List.exists_cons_of_ne_nil hne
  have ht0 : t0 = '-' ∨ t0.isDigit = true := hchars t0 (by rw [hts]; exact List.mem_cons_self _ _)
  have hh : (to_string a ++ rest).head? = some t0 := by rw [hts]; rfl
  have ht0s : isSpace t0 = false := by
    rcases ht0 with h | h
    · rw [h]; decide
    · exact isDigit_not_isSpace t0 h
  have htrim : trim (to_string a ++ rest) = to_string a ++ rest := by
    apply trim_eq_self
    · simp [hne]
    · intro c hc; rw [hh] at hc; have : c = t0 := by simpa using hc.symm
      rw [this]; exact ht0s
    · intro c hc
      cases rest with
      | nil =>
        rw [List.append_nil] at hc
        exact isDigit_not_isSpace c (hlastd c hc)
      | cons r rs =>
        rw [List.getLast?_append_of_ne_nil _ (List.cons_ne_nil r rs)] at hc
        exact hlast c hc
  have hq1 : (some t0 == some (Char.ofNat 34)) = false := by
    rcases ht0 with h | h
    · rw [h]; decide
    · simpa using ne_of_class h (by decide : Char.isDigit (Char.ofNat 34) = false)
  have hq2 : (some t0 == some (Char.ofNat 39)) = false := by
    rcases ht0 with h | h
    · rw [h]; decide
    · simpa using ne_of_class h (by decide : Char.isDigit (Char.ofNat 39) = false)
  have hne_of_head : ∀ w : Str, (∀ c ∈ w.head?, c ≠ t0) → (to_string a ++ rest == w) = false := by
    intro w hw
    rw [beq_eq_false_iff_ne]
    intro h
    rw [h] at hh
    exact hw t0 hh rfl
  have htrue : (to_string a ++ rest == "true".toList) = false := by
    apply hne_of_head
    intro c hc
    have hc2 : c = 't' := by simpa using hc.symm
    rw [hc2]
    rcases ht0 with h | h
    · rw [h]; decide
    · exact (ne_of_class h (by decide : Char.isDigit 't' = false)).symm
  have hfalse : (to_string a ++ rest == "false".toList) = false := by
    apply hne_of_head
    intro c hc
    have hc2 : c = 'f' := by simpa using hc.symm
    rw [hc2]
    rcases ht0 with h | h
    · rw [h]; decide
    · exact (ne_of_class h (by decide : Char.isDigit 'f' = false)).symm
  have hnodot : (to_string a ++ rest).contains '.' = false := by
    rw [Bool.eq_false_iff]
    intro h
    have hm : '.' ∈ to_string a ++ rest := by simpa using h
    rcases List.mem_append.mp hm with h1 | h1
    · rcases hchars _ h1 with h2 | h2
      · exact absurd h2 (by decide)
      · exact absurd h2 (by decide)
    · exact hdot h1
  have hstoi := stoi_to_string_append a ha rest hhead
  unfold evaluateExpression
  simp only [htrim, hh, hq1, hq2, Bool.and_false, Bool.false_and, htrue, hfalse, hnodot, hstoi,
    Bool.false_eq_true, if_false, Option.map_some']


/-- The pattern of the one-digit array access does not match a name that is
followed by something else than a bracket. -/
theorem arrAccess_no_match (x rest : Str) (hx : x ≠ []) (hword : ∀ c ∈ x, isWord c = true)
    (hrest : ∀ c ∈ rest.head?, isWord c = false ∧ c ≠ '[') :
    regex_match arrAccess (x ++ rest) = none := by
  obtain ⟨x0, xs, rfl⟩ := List.exists_cons_of_ne_nil hx
  have hx0 : isWord x0 = true := hword x0 (List.mem_cons_self _ _)
  have hxs : ∀ y ∈ xs, isWord y = true := fun y hy => hword y (List.mem_cons_of_mem _ hy)
  have hfail : ∀ (total : Nat) (s : Str) (c : Caps) (k : Cont), (∀ y ∈ s.head?, y ≠ '[') →
      Regex.run total (.chr fun c => c == '[') s c k = none := by
    intro total s c k hs
    cases s with
    | nil => simp [run_chr_nil]
    | cons y ys =>
      have : (y == '[') = false := by simpa using hs y (by simp)
      simp [run_chr_cons, this]
  simp only [regex_match, arrAccess, Regex.cat, run_seq, run_group, List.cons_append,
    run_plus_cons, hx0, if_true, Regex.lit]
  rw [star_greedy_append_none _ _ _ rest [] ?_ xs hxs ?_]
  · rw [star_stop _ _ _ _ _ _ (fun c hc => (hrest c hc).1)]
    exact hfail _ _ _ _ (fun c hc => (hrest c hc).2)
  · intro j hj
    apply hfail
    intro y hy
    have hmem : y ∈ xs.drop j := by
      have hne : xs.drop j ≠ [] := by
        intro h
        have := List.drop_eq_nil_iff.mp h
        omega
      rw [List.head?_append_of_ne_nil _ hne] at hy
      exact List.mem_of_mem_head? hy
    have hw : isWord y = true := hxs y (List.mem_of_mem_drop hmem)
    exact ne_of_class hw (by decide)


/-- The stub evaluator on a text that starts with a name, goes on with a blank
and holds an operator character: when the whole text is not itself a variable,
the result is the fallback `false`. -/
theorem evaluate_name_then {D : Type} [StdDouble D] (env : Env D) (x rest : Str)
    (hx : x ≠ []) (hword : ∀ c ∈ x, isWord c = true) (hx0 : ∀ c ∈ x.head?, c.isDigit = false)
    (hrest : rest.head? = some ' ') (hlast : ∀ c ∈ rest.getLast?, isSpace c = false)
    (hdot : '.' ∉ rest) (hop : rest.any (fun c => operatorChars.contains c) = true)
    (hkey : Map.find env (x ++ rest) = none) :
    evaluateExpression (x ++ rest) env = .ok (.bool false) := by
  obtain ⟨x0, xs, hxs⟩ := List.exists_cons_of_ne_nil hx
  have hw0 : isWord x0 = true := hword x0 (by rw [hxs]; exact List.mem_cons_self _ _)
  have hd0 : x0.isDigit = false := hx0 x0 (by rw [hxs]; rfl)
  have hh : (x ++ rest).head? = some x0 := by rw [hxs]; rfl
  have hrne : rest ≠ [] := by intro h; rw [h] at hrest; exact Option.noConfusion hrest
  have htrim : trim (x ++ rest) = x ++ rest := by
    apply trim_eq_self
    · simp [hx]
    · intro c hc; rw [hh] at hc; have : c = x0 := by simpa using hc.symm
      rw [this]; exact isWord_not_isSpace x0 hw0
    · intro c hc
      rw [List.getLast?_append_of_ne_nil _ hrne] at hc
      exact hlast c hc
  have hq1 : (some x0 == some (Char.ofNat 34)) = false := by
    simpa using ne_of_class hw0 (by decide : isWord (Char.ofNat 34) = false)
  have hq2 : (some x0 == some (Char.ofNat 39)) = false := by
    simpa using ne_of_class hw0 (by decide : isWord (Char.ofNat 39) = false)
  have hsp : ' ' ∈ x ++ rest :=
    List.mem_append_right _ (List.mem_of_mem_head? (by rw [hrest]; rfl))
  have htrue : (x ++ rest == "true".toList) = false := by
    rw [beq_eq_false_iff_ne]
    intro h
    rw [h] at hsp
    exact absurd hsp (by decide)
  have hfalse : (x ++ rest == "false".toList) = false := by
    rw [beq_eq_false_iff_ne]
    intro h
    rw [h] at hsp
    exact absurd hsp (by decide)
  have hnodot : (x ++ rest).contains '.' = false := by
    rw [Bool.eq_false_iff]
    intro h
    have hm : '.' ∈ x ++ rest := by simpa using h
    rcases List.mem_append.mp hm with h1 | h1
    · exact absurd (hword _ h1) (by decide)
    · exact hdot h1
  have hstoi : stoi (x ++ rest) = none := by
    have hdw : (x ++ rest).dropWhile isSpace = x ++ rest :=
      dropWhile_eq_self _ _ (by intro c hc; rw [hh] at hc; have : c = x0 := by simpa using hc.symm
                                rw [this]; exact isWord_not_isSpace x0 hw0)
    have hc1 : (some x0 == some '-') = false := by
      simpa using ne_of_class hw0 (by decide : isWord '-' = false)
    have hc2 : (some x0 == some '+') = false := by
      simpa using ne_of_class hw0 (by decide : isWord '+' = false)
    have htw : (x ++ rest).takeWhile Char.isDigit = [] := by
      rw [hxs]; simp [List.takeWhile, hd0]
    simp only [stoi, hdw, hh, hc1, hc2, Bool.or_self, Bool.false_eq_true, if_false, htw,
      List.isEmpty_nil, if_true]
  have hany : (x ++ rest).any (fun c => operatorChars.contains c) = true := by
    rw [List.any_append, hop, Bool.or_true]
  have harr : regex_match arrAccess (x ++ rest) = none :=
    arrAccess_no_match x rest hx hword (by
      intro c hc
      rw [hrest] at hc
      have : c = ' ' := by simpa using hc.symm
      rw [this]
      exact ⟨by decide, by decide⟩)
  unfold evaluateExpression
  simp only [htrim, hh, hq1, hq2, Bool.and_false, Bool.false_and, htrue, hfalse, hnodot, hstoi,
    Bool.false_eq_true, if_false, Option.map_none']
  unfold evaluateRest
  simp only [hkey, harr, hany, if_true]


theorem isIdentifier_spec (x : Str) (h : isIdentifier x = true) :
    x ≠ [] ∧ (∀ c ∈ x, isWord c = true) ∧ (∀ c ∈ x.head?, c.isDigit = false) := by
  cases x with
  | nil => exact absurd h (by decide)
  | cons c cs =>
    simp only [isIdentifier, Bool.and_eq_true, Bool.not_eq_true', List.all_eq_true] at h
    refine ⟨by simp, h.2, ?_⟩
    intro d hd
    have : d = c := by simpa using hd.symm
    rw [this]; exact h.1

theorem Operand.text_spec (b : Operand) (hb : b.wellFormed = true) :
    b.text ≠ [] ∧ ∀ c ∈ b.text, operandChar c = true := by
  cases b with
  | lit n =>
    obtain ⟨h1, h2, _⟩ := to_string_spec n
    refine ⟨h1, ?_⟩
    intro c hc
    rcases h2 c hc with h | h
    · rw [h]; decide
    · simp [operandChar, h]
  | var name =>
    obtain ⟨h1, h2, _⟩ := isIdentifier_spec name hb
    exact ⟨h1, fun c hc => by simp [operandChar, h2 c hc]⟩

/-- What follows the left operand in `a op b`. -/
theorem binary_rest_spec (op b : Str) (hop : op ≠ [])
    (hopc : ∀ c ∈ op, operatorChars.contains c = true ∧ c ≠ '.')
    (hb : b ≠ []) (hbc : ∀ c ∈ b, operandChar c = true) :
    (' ' :: (op ++ (' ' :: b))).head? = some ' '
      ∧ (∀ c ∈ (' ' :: (op ++ (' ' :: b))).getLast?, isSpace c = false)
      ∧ '.' ∉ (' ' :: (op ++ (' ' :: b)))
      ∧ (' ' :: (op ++ (' ' :: b))).any (fun c => operatorChars.contains c) = true := by
  refine ⟨rfl, ?_, ?_, ?_⟩
  · intro c hc
    have h1 : (' ' :: (op ++ (' ' :: b))) = ((' ' :: op) ++ [' ']) ++ b := by simp
    rw [h1, List.getLast?_append_of_ne_nil _ hb] at hc
    exact operandChar_not_isSpace c (hbc c (List.mem_of_mem_getLast? hc))
  · intro h
    simp only [List.mem_cons, List.mem_append] at h
    rcases h with h | h | h | h
    · exact absurd h (by decide)
    · exact (hopc _ h).2 rfl
    · exact absurd h (by decide)
    · exact absurd (hbc _ h) (by decide)
  · obtain ⟨o, os, rfl⟩ := List.exists_cons_of_ne_nil hop
    have ho := (hopc o (List.mem_cons_self _ _)).1
    rw [List.any_eq_true]
    exact ⟨o, by simp, ho⟩

/-- C9, amended: for integer literals `a` (an `int`) and `b` and an operator
character `+`, `-` or `*`, the stub evaluator returns on the text `a op b` the
integer `a`, its left operand: the operator and the right operand are not
read.  For variables `x` and `y` the text `x + y`, not itself a variable,
evaluates to the Boolean `false`, whatever the values of `x` and `y`. -/
theorem evaluate_arithmetic_text {D : Type} [StdDouble D] (env : Env D) (a b : Int) (op : Char)
    (x y : Str) (ha : -2147483648 ≤ a ∧ a ≤ 2147483647)
    (hop : op = '+' ∨ op = '-' ∨ op = '*')
    (hx : isIdentifier x = true) (hy : isIdentifier y = true)
    (hkey : Map.find env (binaryText x "+".toList y) = none) :
    evaluateExpression (binaryText (to_string a) [op] (to_string b)) env = .ok (.int a)
      ∧ evaluateExpression (binaryText x "+".toList y) env = .ok (.bool false) := by
  have hopc : ∀ c ∈ [op], operatorChars.contains c = true ∧ c ≠ '.' := by
    intro c hc
    have hc2 : c = op := by simpa using hc
    rw [hc2]
    rcases hop with h | h | h <;> rw [h] <;> exact ⟨by decide, by decide⟩
  obtain ⟨hb1, hb2, _⟩ := to_string_spec b
  have hbc : ∀ c ∈ to_string b, operandChar c = true := by
    intro c hc
    rcases hb2 c hc with h | h
    · rw [h]; decide
    · simp [operandChar, h]
  obtain ⟨h1, h2, h3, _⟩ := binary_rest_spec [op] (to_string b) (by simp) hopc hb1 hbc
  obtain ⟨hx1, hx2, hx3⟩ := isIdentifier_spec x hx
  obtain ⟨hy1, hy2, _⟩ := isIdentifier_spec y hy
  obtain ⟨g1, g2, g3, g4⟩ := binary_rest_spec "+".toList y (by decide)
    (by decide) hy1 (fun c hc => by simp [operandChar, hy2 c hc])
  refine ⟨?_, ?_⟩
  · exact evaluate_literal_then env a ha _ (by rw [h1]; intro c hc
                                               have : c = ' ' := by simpa using hc.symm
                                               rw [this]; decide) h2 h3
  · exact evaluate_name_then env x _ hx1 hx2 hx3 g1 g2 g3 g4 hkey

/-- C9, instances of the amended claim: `1 + 2` evaluates to 1, and `x + y`
to `false` where `x` is 1 and `y` is 2. -/
theorem evaluate_arithmetic_text_witness :
    evaluateExpression "1 + 2".toList xyEnv = .ok (.int 1)
      ∧ evaluateExpression "x + y".toList xyEnv = .ok (.bool false) :=
  evaluate_arithmetic_text xyEnv 1 2 '+' "x".toList "y".toList (by decide) (by decide)
    (by decide) (by decide) rfl

/-- C9 as stated fails: `1 + 2` does not evaluate to 3 but to 1, and `x + y`
with `x = 1` and `y = 2` not to 3 but to the Boolean `false`. -/
theorem evaluate_sum_is_not_sum :
    evaluateExpression "1 + 2".toList xyEnv ≠ .ok (.int (1 + 2))
      ∧ evaluateExpression "x + y".toList xyEnv ≠ .ok (.int (1 + 2)) := by
  have h1 : evaluateExpression "1 + 2".toList xyEnv = .ok (.int 1) := rfl
  have h2 : evaluateExpression "x + y".toList xyEnv = .ok (.bool false) := rfl
  rw [h1, h2]
  refine ⟨?_, ?_⟩
  · intro h
    injection h with h
    injection h with h
    exact absurd h (by decide)
  · intro h
    injection h with h
    exact Value.noConfusion h

/-- C10, amended: for operands that are integer literals (an `int`) or names
of variables, and each of the operators `<`, `<=`, `>`, `>=`, `=`, `<>`, the stub
evaluator returns on the text `a op b` the integer `a` when the left operand
is a literal, and the Boolean `false` when the left operand is a variable
(the text not being itself a variable): the operator and the right operand are
not evaluated. -/
theorem evaluate_comparison_text {D : Type} [StdDouble D] (env : Env D) (a b : Operand) (op : Str)
    (hop : op ∈ comparisonOperators) (ha : a.wellFormed = true) (hb : b.wellFormed = true)
    (hkey : ∀ x, a = .var x → Map.find env (binaryText a.text op b.text) = none) :
    evaluateExpression (binaryText a.text op b.text) env
      = match a with
        | .lit n => .ok (.int n)
        | .var _ => .ok (.bool false) := by
  have hopne : op ≠ [] := by
    intro h; rw [h] at hop; exact absurd hop (by decide)
  have hopc : ∀ c ∈ op, operatorChars.contains c = true ∧ c ≠ '.' := by
    simp only [comparisonOperators, List.mem_cons, List.mem_singleton, List.not_mem_nil,
      or_false] at hop
    rcases hop with h | h | h | h | h | h <;> rw [h] <;> decide
  obtain ⟨hb1, hb2⟩ := b.text_spec hb
  obtain ⟨h1, h2, h3, h4⟩ := binary_rest_spec op b.text hopne hopc hb1 hb2
  cases a with
  | lit n =>
    have hn : -2147483648 ≤ n ∧ n ≤ 2147483647 := by simpa [Operand.wellFormed] using ha
    exact evaluate_literal_then env n hn _ (by rw [h1]; intro c hc
                                               have : c = ' ' := by simpa using hc.symm
                                               rw [this]; decide) h2 h3
  | var x =>
    obtain ⟨hx1, hx2, hx3⟩ := isIdentifier_spec x ha
    exact evaluate_name_then env x _ hx1 hx2 hx3 h1 h2 h3 h4 (hkey x rfl)

/-- C10, instances of the amended claim: `3 > 1` evaluates to the integer 3
and `x < y`, with `x = 1` and `y = 2`, to `false`. -/
theorem evaluate_comparison_text_witness :
    evaluateExpression "3 > 1".toList xyEnv = .ok (.int 3)
      ∧ evaluateExpression "x < y".toList xyEnv = .ok (.bool false) :=
  ⟨evaluate_comparison_text xyEnv (.lit 3) (.lit 1) ">".toList (by decide) (by decide)
      (by decide) (fun _ h => Operand.noConfusion h),
    evaluate_comparison_text xyEnv (.var "x".toList) (.var "y".toList) "<".toList
      (by decide) (by decide) (by decide) (fun _ _ => rfl)⟩

/-- C10 as stated fails: `3 > 1` does not evaluate to the Boolean `true` but
to the integer 3, and `x < y` with `x = 1` and `y = 2` not to `true` but to
`false`. -/
theorem evaluate_comparison_is_not_truth :
    evaluateExpression "3 > 1".toList xyEnv ≠ .ok (.bool (decide ((3 : Int) > 1)))
      ∧ evaluateExpression "x < y".toList xyEnv ≠ .ok (.bool (decide ((1 : Int) < 2))) := by
  have h1 : evaluateExpression "3 > 1".toList xyEnv = .ok (.int 3) := rfl
  have h2 : evaluateExpression "x < y".toList xyEnv = .ok (.bool false) := rfl
  rw [h1, h2]
  refine ⟨?_, ?_⟩
  · intro h
    injection h with h
    exact Value.noConfusion h
  · intro h
    injection h with h
    injection h with h
    exact absurd h (by decide)

end

/-! ## The path through a member and an index -/

section
open Regex

theorem Map.find_set_self {α : Type} (m : Map α) (k : Str) (v : α) :
    Map.find (Map.set m k v) k = some v := by
  induction m with
  | nil => simp [Map.set, Map.find]
  | cons e rest ih =>
    obtain ⟨k2, v2⟩ := e
    by_cases h : (k2 == k) = true
    · simp [Map.set, Map.find, h]
    · simp [Map.set, Map.find, h, ih]

theorem Map.find_set_ne {α : Type} (m : Map α) (k k' : Str) (v : α) (h : k' ≠ k) :
    Map.find (Map.set m k v) k' = Map.find m k' := by
  induction m with
  | nil =>
    have : (k == k') = false := by simpa using fun h2 => h (h2.symm)
    simp [Map.set, Map.find, this]
  | cons e rest ih =>
    obtain ⟨k2, v2⟩ := e
    by_cases h2 : (k2 == k) = true
    · have hk : k2 = k := by simpa using h2
      have h3 : (k == k') = false := by simpa using fun h4 => h (h4.symm)
      simp [Map.set, Map.find, h2, hk, h3]
    · by_cases h5 : (k2 == k') = true
      · simp [Map.set, Map.find, h2, h5]
      · simp [Map.set, Map.find, h2, h5, ih]

theorem isName_spec (x : Str) (h : isName x = true) : x ≠ [] ∧ ∀ c ∈ x, isWord c = true := by
  simp only [isName, Bool.and_eq_true, Bool.not_eq_true', List.all_eq_true] at h
  exact ⟨by intro h2; rw [h2] at h; exact absurd h.1 (by decide), h.2⟩

/-- A lazy class loop goes on while what follows is rejected. -/
theorem star_lazy_append (total : Nat) (p : Char → Bool) (k : Cont) (rest : Str) (c : Caps) :
    ∀ w : Str, (∀ x ∈ w, p x = true) → (∀ j, j < w.length → k (w.drop j ++ rest) c = none) →
      Regex.run total (.star false (.chr p)) (w ++ rest) c k
        = Regex.run total (.star false (.chr p)) rest c k := by
  intro w
  induction w with
  | nil => intro _ _; rfl
  | cons x xs ih =>
    intro hw hj
    have hx : p x = true := hw x (List.mem_cons_self _ _)
    have hxs : ∀ y ∈ xs, p y = true := fun y hy => hw y (List.mem_cons_of_mem _ hy)
    have h0 : k (x :: xs ++ rest) c = none := by simpa using hj 0 (by simp)
    have hrec : ∀ j, j < xs.length → k (xs.drop j ++ rest) c = none := fun j hj2 => by
      simpa using hj (j + 1) (by simpa using hj2)
    rw [List.cons_append, star_lazy_cons, ← List.cons_append, h0]
    simp [hx, ih hxs hrec]


/-- A search that matches at the front of the subject. -/
theorem regex_search_front (total : Nat) (r : Regex) (m rest : Str) (c : Caps) (hm : m ≠ [])
    (hrun : Regex.run total r (m ++ rest) [] anywhere = some (rest, c)) :
    regex_search total r (m ++ rest) = some (m, c, rest) := by
  obtain ⟨x, xs, rfl⟩ := List.exists_cons_of_ne_nil hm
  have htake : List.take ((x :: (xs ++ rest)).length - rest.length) (x :: (xs ++ rest)) = x :: xs := by
    have : (x :: (xs ++ rest)).length - rest.length = (x :: xs).length := by
      simp only [List.length_cons, List.length_append]; omega
    rw [this, ← List.cons_append, List.take_left]
  rw [List.cons_append] at hrun ⊢
  simp only [regex_search, hrun, htake]

theorem regex_iter_hit (total : Nat) (r : Regex) (fuel : Nat) (s m rest : Str) (c : Caps)
    (hs : regex_search total r s = some (m, c, rest)) (hm : m ≠ []) :
    regex_iter total r (fuel + 1) s = (m, c) :: regex_iter total r fuel rest := by
  have : m.isEmpty = false := by cases m <;> simp_all
  simp only [regex_iter, hs, this, Bool.false_eq_true, if_false]

theorem regex_iter_none (total : Nat) (r : Regex) (fuel : Nat) (s : Str)
    (hs : regex_search total r s = none) : regex_iter total r (fuel + 1) s = [] := by
  simp only [regex_iter, hs]

/-- The accessors of `.field[idx]`. -/
theorem accessors_field_index (field idx : Str) (hf : isName field = true)
    (hidx : ∀ c ∈ idx, isDot c = true ∧ c ≠ ']') :
    (regex_all accessorRegex ('.' :: (field ++ ('[' :: (idx ++ [']']))))).map Prod.fst
      = ['.' :: field, '[' :: (idx ++ [']'])] := by
  obtain ⟨hfne, hfw⟩ := isName_spec field hf
  obtain ⟨f0, fs, rfl⟩ := List.exists_cons_of_ne_nil hfne
  have hf0 : isWord f0 = true := hfw f0 (List.mem_cons_self _ _)
  have hfs : ∀ y ∈ fs, isWord y = true := fun y hy => hfw y (List.mem_cons_of_mem _ hy)
  have hA : ∀ total, Regex.run total accessorRegex (('.' :: f0 :: fs) ++ ('[' :: (idx ++ [']']))) []
      anywhere = some ('[' :: (idx ++ [']']), []) := by
    intro total
    simp only [accessorRegex, run_alt, run_seq, Regex.lit, List.cons_append, run_chr_cons,
      beq_self_eq_true, if_true, run_plus_cons, hf0]
    rw [star_greedy_append_some total isWord anywhere _ [] ('[' :: (idx ++ [']']), []) ?_ fs hfs]
    · rfl
    · rw [star_stop]
      · rfl
      · intro c hc
        have : c = '[' := by simpa using hc.symm
        rw [this]; decide
  have hB : ∀ total, Regex.run total accessorRegex (('[' :: (idx ++ [']'])) ++ []) []
      anywhere = some ([], []) := by
    intro total
    have h1 : ('[' == '.') = false := by decide
    simp only [accessorRegex, run_alt, run_seq, Regex.lit, Regex.cat, List.cons_append,
      List.append_nil, run_chr_cons, h1, Bool.false_eq_true, if_false, Option.orElse,
      beq_self_eq_true, if_true]
    rw [star_lazy_append total isDot _ [']'] [] idx (fun x hx => (hidx x hx).1) ?_]
    · rw [star_lazy_cons]
      simp [run_chr_cons, anywhere]
    · intro j hj
      have hne : idx.drop j ≠ [] := by
        intro h
        have := List.drop_eq_nil_iff.mp h
        omega
      obtain ⟨y, ys, hy⟩ := List.exists_cons_of_ne_nil hne
      have hmem : y ∈ idx := List.mem_of_mem_drop (by rw [hy]; exact List.mem_cons_self _ _)
      have hyb : (y == ']') = false := by simpa using (hidx y hmem).2
      rw [hy]
      simp [run_chr_cons, hyb]
  have hC : ∀ total, regex_search total accessorRegex [] = none := by
    intro total
    simp [regex_search, accessorRegex, run_alt, run_seq, Regex.lit, Regex.cat, run_chr_nil]
  have hS1 := fun total => regex_search_front total accessorRegex ('.' :: f0 :: fs)
    ('[' :: (idx ++ [']'])) [] (by simp) (hA total)
  have hS2 := fun total => regex_search_front total accessorRegex ('[' :: (idx ++ [']']))
    [] [] (by simp) (hB total)
  simp only [List.cons_append, List.append_nil] at hS1 hS2
  have hlen : ('.' :: (f0 :: fs ++ '[' :: (idx ++ [']']))).length + 1
      = (fs.length + idx.length + 2) + 3 := by
    simp only [List.length_cons, List.length_append, List.length_nil]; omega
  unfold regex_all
  rw [hlen]
  simp only [List.cons_append]
  rw [regex_iter_hit _ _ _ _ _ _ _ (hS1 _) (by simp), regex_iter_hit _ _ _ _ _ _ _ (hS2 _) (by simp),
    regex_iter_none _ _ _ _ (hC _)]
  rfl


/-- The path `rec.field[idx]` as `assignValue` parses it. -/
theorem fieldIndexPath_parse (rec field idx : Str) (hrec : isName rec = true)
    (hfield : isName field = true) (hidx : ∀ c ∈ idx, isDot c = true ∧ c ≠ ']') :
    regex_match baseMatchRegex (fieldIndexPath rec field idx)
      = some [(2, '.' :: (field ++ ('[' :: (idx ++ [']'])))), (1, rec)] := by
  obtain ⟨h1, h2⟩ := isName_spec rec hrec
  obtain ⟨_, h4⟩ := isName_spec field hfield
  unfold fieldIndexPath
  rw [baseMatch_run rec _ h1 h2 (by intro c hc
                                    have : c = '.' := by simpa using hc.symm
                                    rw [this]; decide)]
  have hall : ('.' :: (field ++ ('[' :: (idx ++ [']'])))).all isDot = true := by
    simp only [List.all_cons, List.all_append, List.all_nil, Bool.and_true, Bool.and_eq_true,
      List.all_eq_true]
    refine ⟨by decide, fun c hc => ?_, by decide, fun c hc => (hidx c hc).1, by decide⟩
    simp only [isDot, Bool.not_eq_true', Bool.or_eq_false_iff, beq_eq_false_iff_ne]
    exact ⟨ne_of_class (h4 c hc) (by decide : isWord '\n' = false),
      ne_of_class (h4 c hc) (by decide : isWord '\r' = false)⟩
  rw [if_pos hall]


/-- The walk of `assignValue` on the path `rec.field[idx]`, with the target of
the cast as the code computes it, `elementTypeOf`: when the cast of `value` to
that target gives `cv`, the call throws nothing and changes the element `i` of
the member `field` of `rec` to `cv`, and nothing else. -/
theorem assign_field_walk {D : Type} [StdDouble D] (td : TypeDefs) (env : Env D)
    (rec field idx : Str) (v : Variable D) (fs : Map (Value D)) (xs : List (Value D))
    (resolved fieldType resolved2 : Str) (pt pt2 : ParsedType) (typeDef : TypeDef)
    (i : Int) (value cv : Value D)
    (hrec : isName rec = true) (hfield : isName field = true)
    (hidx : idx ≠ [] ∧ ∀ c ∈ idx, isDot c = true ∧ c ≠ ']')
    (hfind : Map.find env rec = some v) (hconst : v.isConst = false)
    (hvalue : v.value = .struct fs)
    (hres : resolveType td v.type = .ok resolved) (hpt : parseType resolved = .ok pt)
    (htd : Map.find td pt.baseType = some typeDef) (hstruct : typeDef.type = "struct".toList)
    (hmember : Map.find typeDef.fields field = some fieldType)
    (harr : Map.find fs field = some (.arr xs))
    (hres2 : resolveType td fieldType = .ok resolved2) (hpt2 : parseType resolved2 = .ok pt2)
    (hdims : pt2.dimensions ≠ [])
    (heval : evaluateExpression idx env = .ok (.int i)) (hi : 0 ≤ i ∧ i < xs.length)
    (hcast : castValue td value (elementTypeOf pt2) = .ok cv) :
    (assignValue td (fieldIndexPath rec field idx) value env).2 = none
      ∧ (∀ y, y ≠ rec →
          Map.find (assignValue td (fieldIndexPath rec field idx) value env).1 y = Map.find env y)
      ∧ ∃ (fs2 : Map (Value D)) (xs2 : List (Value D)),
          Map.find (assignValue td (fieldIndexPath rec field idx) value env).1 rec
              = some { value := .struct fs2, type := v.type, isConst := v.isConst }
            ∧ (∀ g, g ≠ field → Map.find fs2 g = Map.find fs g)
            ∧ Map.find fs2 field = some (.arr xs2)
            ∧ xs2.length = xs.length
            ∧ (∀ j, j ≠ i.toNat → xs2.get? j = xs.get? j)
            ∧ xs2.get? i.toNat = some cv := by
  have hacc := accessors_field_index field idx hfield hidx.2
  have hparse := fieldIndexPath_parse rec field idx hrec hfield hidx.2
  have hsub : substr ('[' :: (idx ++ [']'])) 1 (('[' :: (idx ++ [']'])).length - 2) = idx := by
    simp [substr]
  have hidxe : idx.isEmpty = false := by
    cases hi2 : idx with
    | nil => exact absurd hi2 hidx.1
    | cons _ _ => rfl
  have hdimse : pt2.dimensions.isEmpty = false := by
    cases hd : pt2.dimensions with
    | nil => exact absurd hd hdims
    | cons _ _ => rfl
  have hrange : ¬ (i < 0 ∨ i ≥ (xs.length : Int)) := by omega
  have hwalk : assignWalk td env value ['.' :: field, '[' :: (idx ++ [']'])] (.struct fs) v.type
      = (.struct (Map.set fs field (.arr (xs.set i.toNat cv))), none) := by
    simp only [assignWalk, hres, hpt, htd, hstruct, hmember, harr, hres2, hpt2, hsub, hidxe,
      heval, hdimse, hrange, hcast, List.head?_cons, List.drop_one, List.tail_cons,
      bne_self_eq_false, Bool.false_eq_true, if_false, if_true, List.isEmpty_cons,
      List.isEmpty_nil, Option.getD_some, beq_self_eq_true]
    simp
  have hresult : assignValue td (fieldIndexPath rec field idx) value env
      = (Map.set env rec
          { value := .struct (Map.set fs field (.arr (xs.set i.toNat cv))), type := v.type,
            isConst := v.isConst }, none) := by
    have hs1 : sub [(2, '.' :: (field ++ '[' :: (idx ++ [']']))), (1, rec)] 1 = rec := rfl
    have hs2 : sub [(2, '.' :: (field ++ '[' :: (idx ++ [']']))), (1, rec)] 2
        = '.' :: (field ++ '[' :: (idx ++ [']'])) := rfl
    unfold assignValue
    simp only [hparse, hs1, hs2, hfind, hconst, hacc, hvalue, hwalk, List.isEmpty_cons,
      Bool.false_eq_true, if_false]
  rw [hresult]
  refine ⟨rfl, fun y hy => Map.find_set_ne _ _ _ _ hy, _, _, Map.find_set_self _ _ _,
    fun g hg => Map.find_set_ne _ _ _ _ hg, Map.find_set_self _ _ _, by simp, ?_, ?_⟩
  · intro j hj
    simp [List.getElem?_set, Ne.symm hj]
  · have hlt : i.toNat < xs.length := by omega
    simp [List.getElem?_set, hlt]

end

/-! ## The pattern of for -/

section
open Regex

/-- A greedy class loop stops at the front of `s` when what follows is
rejected wherever else the loop can stop. -/
theorem star_greedy_first (total : Nat) (p : Char → Bool) (k : Cont) (c : Caps) :
    ∀ s : Str, (∀ j, 0 < j → j ≤ (s.takeWhile p).length → k (s.drop j) c = none) →
      Regex.run total (.star true (.chr p)) s c k = k s c := by
  intro s
  induction s with
  | nil => intro _; exact star_nil _ _ _ _ _
  | cons x xs ih =>
    intro h
    rw [star_greedy_cons]
    by_cases hp : p x = true
    · have htw : ((x :: xs).takeWhile p).length = (xs.takeWhile p).length + 1 := by
        simp [List.takeWhile, hp]
      have hxs : ∀ j, 0 < j → j ≤ (xs.takeWhile p).length → k (xs.drop j) c = none := by
        intro j hj1 hj2
        have := h (j + 1) (Nat.succ_pos _) (by omega)
        simpa using this
      have h1 : k xs c = none := by
        have := h 1 Nat.one_pos (by omega)
        simpa using this
      rw [if_pos hp, ih hxs, h1]
      rfl
    · rw [if_neg hp]

/-- A group `(p+)` reads the run `w` of class characters before `rest` when
what follows accepts `rest` and rejects every later place where the group
can stop. -/
theorem run_group_plus (total i : Nat) (p : Char → Bool) (w rest : Str) (c : Caps) (K : Cont)
    (h : Hit) (hw : w ≠ []) (hall : ∀ x ∈ w, p x = true)
    (hfail : ∀ j c2, 0 < j → j ≤ (rest.takeWhile p).length → K (rest.drop j) c2 = none)
    (hK : K rest ((i, w) :: c) = some h) :
    Regex.run total (.group i (plus (.chr p))) (w ++ rest) c K = some h := by
  obtain ⟨x, xs, rfl⟩ := List.exists_cons_of_ne_nil hw
  have hx : p x = true := hall x (List.mem_cons_self _ _)
  have hxs : ∀ y ∈ xs, p y = true := fun y hy => hall y (List.mem_cons_of_mem _ hy)
  have htake : List.take ((x :: (xs ++ rest)).length - rest.length) (x :: (xs ++ rest)) = x :: xs := by
    have : (x :: (xs ++ rest)).length - rest.length = (x :: xs).length := by
      simp only [List.length_cons, List.length_append]; omega
    rw [this, ← List.cons_append, List.take_left]
  rw [run_group, List.cons_append, run_plus_cons, if_pos hx]
  apply star_greedy_append_some _ _ _ _ _ _ _ xs hxs
  rw [star_greedy_first]
  · simp only [htake]; exact hK
  · intro j hj1 hj2
    exact hfail j _ hj1 hj2

/-- After `\s+` the pattern goes on where the white space ends. -/
theorem run_plus_space (total : Nat) (s : Str) (c : Caps) (k : Cont)
    (hs : ∀ x ∈ s.head?, isSpace x = false) :
    Regex.run total (plus (.chr isSpace)) (' ' :: s) c k = k s c := by
  rw [run_plus_cons, if_pos (by decide), star_stop _ _ _ _ _ _ hs]

/-- The pattern `\s+` needs white space. -/
theorem run_plus_none (total : Nat) (p : Char → Bool) (s : Str) (c : Caps) (k : Cont)
    (hs : ∀ x ∈ s.head?, p x = false) :
    Regex.run total (plus (.chr p)) s c k = none := by
  cases s with
  | nil => rw [Regex.plus, run_seq, run_chr_nil]
  | cons x xs => rw [run_plus_cons, if_neg (by simp [hs x (by simp)])]

/-- A literal text is not read from a subject that starts otherwise. -/
theorem run_text_none (total : Nat) (t0 : Char) (ts s : Str) (c : Caps) (k : Cont)
    (hs : ∀ x ∈ s.head?, x ≠ t0) : Regex.run total (text (t0 :: ts)) s c k = none := by
  have hchr : Regex.run total (.lit t0) s c
      (fun s2 c2 => Regex.run total (text ts) s2 c2 k) = none := by
    cases s with
    | nil => rw [Regex.lit, run_chr_nil]
    | cons x xs =>
      have : (x == t0) = false := by simpa using hs x (by simp)
      rw [Regex.lit, run_chr_cons, this]; rfl
  cases ts with
  | nil =>
    cases s with
    | nil => simp [Regex.text, Regex.lit, run_chr_nil]
    | cons x xs =>
      have : (x == t0) = false := by simpa using hs x (by simp)
      simp [Regex.text, Regex.lit, run_chr_cons, this]
  | cons t1 ts2 =>
    show Regex.run total (.seq (.lit t0) (text (t1 :: ts2))) s c k = none
    rw [run_seq]; exact hchr


/-- After `\s*` before one blank, the pattern goes on behind the white
space, when it is accepted there. -/
theorem run_star_space (total : Nat) (s : Str) (c : Caps) (k : Cont) (h : Hit)
    (hs : ∀ x ∈ s.head?, isSpace x = false) (hk : k s c = some h) :
    Regex.run total (.star true (.chr isSpace)) (' ' :: s) c k = some h := by
  rw [star_greedy_cons, if_pos (by decide), star_stop _ _ _ _ _ _ hs, hk]
  rfl

/-- The characters of `std::to_string(int)` as the patterns see them. -/
theorem to_string_chars (a : Int) :
    to_string a ≠ [] ∧ (∀ c ∈ to_string a, isDot c = true)
      ∧ (∀ c ∈ (to_string a).head?, isSpace c = false ∧ c ≠ 't' ∧ c.isDigit = true ∨
          isSpace c = false ∧ c ≠ 't' ∧ c = '-') := by
  obtain ⟨h1, h2, _⟩ := to_string_spec a
  refine ⟨h1, ?_, ?_⟩
  · intro c hc
    rcases h2 c hc with h | h
    · rw [h]; decide
    · simp only [isDot, Bool.not_eq_true', Bool.or_eq_false_iff, beq_eq_false_iff_ne]
      exact ⟨ne_of_class h (by decide), ne_of_class h (by decide)⟩
  · intro c hc
    rcases h2 c (List.mem_of_mem_head? hc) with h | h
    · right; rw [h]; exact ⟨by decide, by decide, rfl⟩
    · left; exact ⟨isDigit_not_isSpace c h, ne_of_class h (by decide), h⟩


theorem forTail_none (total : Nat) (u : Str) (c : Caps)
    (hu : (∀ x ∈ u.head?, isSpace x = false)
      ∨ ∃ u2, u = ' ' :: u2 ∧ ∀ x ∈ u2.head?, isSpace x = false ∧ x ≠ 't') :
    Regex.run total forTail u c atEnd = none := by
  rcases hu with h | ⟨u2, rfl, h⟩
  · rw [forTail, run_seq, run_plus_none _ _ _ _ _ h]
  · rw [forTail, run_seq, run_plus_space _ _ _ _ (fun x hx => (h x hx).1), run_seq]
    exact run_text_none _ _ _ _ _ _ (fun x hx => (h x hx).2)

theorem forTail_match (total : Nat) (e : Str) (c : Caps) (he : e ≠ [])
    (hdot : ∀ x ∈ e, isDot x = true) (hhead : ∀ x ∈ e.head?, isSpace x = false) :
    Regex.run total forTail (" to ".toList ++ (e ++ " do".toList)) c atEnd
      = some ([], (3, e) :: c) := by
  have h1 : " to ".toList ++ (e ++ " do".toList)
      = ' ' :: ("to".toList ++ (' ' :: (e ++ " do".toList))) := rfl
  have hs1 : ∀ x ∈ ("to".toList ++ (' ' :: (e ++ " do".toList))).head?, isSpace x = false := by
    intro x hx
    have : x = 't' := by simpa using hx.symm
    rw [this]; decide
  have hs2 : ∀ x ∈ (e ++ " do".toList).head?, isSpace x = false := by
    intro x hx
    rw [List.head?_append_of_ne_nil _ he] at hx
    exact hhead x hx
  rw [h1, forTail, run_seq, run_plus_space _ _ _ _ hs1, run_seq, run_text, run_seq,
    run_plus_space _ _ _ _ hs2, run_seq]
  apply run_group_plus _ _ _ _ _ _ _ _ he hdot
  · intro j c2 hj1 hj2
    have hj3 : j ≤ 3 := le_trans hj2 (List.takeWhile_sublist _).length_le
    have hd : " do".toList = [' ', 'd', 'o'] := rfl
    rw [hd]
    interval_cases j
    · rw [run_seq]; exact run_plus_none _ _ _ _ _ (by decide)
    · rw [run_seq]; exact run_plus_none _ _ _ _ _ (by decide)
    · rw [run_seq]; exact run_plus_none _ _ _ _ _ (by simp)
  · have hd : " do".toList = ' ' :: ("do".toList ++ []) := rfl
    rw [hd, run_seq, run_plus_space _ _ _ _ (by decide), run_seq, run_text, run_eol]
    rfl


/-- Behind the first literal of a `for` line the tail of the pattern matches
nowhere but right after the literal. -/
theorem forTail_later_none (total : Nat) (e : Str) (c : Caps) (he : e ≠ [])
    (hhead : ∀ x ∈ e.head?, isSpace x = false ∧ x ≠ 't')
    (hchars : ∀ x ∈ e, isSpace x = false) (j : Nat) (hj1 : 0 < j)
    (hj2 : j ≤ (" to ".toList ++ (e ++ " do".toList)).length) :
    Regex.run total forTail ((" to ".toList ++ (e ++ " do".toList)).drop j) c atEnd = none := by
  have h1 : " to ".toList ++ (e ++ " do".toList)
      = ' ' :: 't' :: 'o' :: ' ' :: (e ++ [' ', 'd', 'o']) := rfl
  rw [h1] at hj2 ⊢
  apply forTail_none
  match j, hj1 with
  | 1, _ => left; simp; decide
  | 2, _ => left; simp; decide
  | 3, _ =>
    right
    refine ⟨e ++ [' ', 'd', 'o'], rfl, ?_⟩
    intro x hx
    rw [List.head?_append_of_ne_nil _ he] at hx
    exact hhead x hx
  | t + 4, _ =>
    have hdrop : (' ' :: 't' :: 'o' :: ' ' :: (e ++ [' ', 'd', 'o'])).drop (t + 4)
        = (e ++ [' ', 'd', 'o']).drop t := by simp
    rw [hdrop]
    by_cases ht : t < e.length
    · left
      have hne : e.drop t ≠ [] := by
        intro h
        have := List.drop_eq_nil_iff.mp h
        omega
      rw [List.drop_append_of_le_length (le_of_lt ht), List.head?_append_of_ne_nil _ hne]
      intro x hx
      exact hchars x (List.mem_of_mem_drop (List.mem_of_mem_head? hx))
    · have hle : e.length ≤ t := by omega
      have hlen : t - e.length ≤ 3 := by
        simp only [List.length_cons, List.length_append, List.length_nil] at hj2
        omega
      rw [List.drop_append_eq_append_drop, List.drop_eq_nil_iff.mpr hle, List.nil_append]
      generalize t - e.length = r at hlen
      interval_cases r
      · right; exact ⟨['d', 'o'], rfl, by decide⟩
      · left; simp; decide
      · left; simp; decide
      · left; simp

/-- The pattern of `for` on the line `for i = S to E do`. -/
theorem for_match (i : Str) (S E : Int) (hi : isName i = true) :
    regex_match forRegex (forText i S E)
      = some [(3, to_string E), (2, to_string S), (1, i)] := by
  obtain ⟨hi1, hi2⟩ := isName_spec i hi
  obtain ⟨hs1, hs2, hs3⟩ := to_string_chars S
  obtain ⟨he1, he2, he3⟩ := to_string_chars E
  obtain ⟨_, he4, _⟩ := to_string_spec E
  have hshead : ∀ x ∈ (to_string S).head?, isSpace x = false := by
    intro x hx; rcases hs3 x hx with h | h <;> exact h.1
  have hehead : ∀ x ∈ (to_string E).head?, isSpace x = false ∧ x ≠ 't' := by
    intro x hx; rcases he3 x hx with h | h <;> exact ⟨h.1, h.2.1⟩
  have hechars : ∀ x ∈ to_string E, isSpace x = false := by
    intro x hx
    rcases he4 x hx with h | h
    · rw [h]; decide
    · exact isDigit_not_isSpace x h
  have hregex : forRegex = .seq .bol (.seq (text "for".toList) (.seq (plus (.chr isSpace))
      (.seq (.group 1 (plus (.chr isWord))) (.seq (.star true (.chr isSpace)) (.seq (.lit '=')
        (.seq (.star true (.chr isSpace)) (.seq (.group 2 (plus (.chr isDot))) forTail))))))) := rfl
  have htext : forText i S E = "for".toList ++ (' ' :: (i ++ (' ' :: '=' :: ' ' ::
      (to_string S ++ (" to ".toList ++ (to_string E ++ " do".toList)))))) := rfl
  have hihead : ∀ x ∈ (i ++ (' ' :: '=' :: ' ' ::
      (to_string S ++ (" to ".toList ++ (to_string E ++ " do".toList))))).head?,
      isSpace x = false := by
    intro x hx
    rw [List.head?_append_of_ne_nil _ hi1] at hx
    exact isWord_not_isSpace x (hi2 x (List.mem_of_mem_head? hx))
  have hshead2 : ∀ x ∈ (to_string S ++ (" to ".toList ++ (to_string E ++ " do".toList))).head?,
      isSpace x = false := by
    intro x hx
    rw [List.head?_append_of_ne_nil _ hs1] at hx
    exact hshead x hx
  unfold regex_match
  rw [hregex, run_seq, run_bol, if_pos rfl, run_seq, htext, run_text, run_seq,
    run_plus_space _ _ _ _ hihead, run_seq,
    run_group_plus _ 1 isWord i _ [] _ ([], [(3, to_string E), (2, to_string S), (1, i)]) hi1 hi2]
  · intro j c2 hj1 hj2
    have : ((' ' :: '=' :: ' ' :: (to_string S ++ (" to ".toList ++ (to_string E
        ++ " do".toList)))).takeWhile isWord).length = 0 := by
      simp [List.takeWhile, (by decide : isWord ' ' = false)]
    omega
  · rw [run_seq]
    apply run_star_space _ _ _ _ _ (by intro x hx; simp at hx; subst hx; decide)
    rw [run_seq, Regex.lit, run_chr_cons, if_pos (by decide), run_seq]
    apply run_star_space _ _ _ _ _ hshead2
    rw [run_seq]
    apply run_group_plus _ 2 isDot _ _ _ _ _ hs1 hs2
    · intro j c2 hj1 hj2
      exact forTail_later_none _ _ _ he1 hehead hechars j hj1
        (le_trans hj2 (List.takeWhile_sublist _).length_le)
    · exact forTail_match _ _ _ he1 he2 (fun x hx => (hehead x hx).1)

end

/-! ## The line of for -/

section
open Regex

theorem Map.find_erase_self {α : Type} (m : Map α) (k : Str) : Map.find (Map.erase m k) k = none := by
  induction m with
  | nil => rfl
  | cons e rest ih =>
    obtain ⟨k2, v2⟩ := e
    by_cases h : (k2 == k) = true
    · simp [Map.erase, h, ih]
    · simp [Map.erase, Map.find, h, ih]

theorem Map.find_erase_ne {α : Type} (m : Map α) (k k' : Str) (h : k' ≠ k) :
    Map.find (Map.erase m k) k' = Map.find m k' := by
  induction m with
  | nil => rfl
  | cons e rest ih =>
    obtain ⟨k2, v2⟩ := e
    by_cases h2 : (k2 == k) = true
    · have hk : k2 = k := by simpa using h2
      have h3 : (k == k') = false := by simpa using fun h4 => h (h4.symm)
      simp [Map.erase, Map.find, h2, hk, h3, ih]
    · by_cases h5 : (k2 == k') = true
      · simp [Map.erase, Map.find, h2, h5]
      · simp [Map.erase, Map.find, h2, h5, ih]

/-- The bookkeeping entry of a loop is not the loop variable. -/
theorem forEndName_ne (i : Str) : i ≠ forEndName i := by
  intro h
  have := congrArg List.length h
  simp [forEndName] at this
  omega

/-- The assignment of an integer in range to a plain variable of a type that
resolves to `integer`. -/
theorem assignValue_int {D : Type} [StdDouble D] (td : TypeDefs) (env : Env D) (i : Str)
    (v : Variable D) (k : Int) (hi : isName i = true)
    (hfind : Map.find env i = some v) (hconst : v.isConst = false)
    (hres : resolveType td v.type = .ok "integer".toList)
    (hk : -2147483648 ≤ k ∧ k ≤ 2147483647) :
    assignValue td i (.int k) env = (setInt env i k, none) := by
  obtain ⟨hi1, hi2⟩ := isName_spec i hi
  have hbase := baseMatch_run i [] hi1 hi2 (by simp)
  rw [List.append_nil] at hbase
  have hparse : parseType "integer".toList = .ok ⟨"integer".toList, []⟩ := by rfl
  have hstoi := stoi_to_string_append k hk [] (by simp)
  rw [List.append_nil] at hstoi
  have hs1 : sub [(2, []), (1, i)] 1 = i := rfl
  have hs2 : sub [(2, []), (1, i)] 2 = [] := rfl
  have hall : regex_all accessorRegex [] = [] := by rfl
  unfold assignValue
  simp only [hbase, List.all_nil, if_true, hs1, hs2, hfind, hconst, hall, List.map_nil,
    List.isEmpty_nil, castValue, hres, hparse, anyToString, hstoi, setInt,
    Bool.false_eq_true, if_false]
  simp

/-- The text of a `for` line has no semicolon, holds an equals sign, and
starts with the keyword. -/
theorem forText_shape (i : Str) (S E : Int) (hi : isName i = true) :
    ';' ∉ forText i S E ∧ (forText i S E).contains '=' = true
      ∧ forText i S E = 'f' :: 'o' :: 'r' :: ' ' :: (i ++ (" = ".toList ++ (to_string S
          ++ (" to ".toList ++ (to_string E ++ " do".toList))))) := by
  obtain ⟨hi1, hi2⟩ := isName_spec i hi
  obtain ⟨_, hs, _⟩ := to_string_spec S
  obtain ⟨_, he, _⟩ := to_string_spec E
  have hnum : ∀ (a : Int), (∀ c ∈ to_string a, c = '-' ∨ c.isDigit = true) →
      ';' ∉ to_string a := by
    intro a h hm
    rcases h _ hm with h2 | h2
    · exact absurd h2 (by decide)
    · exact absurd h2 (by decide)
  have hiw : ';' ∉ i := fun hm => absurd (hi2 _ hm) (by decide)
  refine ⟨?_, ?_, rfl⟩
  · unfold forText
    simp only [List.mem_append, not_or]
    exact ⟨by decide, hiw, by decide, hnum S hs, by decide, hnum E he, by decide⟩
  · unfold forText
    simp

/-- The line `for i = S to E do`, for S ≤ E, records E under the bookkeeping
name, gives `i` the value S and goes on with the next line. -/
theorem for_line_enters {D : Type} [StdDouble D] (td : TypeDefs) (lines : List Str) (p : Nat)
    (st : State D) (i : Str) (S E : Int) (v : Variable D)
    (hline : trim (stripLineComment (lines.getD p [])) = forText i S E)
    (hi : isName i = true)
    (hS : -2147483648 ≤ S ∧ S ≤ 2147483647) (hE : -2147483648 ≤ E ∧ E ≤ 2147483647)
    (hSE : S ≤ E)
    (hfind : Map.find st.environment i = some v) (hconst : v.isConst = false)
    (hres : resolveType td v.type = .ok "integer".toList) :
    executeLine td lines p st
      = .next { st with environment := setInt (Map.set st.environment (forEndName i)
          { value := .int E, type := "integer".toList, isConst := false }) i S } := by
  obtain ⟨hsemi, heq, hshape⟩ := forText_shape i S E hi
  have htrim : trim (forText i S E) = forText i S E := by rw [← hline, trim_idem]
  have hne : forText i S E ≠ [] := by rw [hshape]; simp
  have hnee : (forText i S E).isEmpty = false := by rw [hshape]; rfl
  have hfind2 : Map.find (Map.set st.environment (forEndName i)
      ({ value := .int E, type := "integer".toList, isConst := false } : Variable D)) i
      = some v := by
    rw [Map.find_set_ne _ _ _ _ (forEndName_ne i), hfind]
  have hassign := assignValue_int td (Map.set st.environment (forEndName i)
      ({ value := .int E, type := "integer".toList, isConst := false } : Variable D))
      i v S hi hfind2 hconst hres hS
  have hevS : evaluateExpression (to_string S) st.environment = .ok (.int S) := by
    have := evaluate_literal_then st.environment S hS [] (by simp) (by simp) (by simp)
    rwa [List.append_nil] at this
  have hevE : evaluateExpression (to_string E) st.environment = .ok (.int E) := by
    have := evaluate_literal_then st.environment E hE [] (by simp) (by simp) (by simp)
    rwa [List.append_nil] at this
  have hs1 : sub [(3, to_string E), (2, to_string S), (1, i)] 1 = i := rfl
  have hs2 : sub [(3, to_string E), (2, to_string S), (1, i)] 2 = to_string S := rfl
  have hs3 : sub [(3, to_string E), (2, to_string S), (1, i)] 3 = to_string E := rfl
  have hgt : ¬ (S > E) := by omega
  unfold executeLine
  simp only [hline]
  rw [split_single _ ';' hne hsemi]
  simp only [executeStatements, htrim, hnee]
  unfold executeStatement
  rw [for_match i S E hi]
  simp only [hs1, hs2, hs3, hevS, hevE, hassign, hgt, if_false]
  rw [hshape]
  simp [startsWith]

end

/-! ## The line of endfor -/

section
open Regex

/-- The backward scan of `findMatchingBlock` from an `endfor` goes over lines
that do not start with `for` or `endfor` and stops at the `for` line. -/
theorem findBlockScan_for (i : Str) (S E : Int) (hi : isName i = true) (fl : Str)
    (before : List Str) (hfl : trim (stripLineComment fl) = forText i S E) :
    ∀ (bs : List Str), (∀ l ∈ bs, noForKeyword l = true) →
      findBlockScan "for".toList "endfor".toList (bs ++ fl :: before) 0 = some before.length := by
  obtain ⟨hsemi, _, hshape⟩ := forText_shape i S E hi
  have hcont : (forText i S E).contains ';' = false := by simpa using hsemi
  intro bs
  induction bs with
  | nil =>
    intro _
    have hfs : firstStatementOf (forText i S E) = forText i S E := by
      unfold firstStatementOf
      rw [hcont]
      rfl
    have hnee : (forText i S E).isEmpty = false := by rw [hshape]; rfl
    have h1 : startsWith (forText i S E) "endfor".toList = false := by rw [hshape]; rfl
    have h2 : startsWith (forText i S E) "for".toList = true := by
      rw [hshape]; simp [startsWith]
    simp only [List.nil_append, findBlockScan, hfl, hfs, hnee, h1, h2, Bool.false_eq_true,
      if_false, if_true, beq_self_eq_true]
  | cons l bs ih =>
    intro hbody
    have hl := hbody l (List.mem_cons_self _ _)
    have ih2 := ih (fun x hx => hbody x (List.mem_cons_of_mem _ hx))
    simp only [noForKeyword, Bool.and_eq_true, Bool.not_eq_true'] at hl
    simp only [List.cons_append, findBlockScan, hl.1, hl.2, Bool.false_eq_true, if_false,
      ite_self]
    exact ih2

/-- From the `endfor` of a loop whose body lines do not start with `for` or
`endfor`, `findMatchingBlock` finds the `for` line. -/
theorem findMatchingBlock_for (i : Str) (S E : Int) (hi : isName i = true)
    (pre body post : List Str) (fl el : Str)
    (hfl : trim (stripLineComment fl) = forText i S E)
    (hbody : ∀ l ∈ body, noForKeyword l = true) :
    findMatchingBlock (pre ++ fl :: (body ++ el :: post)) (pre.length + 1 + body.length)
      "for".toList = some pre.length := by
  have hlines : pre ++ fl :: (body ++ el :: post) = (pre ++ fl :: body) ++ el :: post := by simp
  have htake : (pre ++ fl :: (body ++ el :: post)).take (pre.length + 1 + body.length)
      = pre ++ fl :: body := by
    rw [hlines]
    exact List.take_left' (by simp; omega)
  have hrev : (pre ++ fl :: body).reverse = body.reverse ++ fl :: pre.reverse := by simp
  have hend : endKeywordOf "for".toList = "endfor".toList := by rfl
  unfold findMatchingBlock
  rw [htake, hrev, hend, findBlockScan_for i S E hi fl pre.reverse hfl body.reverse
    (fun l hl => hbody l (List.mem_reverse.mp hl)), List.length_reverse]

/-- The line `endfor` of the loop over `i`, with the upper bound E recorded and
`i` at `k`: `i` becomes `k + 1`; while that is at most E the program counter
goes to the line after the `for`, otherwise the bookkeeping entry is erased and
the line after the `endfor` is next. -/
theorem endfor_line {D : Type} [StdDouble D] (td : TypeDefs) (lines : List Str) (q p : Nat)
    (st : State D) (i : Str) (S E k : Int) (v bv : Variable D)
    (hline : trim (stripLineComment (lines.getD q [])) = "endfor".toList)
    (hblock : findMatchingBlock lines q "for".toList = some p)
    (hfor : trim (stripLineComment (lines.getD p [])) = forText i S E)
    (hi : isName i = true)
    (hbk : Map.find st.environment (forEndName i) = some bv) (hbv : bv.value = .int E)
    (hfind : Map.find st.environment i = some v) (hv : v.value = .int k)
    (hconst : v.isConst = false) (hres : resolveType td v.type = .ok "integer".toList)
    (hk : -2147483648 ≤ k ∧ k < 2147483647) :
    executeLine td lines q st
      = if k + 1 ≤ E then .jump (p + 1) { st with environment := setInt st.environment i (k + 1) }
        else .next { st with
          environment := Map.erase (setInt st.environment i (k + 1)) (forEndName i) } := by
  have hwrap : wrapInt (k + 1) = k + 1 := by
    unfold wrapInt
    omega
  have hassign := assignValue_int td st.environment i v (k + 1) hi hfind hconst hres
    (by omega)
  have hs1 : sub [(3, to_string E), (2, to_string S), (1, i)] 1 = i := rfl
  have htouch1 : touch st.environment (forEndName i) = st.environment := by
    simp [touch, Map.has, hbk]
  have htouch2 : touch st.environment i = st.environment := by
    simp [touch, Map.has, hfind]
  have hsplit : split "endfor".toList ';' = ["endfor".toList] := by rfl
  have htrim : trim "endfor".toList = "endfor".toList := by rfl
  unfold executeLine
  simp only [hline, hsplit]
  simp only [executeStatements, htrim]
  unfold executeStatement
  simp only [hblock, hfor, for_match i S E hi, hs1, htouch1, htouch2, valueOf, hbk, hbv, hfind,
    hv, hwrap, hassign]
  by_cases hle : k + 1 ≤ E
  · simp only [hle, if_true]
    rfl
  · simp only [hle, if_false]
    rfl

end

/-! ## C5: the counted loop -/

section
open Regex

/-- One round of the loop of `executeAlgoritma`. -/
theorem executeFrom_succ {D : Type} [StdDouble D] (td : TypeDefs) (lines : List Str)
    (fuel pc : Nat) (st : State D) :
    executeFrom td lines (fuel + 1) pc st
      = if pc < lines.length then
          match executeLine td lines pc st with
          | .next st2 => executeFrom td lines fuel (pc + 1) st2
          | .jump pc2 st2 => executeFrom td lines fuel pc2 st2
          | .fail e st2 => .failed pc e st2
          | .hang => .blocked
        else .finished st := rfl

/-- A pass through lines that all go on with the next line is a part of the
run of `executeAlgoritma`. -/
theorem runBody_exec {D : Type} [StdDouble D] (td : TypeDefs) (lines : List Str) :
    ∀ (count pc : Nat) (st st2 : State D), runBody td lines count pc st = some st2 →
      pc + count ≤ lines.length →
      ∀ fuel, executeFrom td lines (fuel + count) pc st = executeFrom td lines fuel (pc + count) st2 := by
  intro count
  induction count with
  | zero =>
    intro pc st st2 h _ fuel
    simp only [runBody, Option.some.injEq] at h
    rw [h]
    rfl
  | succ count ih =>
    intro pc st st2 h hlen fuel
    have hpc : pc < lines.length := by omega
    unfold runBody at h
    rw [← Nat.add_assoc]
    rw [executeFrom_succ, if_pos hpc]
    cases hline : executeLine td lines pc st with
    | next s1 =>
      rw [hline] at h
      simp only at h ⊢
      rw [ih (pc + 1) s1 st2 h (by omega) fuel]
      have hpc2 : pc + 1 + count = pc + (count + 1) := by omega
      rw [hpc2]
    | jump a b => rw [hline] at h; simp at h
    | fail a b => rw [hline] at h; simp at h
    | hang => rw [hline] at h; simp at h

/-- A pass through lines each of which keeps the entry of `x` keeps it. -/
theorem runBody_keeps {D : Type} [StdDouble D] (td : TypeDefs) (lines : List Str) (x : Str) :
    ∀ (count pc : Nat) (st st2 : State D),
      (∀ j, j < count → ∀ s s2 : State D, executeLine td lines (pc + j) s = .next s2 →
        Map.find s2.environment x = Map.find s.environment x) →
      runBody td lines count pc st = some st2 →
      Map.find st2.environment x = Map.find st.environment x := by
  intro count
  induction count with
  | zero =>
    intro pc st st2 _ h
    simp only [runBody, Option.some.injEq] at h
    rw [h]
  | succ count ih =>
    intro pc st st2 hframe h
    unfold runBody at h
    cases hline : executeLine td lines pc st with
    | next s1 =>
      rw [hline] at h
      simp only at h
      have h1 := hframe 0 (by omega) st s1 hline
      have h2 := ih (pc + 1) s1 st2 (fun j hj s s2 hs => hframe (j + 1) (by omega) s s2
        (by rw [← hs]; congr 1; omega)) h
      rw [h2, h1]
    | jump a b => rw [hline] at h; simp at h
    | fail a b => rw [hline] at h; simp at h
    | hang => rw [hline] at h; simp at h

theorem getD_append_cons {α : Type} (a b : List α) (x d : α) :
    (a ++ x :: b).getD a.length d = x := by
  induction a with
  | nil => rfl
  | cons y a ih => simpa using ih


/-- The entry of `name` after `setInt`. -/
theorem find_setInt_self {D : Type} (env : Env D) (name : Str) (k : Int) (v : Variable D)
    (h : Map.find env name = some v) :
    Map.find (setInt env name k) name = some { v with value := .int k } := by
  simp only [setInt, h, Map.find_set_self]

/-- The entries of other names after `setInt`. -/
theorem find_setInt_ne {D : Type} (env : Env D) (name other : Str) (k : Int)
    (h : other ≠ name) : Map.find (setInt env name k) other = Map.find env other := by
  unfold setInt
  cases Map.find env name with
  | none => rfl
  | some v => exact Map.find_set_ne _ _ _ _ h

/-- The rounds of a counted loop from the line after the `for` on, with `i` at
`k` and `n` values to go, up to the upper bound E: the run of `executeAlgoritma`
goes `n` times through the body and the `endfor`, and is then at the line after
the `endfor`, with `i` at E + 1 and the bookkeeping entry erased. -/
theorem for_rounds {D : Type} [StdDouble D] (td : TypeDefs) (pre body post : List Str)
    (fl el : Str) (i : Str) (S E : Int) (bv : Variable D)
    (hfl : trim (stripLineComment fl) = forText i S E)
    (hel : trim (stripLineComment el) = "endfor".toList)
    (hi : isName i = true) (hE : E < 2147483647) (hbv : bv.value = .int E)
    (hbody : ∀ l ∈ body, noForKeyword l = true)
    (hframe : ∀ j, j < body.length → ∀ s s2 : State D,
      executeLine td (pre ++ fl :: (body ++ el :: post)) (pre.length + 1 + j) s = .next s2 →
        Map.find s2.environment i = Map.find s.environment i
          ∧ Map.find s2.environment (forEndName i) = Map.find s.environment (forEndName i)) :
    ∀ (n : Nat) (k : Int) (st0 st2 : State D) (v0 : Variable D),
      k + n = E + 1 → 0 < n → -2147483648 ≤ k →
      Map.find st0.environment i = some v0 → v0.isConst = false →
      resolveType td v0.type = .ok "integer".toList →
      Map.find st0.environment (forEndName i) = some bv →
      forIterations td (pre ++ fl :: (body ++ el :: post)) (pre.length + 1) body.length i n k st0
        = some st2 →
      ∀ fuel, executeFrom td (pre ++ fl :: (body ++ el :: post)) (fuel + n * (body.length + 1))
          (pre.length + 1) { st0 with environment := setInt st0.environment i k }
        = executeFrom td (pre ++ fl :: (body ++ el :: post)) fuel (pre.length + body.length + 2)
          { st2 with
            environment := Map.erase (setInt st2.environment i (E + 1)) (forEndName i) } := by
  have hlines : pre ++ fl :: (body ++ el :: post) = (pre ++ fl :: body) ++ el :: post := by simp
  have hlen : (pre ++ fl :: (body ++ el :: post)).length
      = pre.length + 1 + body.length + 1 + post.length := by
    simp only [List.length_append, List.length_cons]; omega
  have hgetfor : (pre ++ fl :: (body ++ el :: post)).getD pre.length [] = fl :=
    getD_append_cons _ _ _ _
  have hgetend : (pre ++ fl :: (body ++ el :: post)).getD (pre.length + 1 + body.length) []
      = el := by
    have h1 := getD_append_cons (pre ++ fl :: body) post el []
    have h2 : (pre ++ fl :: body).length = pre.length + 1 + body.length := by
      simp only [List.length_append, List.length_cons]; omega
    rw [← hlines, h2] at h1
    exact h1
  have hblock := findMatchingBlock_for i S E hi pre body post fl el hfl hbody
  intro n
  induction n with
  | zero => intro k st0 st2 v0 _ hn; omega
  | succ n ih =>
    intro k st0 st2 v0 hkn _ hk hfind hconst hres hbk hiter fuel
    unfold forIterations at hiter
    cases hrun : runBody td (pre ++ fl :: (body ++ el :: post)) body.length (pre.length + 1)
        { st0 with environment := setInt st0.environment i k } with
    | none => rw [hrun] at hiter; simp at hiter
    | some st1 =>
      rw [hrun] at hiter
      simp only at hiter
      have hi1 : Map.find st1.environment i = some { v0 with value := .int k } := by
        rw [runBody_keeps td _ i body.length (pre.length + 1) _ st1
          (fun j hj s s2 hs => (hframe j hj s s2 hs).1) hrun]
        exact find_setInt_self _ _ _ _ hfind
      have hbk1 : Map.find st1.environment (forEndName i) = some bv := by
        rw [runBody_keeps td _ (forEndName i) body.length (pre.length + 1) _ st1
          (fun j hj s s2 hs => (hframe j hj s s2 hs).2) hrun]
        show Map.find (setInt st0.environment i k) (forEndName i) = some bv
        rw [find_setInt_ne _ _ _ _ (fun h => forEndName_ne i h.symm), hbk]
      have hfuel : fuel + (n + 1) * (body.length + 1)
          = (fuel + n * (body.length + 1) + 1) + body.length := by ring
      have hend := endfor_line td (pre ++ fl :: (body ++ el :: post))
        (pre.length + 1 + body.length) pre.length st1 i S E k { v0 with value := .int k } bv
        (by rw [hgetend]; exact hel) hblock (by rw [hgetfor]; exact hfl) hi hbk1 hbv hi1 rfl
        hconst hres ⟨hk, by omega⟩
      rw [hfuel, runBody_exec td _ body.length (pre.length + 1) _ st1 hrun (by rw [hlen]; omega),
        executeFrom_succ, if_pos (by rw [hlen]; omega), hend]
      cases n with
      | zero =>
        have hkE : k = E := by omega
        have hst : st1 = st2 := by simpa [forIterations] using hiter
        have hnot : ¬ (k + 1 ≤ E) := by omega
        rw [if_neg hnot, ← hst, hkE]
        simp only [Nat.zero_mul, Nat.add_zero]
        have hpc : pre.length + 1 + body.length + 1 = pre.length + body.length + 2 := by omega
        rw [hpc]
      | succ n2 =>
        have hle : k + 1 ≤ E := by omega
        rw [if_pos hle]
        exact ih (k + 1) st1 st2 { v0 with value := .int k } (by omega) (by omega) (by omega)
          hi1 hconst hres hbk1 hiter fuel


/-- A line that holds one `output` statement leaves the environment as it is. -/
theorem output_line_env {D : Type} [StdDouble D] (td : TypeDefs) (lines : List Str) (pc : Nat)
    (args : Str) (s s2 : State D)
    (hline : trim (stripLineComment (lines.getD pc [])) = "output(".toList ++ args)
    (hsemi : ';' ∉ args) (h : executeLine td lines pc s = .next s2) :
    s2.environment = s.environment := by
  have ho : "output(".toList = ['o', 'u', 't', 'p', 'u', 't', '('] := rfl
  have htrim : trim ("output(".toList ++ args) = "output(".toList ++ args := by
    rw [← hline, trim_idem]
  have hsemi2 : ';' ∉ "output(".toList ++ args := by
    rw [ho]
    simp only [List.mem_append, List.mem_cons, not_or]
    exact ⟨by decide, hsemi⟩
  have hne : ("output(".toList ++ args).isEmpty = false := by rw [ho]; rfl
  have hstart : startsWith ("output(".toList ++ args) "output(".toList = true := by
    rw [ho]; simp [startsWith]
  unfold executeLine at h
  simp only [hline] at h
  rw [split_single _ ';' (by rw [ho]; simp) hsemi2] at h
  simp only [executeStatements, htrim, hne] at h
  unfold executeStatement at h
  simp only [hstart, if_true] at h
  cases hout : outputLineOf s.environment (parseOutputArgs (callContent ("output(".toList ++ args) 7)) with
  | error e => rw [hout] at h; simp at h
  | ok l =>
    rw [hout] at h
    simp at h
    rw [← h]


/-- C5 (amended): let the program hold the line `for i = S to E do`, then the
lines of BODY, then `endfor`, with S ≤ E literals in the range of `int`, E below
the largest `int`, and `i` a variable that is not const, of a type that resolves
to `integer`.  Let no line of BODY start with the letters `for` or `endfor`, and
let each line of BODY, whenever it goes on with the next line, keep the entries
of `i` and of `__FOR_i_END__`.  If running BODY E - S + 1 times in a row, with
`i` set to S, S + 1, ..., E before the passes, goes through without an exception
and without a jump, then `executeAlgoritma` from the `for` line does exactly
that, in one round for the `for` line and one for each line of BODY and each
`endfor`, and goes on at the line after the `endfor` with `i` at E + 1 and no
entry `__FOR_i_END__` in the environment. -/
theorem for_loop_counts {D : Type} [StdDouble D] (td : TypeDefs) (pre body post : List Str)
    (fl el : Str) (st st2 : State D) (i : Str) (S E : Int) (v : Variable D)
    (hfl : trim (stripLineComment fl) = forText i S E)
    (hel : trim (stripLineComment el) = "endfor".toList)
    (hi : isName i = true)
    (hS : -2147483648 ≤ S) (hSE : S ≤ E) (hE : E < 2147483647)
    (hfind : Map.find st.environment i = some v) (hconst : v.isConst = false)
    (hres : resolveType td v.type = .ok "integer".toList)
    (hbody : ∀ l ∈ body, noForKeyword l = true)
    (hframe : ∀ j, j < body.length → ∀ s s2 : State D,
      executeLine td (pre ++ fl :: (body ++ el :: post)) (pre.length + 1 + j) s = .next s2 →
        Map.find s2.environment i = Map.find s.environment i
          ∧ Map.find s2.environment (forEndName i) = Map.find s.environment (forEndName i))
    (hiter : forIterations td (pre ++ fl :: (body ++ el :: post)) (pre.length + 1) body.length i
        (E - S + 1).toNat S
        { st with environment := (Map.set st.environment (forEndName i)
            { value := .int E, type := "integer".toList, isConst := false }) }
      = some st2) :
    (∀ fuel, executeFrom td (pre ++ fl :: (body ++ el :: post))
          (fuel + (E - S + 1).toNat * (body.length + 1) + 1) pre.length st
        = executeFrom td (pre ++ fl :: (body ++ el :: post)) fuel (pre.length + body.length + 2)
          { st2 with
            environment := Map.erase (setInt st2.environment i (E + 1)) (forEndName i) })
      ∧ Map.find (Map.erase (setInt st2.environment i (E + 1)) (forEndName i)) (forEndName i)
          = none := by
  refine ⟨?_, Map.find_erase_self _ _⟩
  intro fuel
  have hlen : (pre ++ fl :: (body ++ el :: post)).length
      = pre.length + 1 + body.length + 1 + post.length := by
    simp only [List.length_append, List.length_cons]; omega
  have hgetfor : (pre ++ fl :: (body ++ el :: post)).getD pre.length [] = fl :=
    getD_append_cons _ _ _ _
  have henter := for_line_enters td (pre ++ fl :: (body ++ el :: post)) pre.length st i S E v
    (by rw [hgetfor]; exact hfl) hi ⟨hS, by omega⟩ ⟨by omega, by omega⟩ hSE hfind hconst hres
  rw [executeFrom_succ, if_pos (by rw [hlen]; omega), henter]
  have hfind2 : Map.find (Map.set st.environment (forEndName i)
      ({ value := .int E, type := "integer".toList, isConst := false } : Variable D)) i
      = some v := by
    rw [Map.find_set_ne _ _ _ _ (forEndName_ne i), hfind]
  exact for_rounds td pre body post fl el i S E
    { value := .int E, type := "integer".toList, isConst := false } hfl hel hi hE rfl hbody
    hframe (E - S + 1).toNat S
    { st with environment := (Map.set st.environment (forEndName i)
        { value := .int E, type := "integer".toList, isConst := false }) }
    st2 v (by omega) (by omega) hS hfind2 hconst hres (Map.find_set_self _ _ _) hiter fuel

/-- C5, an instance of the amended claim: with `i` an integer variable, the
program `for i = 1 to 3 do`, `output(i)`, `endfor` prints 1, 2 and 3 in seven
rounds and ends with `i` at 4 and no bookkeeping entry. -/
theorem for_loop_counts_witness :
    executeAlgoritma initializeTypeSystem countProgram 7 (startState [("i".toList, intVar 0)])
      = .finished ⟨[("i".toList, intVar 4)], ["1".toList, "2".toList, "3".toList], [], []⟩ := by
  have h := for_loop_counts initializeTypeSystem [] ["output(i)".toList] []
    "for i = 1 to 3 do".toList "endfor".toList (startState [("i".toList, intVar 0)])
    ⟨[("i".toList, intVar 3), (forEndName "i".toList, intVar 3)],
      ["1".toList, "2".toList, "3".toList], [], []⟩
    "i".toList 1 3 (intVar 0) rfl rfl rfl (by decide) (by decide) (by decide) rfl rfl rfl
    (by decide)
    (by
      intro j hj s s2 hs
      have hj0 : j = 0 := by simpa using hj
      subst hj0
      have henv := output_line_env initializeTypeSystem
        ["for i = 1 to 3 do".toList, "output(i)".toList, "endfor".toList] 1 "i)".toList s s2 rfl
        (by decide) hs
      rw [henv]
      exact ⟨rfl, rfl⟩)
    rfl
  exact (h.1 0).trans rfl

/-- C5, against the claim as it stands: in the loop `for i = 1 to 3 do` with
the body `__FOR_i_END__ = 1`, `output(i)`, which holds an assignment and an
output and does not assign `i`, the body runs once, not three times: the run
ends after four rounds with the one line `1` printed and `i` at 2. -/
theorem for_bound_assigned_in_body :
    executeAlgoritma initializeTypeSystem boundProgram 4 (startState [("i".toList, intVar 0)])
      = .finished ⟨[("i".toList, intVar 2)], ["1".toList], [], []⟩ := by
  rfl

end

/-! ## C11, C12, C17: dispatch and whole runs -/

section
open Regex

/-- C11 (the code departs from the claim): a statement that starts with
`while`, `untuk` or `else if` and holds the character `=` is taken by the branch
of the assignment, whose pattern it does not match, and the run ends with the
error of a malformed assignment: so for `while i <= 3 do`, for `untuk i = 1`
after a `repeat`, and for `else if i = 1 then` reached from a taken branch.
The same condition after `if` is read by the handler of `if`. -/
theorem control_keyword_with_equals_rejected :
    executeAlgoritma initializeTypeSystem ["while i <= 3 do".toList, "endwhile".toList] 5
        (startState [("i".toList, intVar 1)])
      = .failed 0 (.statementAssign "while i <= 3 do".toList) (startState [("i".toList, intVar 1)])
    ∧ executeAlgoritma initializeTypeSystem ["repeat".toList, "untuk i = 1".toList] 5
        (startState [("i".toList, intVar 1)])
      = .failed 1 (.statementAssign "untuk i = 1".toList) (startState [("i".toList, intVar 1)])
    ∧ executeAlgoritma initializeTypeSystem
        ["if true then".toList, "else if i = 1 then".toList, "endif".toList] 5
        (startState [("i".toList, intVar 1)])
      = .failed 1 (.statementAssign "else if i = 1 then".toList)
          (startState [("i".toList, intVar 1)])
    ∧ executeAlgoritma initializeTypeSystem ["if i <= 3 then".toList, "endif".toList] 5
        (startState [("i".toList, intVar 1)])
      = .finished (startState [("i".toList, intVar 1)]) :=
  ⟨rfl, rfl, rfl, rfl⟩

/-- C12: from an empty environment `parseKamus` on the declaration
`n : integer` declares `n` with the default 0 and no error, and
`executeAlgoritma` on the one line `n = 5; output(n);` returns, whatever the
number of rounds allowed above zero, with the output buffer `["5"]` and `n`
holding the integer 5. -/
theorem declare_assign_output :
    parseKamus 1 ["n : integer".toList] ([] : Env Decimal)
        = some ⟨initializeTypeSystem, [("n".toList, intVar 0)], none⟩
      ∧ ∀ fuel : Nat,
          executeAlgoritma initializeTypeSystem ["n = 5; output(n);".toList] (fuel + 1)
              (startState [("n".toList, intVar 0)])
            = .finished ⟨[("n".toList, intVar 5)], ["5".toList], [], []⟩ := by
  refine ⟨rfl, ?_⟩
  intro fuel
  cases fuel <;> rfl

/-- C17 (the code departs from the claim): in the lines `if true then`,
`output(1)`, `else`, `if false then`, `output(2)`, `endif`, `output(3)`,
`endif` the `else` of line 2, reached from the taken branch, sets the program
counter to the `endif` of line 5, which closes the nested block, not to the
`endif` of line 7: `output(3)`, a statement of the skipped branch, is
executed. -/
theorem else_stops_at_nested_endif :
    executeLine initializeTypeSystem nestedIfProgram 2
        { startState [] with outputBuffer := ["1".toList] }
      = .jump 5 { startState [] with outputBuffer := ["1".toList] }
    ∧ findJumpTarget nestedIfProgram 2 ["endif".toList] = 5
    ∧ executeAlgoritma initializeTypeSystem nestedIfProgram 20 (startState [])
      = .finished { startState [] with outputBuffer := ["1".toList, "3".toList] } :=
  ⟨rfl, rfl, rfl⟩

end

/-! ## C19: the cast of a text to integer -/

section
open Regex

/-- The function `std::stoi` on any text, read as white space, a sign or
none, the longest run of digits and what is left. -/
theorem stoi_spec (ws sign ds rest : Str) (hws : ∀ c ∈ ws, isSpace c = true)
    (hsign : sign = [] ∨ sign = ['+'] ∨ sign = ['-'])
    (hdig : ∀ c ∈ ds, c.isDigit = true) (hrest : ∀ c ∈ rest.head?, c.isDigit = false)
    (hbare : sign = [] → ds = [] → ∀ c ∈ rest.head?, isSpace c = false ∧ c ≠ '+' ∧ c ≠ '-') :
    stoi (ws ++ (sign ++ (ds ++ rest)))
      = if ds ≠ [] ∧ inIntRange (numeralValue sign ds) = true then some (numeralValue sign ds)
        else none := by
  have htw : (ds ++ rest).takeWhile Char.isDigit = ds := takeWhile_append_stop _ _ _ hdig hrest
  have hdrop : ∀ X : Str, (∀ c ∈ X.head?, isSpace c = false) →
      (ws ++ X).dropWhile isSpace = X := by
    intro X hX
    rw [List.dropWhile_append_of_pos hws]
    exact dropWhile_eq_self _ _ hX
  have hemp : ds.isEmpty = decide (ds = []) := by cases ds <;> simp
  rcases hsign with h | h | h
  · subst h
    have hhead : ∀ c ∈ (ds ++ rest).head?, isSpace c = false ∧ c ≠ '+' ∧ c ≠ '-' := by
      intro c hc
      cases hds : ds with
      | nil => rw [hds] at hc; exact hbare rfl hds c hc
      | cons d ds2 =>
        rw [hds] at hc
        have hcd : c = d := by simpa using hc.symm
        have hd : d.isDigit = true := hdig d (by rw [hds]; exact List.mem_cons_self _ _)
        rw [hcd]
        exact ⟨isDigit_not_isSpace d hd, ne_of_class hd (by decide), ne_of_class hd (by decide)⟩
    have hc1 : ((ds ++ rest).head? == some '-') = false := by
      cases hh : (ds ++ rest).head? with
      | none => rfl
      | some c => simpa using (hhead c (by rw [hh]; rfl)).2.2
    have hc2 : ((ds ++ rest).head? == some '+') = false := by
      cases hh : (ds ++ rest).head? with
      | none => rfl
      | some c => simpa using (hhead c (by rw [hh]; rfl)).2.1
    simp only [List.nil_append, stoi, hdrop _ (fun c hc => (hhead c hc).1), hc1, hc2, Bool.or_self,
      Bool.false_eq_true, if_false, htw, hemp, numeralValue, inIntRange]
    by_cases hd : ds = [] <;> simp [hd]
  · subst h
    have hX : ∀ c ∈ (['+'] ++ (ds ++ rest)).head?, isSpace c = false := by
      intro c hc
      have : c = '+' := by simpa using hc.symm
      rw [this]; decide
    have hc1 : ((some '+' : Option Char) == some '-') = false := by decide
    have hc2 : ((some '+' : Option Char) == some '+') = true := by decide
    simp only [stoi, hdrop _ hX, numeralValue, inIntRange]
    simp only [List.singleton_append, List.head?_cons, hc1, hc2, Bool.false_or, if_true,
      List.drop_one, List.tail_cons, htw, hemp, Bool.false_eq_true, if_false]
    by_cases hd : ds = [] <;> simp [hd]
  · subst h
    have hX : ∀ c ∈ (['-'] ++ (ds ++ rest)).head?, isSpace c = false := by
      intro c hc
      have : c = '-' := by simpa using hc.symm
      rw [this]; decide
    have hc1 : ((some '-' : Option Char) == some '-') = true := by decide
    simp only [stoi, hdrop _ hX, numeralValue, inIntRange]
    simp only [List.singleton_append, List.head?_cons, hc1, Bool.true_or, if_true,
      List.drop_one, List.tail_cons, htw, hemp]
    by_cases hd : ds = [] <;> simp [hd]


/-- A result of `std::stoi` is an `int`. -/
theorem stoi_range (s : Str) (n : Int) (h : stoi s = some n) :
    -2147483648 ≤ n ∧ n ≤ 2147483647 := by
  have aux : ∀ (b : Bool) (v : Int),
      (if b = true then none
        else if -2147483648 ≤ v ∧ v ≤ 2147483647 then some v else none) = some n →
      -2147483648 ≤ n ∧ n ≤ 2147483647 := by
    intro b v hv
    by_cases hb : b = true
    · rw [if_pos hb] at hv; exact absurd hv (by simp)
    · rw [if_neg hb] at hv
      by_cases hr : -2147483648 ≤ v ∧ v ≤ 2147483647
      · rw [if_pos hr] at hv
        have hn : v = n := Option.some.inj hv
        rw [← hn]; exact hr
      · rw [if_neg hr] at hv; exact absurd hv (by simp)
  exact aux _ _ h

/-- C19 (amended): for a type that resolves to `integer`, `castValue` of a text
reads it as `std::stoi` does: white space, a sign or none, the longest run of
digits, and what is left, which is ignored.  The cast error is raised when
there is no digit at that place or when the number read is not an `int`;
otherwise the result is the number read.  So the cast of an optionally signed
decimal numeral in the range of `int` is the integer it denotes, the cast of
`abc` or of the empty text is an error, and the cast of `12abc` is 12. -/
theorem castValue_integer_text {D : Type} [StdDouble D] (td : TypeDefs) (T : Str)
    (ws sign ds rest : Str) (hres : resolveType td T = .ok "integer".toList)
    (hws : ∀ c ∈ ws, isSpace c = true) (hsign : sign = [] ∨ sign = ['+'] ∨ sign = ['-'])
    (hdig : ∀ c ∈ ds, c.isDigit = true) (hrest : ∀ c ∈ rest.head?, c.isDigit = false)
    (hbare : sign = [] → ds = [] → ∀ c ∈ rest.head?, isSpace c = false ∧ c ≠ '+' ∧ c ≠ '-') :
    castValue td (.str (ws ++ (sign ++ (ds ++ rest))) : Value D) T
      = if ds ≠ [] ∧ inIntRange (numeralValue sign ds) = true then
          .ok (.int (numeralValue sign ds))
        else .error (.castInteger (ws ++ (sign ++ (ds ++ rest)))) := by
  have hparse : parseType "integer".toList = .ok ⟨"integer".toList, []⟩ := by rfl
  have hstoi := stoi_spec ws sign ds rest hws hsign hdig hrest hbare
  unfold castValue
  simp only [hres, hparse, anyToString, beq_self_eq_true, if_true, hstoi]
  by_cases h : ds ≠ [] ∧ inIntRange (numeralValue sign ds) = true
  · simp only [h, and_self, if_true, ne_eq, not_false_eq_true]
  · rw [if_neg h, if_neg h]

/-- C19, instances of the amended claim: the casts of `-42`, of ` +7` and of
`abc` to `integer`. -/
theorem castValue_integer_text_witness :
    castValue initializeTypeSystem (.str "-42".toList : Value Decimal) "integer".toList
        = .ok (.int (-42))
      ∧ castValue initializeTypeSystem (.str " +7".toList : Value Decimal) "integer".toList
        = .ok (.int 7)
      ∧ castValue initializeTypeSystem (.str "abc".toList : Value Decimal) "integer".toList
        = .error (.castInteger "abc".toList) := by
  have h1 := castValue_integer_text (D := Decimal) initializeTypeSystem "integer".toList
    [] ['-'] "42".toList [] rfl (by simp) (by simp) (by decide) (by simp) (by simp)
  have h2 := castValue_integer_text (D := Decimal) initializeTypeSystem "integer".toList
    [' '] ['+'] "7".toList [] rfl (by decide) (by simp) (by decide) (by simp) (by simp)
  have h3 := castValue_integer_text (D := Decimal) initializeTypeSystem "integer".toList
    [] [] [] "abc".toList rfl (by simp) (by simp) (by simp) (by decide) (by decide)
  exact ⟨h1.trans rfl, h2.trans rfl, h3.trans rfl⟩

/-- C19 as stated fails: the casts of the texts `12abc` and `3.7`, which are
not integer numerals, to `integer` raise no error: they are 12 and 3. -/
theorem castValue_reads_leading_numeral :
    castValue initializeTypeSystem (.str "12abc".toList : Value Decimal) "integer".toList
        = .ok (.int 12)
      ∧ castValue initializeTypeSystem (.str "3.7".toList : Value Decimal) "integer".toList
        = .ok (.int 3) :=
  ⟨rfl, rfl⟩

end

/-! ## C14: casting twice -/

section
open Regex

/-- The part of `castValue` behind the resolution of the target type. -/
theorem castValue_eq {D : Type} [StdDouble D] (td : TypeDefs) (T r : Str) (pt : ParsedType)
    (hr : resolveType td T = .ok r) (hp : parseType r = .ok pt) (value : Value D) :
    castValue td value T
      = match value with
        | .arr _ => .ok value
        | .struct _ => .ok value
        | _ =>
          if pt.baseType == "integer".toList then
            match stoi (anyToString value) with
            | some n => .ok (.int n)
            | none => .error (.castInteger (anyToString value))
          else if pt.baseType == "real".toList then
            match (StdDouble.stod (anyToString value) : Option D) with
            | some d => .ok (.real d)
            | none => .error (.castReal (anyToString value))
          else if pt.baseType == "boolean".toList then
            match value with
            | .bool _ => .ok value
            | _ => .ok (.bool ((anyToString value).map Char.toLower == "true".toList))
          else if pt.baseType == "string".toList then .ok (.str (anyToString value))
          else if pt.baseType == "character".toList then
            .ok (.str ((anyToString value).take 1))
          else .ok value := by
  unfold castValue
  simp only [hr, hp]

/-- C14 (amended): for every type name T, so for each of the five primitives,
and every value `v` for which `castValue v T` returns `w`, `castValue w T`
returns `w` again, provided that, when `w` is a `double`, `std::stod` reads
back from `std::to_string` of it the same `double`.  Nothing is asked of `w`
when it is no `double`, as after a cast to `integer`, `boolean`, `string` or
`character`. -/
theorem castValue_idem {D : Type} [StdDouble D] (td : TypeDefs) (T : Str) (v w : Value D)
    (h : castValue td v T = .ok w)
    (hround : ∀ d : D, w = .real d → StdDouble.stod (StdDouble.to_string d) = some d) :
    castValue td w T = .ok w := by
  cases hr : resolveType td T with
  | error e => unfold castValue at h; rw [hr] at h; exact absurd h (by simp)
  | ok r =>
    cases hp : parseType r with
    | error e => unfold castValue at h; rw [hr] at h; simp only [hp] at h; exact absurd h (by simp)
    | ok pt =>
      rw [castValue_eq td T r pt hr hp] at h ⊢
      have hint : ∀ s : Str, (match stoi s with
          | some n => (Except.ok (Value.int n) : Except Err (Value D))
          | none => .error (.castInteger s)) = .ok w →
          ∃ n, w = .int n ∧ stoi (to_string n) = some n := by
        intro s hs
        cases hst : stoi s with
        | none => rw [hst] at hs; exact absurd hs (by simp)
        | some n =>
          rw [hst] at hs
          have hw : Value.int n = w := Except.ok.inj hs
          have := stoi_to_string_append n (stoi_range s n hst) [] (by simp)
          rw [List.append_nil] at this
          exact ⟨n, hw.symm, this⟩
      have hreal : ∀ s : Str, (match (StdDouble.stod s : Option D) with
          | some d => (Except.ok (Value.real d) : Except Err (Value D))
          | none => .error (.castReal s)) = .ok w →
          ∃ d, w = .real d := by
        intro s hs
        cases hst : (StdDouble.stod s : Option D) with
        | none => rw [hst] at hs; exact absurd hs (by simp)
        | some d =>
          rw [hst] at hs
          exact ⟨d, (Except.ok.inj hs).symm⟩
      cases h1 : (pt.baseType == "integer".toList) with
      | true =>
        cases v <;> simp only [h1, if_true] at h <;>
          first
          | (have hw := Except.ok.inj h
             subst hw
             rfl)
          | (generalize (anyToString (_ : Value D)) = s at h
             obtain ⟨n, hw, hn⟩ := hint s h
             subst hw
             simp only [h1, if_true, anyToString, hn])
      | false =>
      cases h2 : (pt.baseType == "real".toList) with
      | true =>
        cases v <;> simp only [h1, h2, if_true, Bool.false_eq_true, if_false] at h <;>
          first
          | (have hw := Except.ok.inj h
             subst hw
             rfl)
          | (generalize (anyToString (_ : Value D)) = s at h
             obtain ⟨d, hw⟩ := hreal s h
             have hd := hround d hw
             subst hw
             simp only [h1, h2, if_true, Bool.false_eq_true, if_false, anyToString, hd])
      | false =>
      cases h3 : (pt.baseType == "boolean".toList) with
      | true =>
        cases v <;> simp only [h1, h2, h3, if_true, Bool.false_eq_true, if_false] at h <;>
          (have hw := Except.ok.inj h
           subst hw
           simp only [h1, h2, h3, if_true, Bool.false_eq_true, if_false])
      | false =>
      cases h4 : (pt.baseType == "string".toList) with
      | true =>
        cases v <;> simp only [h1, h2, h3, h4, if_true, Bool.false_eq_true, if_false] at h <;>
          (have hw := Except.ok.inj h
           subst hw
           simp only [h1, h2, h3, h4, if_true, Bool.false_eq_true, if_false, anyToString])
      | false =>
      cases h5 : (pt.baseType == "character".toList) with
      | true =>
        cases v <;> simp only [h1, h2, h3, h4, h5, if_true, Bool.false_eq_true, if_false] at h <;>
          (have hw := Except.ok.inj h
           subst hw
           simp only [h1, h2, h3, h4, h5, if_true, Bool.false_eq_true, if_false, anyToString,
             List.take_take, min_self])
      | false =>
        cases v <;> simp only [h1, h2, h3, h4, h5, if_true, Bool.false_eq_true, if_false] at h <;>
          (have hw := Except.ok.inj h
           subst hw
           simp only [h1, h2, h3, h4, h5, if_true, Bool.false_eq_true, if_false])


/-- C14, instances of the amended claim: the cast of the text `42` to `integer`
is 42 and casts to itself; the cast of the text `1.500000` to `real` is a
number that `std::to_string` writes as `1.500000`, and casts to itself. -/
theorem castValue_idem_witness :
    castValue initializeTypeSystem (.int 42 : Value Decimal) "integer".toList = .ok (.int 42)
      ∧ castValue initializeTypeSystem (.real ⟨false, 1500000, 6⟩ : Value Decimal) "real".toList
        = .ok (.real ⟨false, 1500000, 6⟩) :=
  ⟨castValue_idem (D := Decimal) initializeTypeSystem "integer".toList (.str "42".toList)
      (.int 42) rfl (fun _ hd => Value.noConfusion hd),
    castValue_idem (D := Decimal) initializeTypeSystem "real".toList (.str "1.500000".toList)
      (.real { neg := false, digits := 1500000, scale := 6 }) rfl
      (fun d hd => by
        have hd2 : ({ neg := false, digits := 1500000, scale := 6 } : Decimal) = d := by
          injection hd
        rw [← hd2]
        rfl)⟩

/-- C14 as stated fails for `real`: the cast of the text `0.0000001` is the
number 1/10^7, and the cast of that number, which `std::to_string` writes as
`0.000000`, is the number 0. -/
theorem castValue_real_not_idem :
    castValue initializeTypeSystem (.str "0.0000001".toList : Value Decimal) "real".toList
        = .ok (.real ⟨false, 1, 7⟩)
      ∧ Decimal.to_string ⟨false, 1, 7⟩ = "0.000000".toList
      ∧ castValue initializeTypeSystem (.real ⟨false, 1, 7⟩ : Value Decimal) "real".toList
        = .ok (.real ⟨false, 0, 6⟩) :=
  ⟨rfl, rfl, rfl⟩

end

/-! ## C20: operands that do not fit -/

section
open Regex

/-- The pattern of the one-digit array access does not match a text that
starts with a character outside `\w`. -/
theorem arrAccess_no_word (c : Char) (s : Str) (hc : isWord c = false) :
    regex_match arrAccess (c :: s) = none := by
  simp only [regex_match, arrAccess, Regex.cat, run_seq, run_group, run_plus_cons, hc,
    Bool.false_eq_true, if_false]

/-- The stub evaluator on a text that starts with a double quote, has another
character at its end and holds an operator character: when the text is not
itself a variable, the result is the fallback `false`. -/
theorem evaluate_quoted_then {D : Type} [StdDouble D] (env : Env D) (body : Str)
    (hne : body ≠ [])
    (hlast : ∀ c ∈ body.getLast?, isSpace c = false ∧ c ≠ Char.ofNat 34)
    (hdot : '.' ∉ body) (hop : body.any (fun c => operatorChars.contains c) = true)
    (hkey : Map.find env (Char.ofNat 34 :: body) = none) :
    evaluateExpression (Char.ofNat 34 :: body) env = .ok (.bool false) := by
  have hgl : (Char.ofNat 34 :: body).getLast? = body.getLast? := by
    rw [← List.singleton_append, List.getLast?_append_of_ne_nil _ hne]
  obtain ⟨l, hl⟩ : ∃ l, body.getLast? = some l := by
    cases h : body.getLast? with
    | none => exact absurd (List.getLast?_eq_none_iff.mp h) hne
    | some l => exact ⟨l, rfl⟩
  have hl2 := hlast l (by rw [hl]; rfl)
  have htrim : trim (Char.ofNat 34 :: body) = Char.ofNat 34 :: body := by
    apply trim_eq_self
    · simp
    · intro c hc
      have : c = Char.ofNat 34 := by simpa using hc.symm
      rw [this]; decide
    · intro c hc
      rw [hgl] at hc
      exact (hlast c hc).1
  have hq : (some l == some (Char.ofNat 34)) = false := by simpa using hl2.2
  have hq2 : ((some (Char.ofNat 34) : Option Char) == some (Char.ofNat 39)) = false := by decide
  have htrue : (Char.ofNat 34 :: body == "true".toList) = false := by
    rw [beq_eq_false_iff_ne]
    intro h
    injection h with h1 _
    exact absurd h1 (by decide)
  have hfalse : (Char.ofNat 34 :: body == "false".toList) = false := by
    rw [beq_eq_false_iff_ne]
    intro h
    injection h with h1 _
    exact absurd h1 (by decide)
  have hnodot : (Char.ofNat 34 :: body).contains '.' = false := by
    rw [Bool.eq_false_iff]
    intro h
    have hm : '.' ∈ Char.ofNat 34 :: body := by simpa using h
    rcases List.mem_cons.mp hm with h1 | h1
    · exact absurd h1 (by decide)
    · exact hdot h1
  have hstoi : stoi (Char.ofNat 34 :: body) = none := by
    have := stoi_spec [] [] [] (Char.ofNat 34 :: body) (by simp) (by simp) (by simp)
      (by intro c hc
          have : c = Char.ofNat 34 := by simpa using hc.symm
          rw [this]; decide)
      (by intro _ _ c hc
          have : c = Char.ofNat 34 := by simpa using hc.symm
          rw [this]; decide)
    simpa using this
  have hany : (Char.ofNat 34 :: body).any (fun c => operatorChars.contains c) = true := by
    rw [List.any_cons, hop, Bool.or_true]
  have harr : regex_match arrAccess (Char.ofNat 34 :: body) = none :=
    arrAccess_no_word _ _ (by decide)
  unfold evaluateExpression
  simp only [htrim, hgl, hl, hq, List.head?_cons, hq2, Bool.and_false, Bool.false_and, htrue,
    hfalse, hnodot, hstoi, Bool.false_eq_true, if_false, Option.map_none']
  unfold evaluateRest
  simp only [hkey, harr, hany, if_true]


/-- C20 (amended): for a left operand that is a text literal in double quotes
(without a point) or a Boolean literal, an arithmetic operator and an integer
literal as the right operand, the stub evaluator raises no error on the text
`a op b`: when the text is not itself a variable, it returns the Boolean
`false`, the fallback for a text with an operator character. -/
theorem evaluate_misfit_text {D : Type} [StdDouble D] (env : Env D) (a : NonNumber) (op : Char)
    (b : Int) (hop : op ∈ arithmeticOperators) (ha : ∀ s, a = .quoted s → '.' ∉ s)
    (hkey : Map.find env (binaryText a.text [op] (to_string b)) = none) :
    evaluateExpression (binaryText a.text [op] (to_string b)) env = .ok (.bool false) := by
  have hopc : ∀ c ∈ [op], operatorChars.contains c = true ∧ c ≠ '.' := by
    intro c hc
    have hc2 : c = op := by simpa using hc
    rw [hc2]
    simp only [arithmeticOperators, List.mem_cons, List.mem_singleton, List.not_mem_nil,
      or_false] at hop
    rcases hop with h | h | h | h <;> rw [h] <;> exact ⟨by decide, by decide⟩
  obtain ⟨hb1, hb2, hb3⟩ := to_string_spec b
  have hbc : ∀ c ∈ to_string b, operandChar c = true := by
    intro c hc
    rcases hb2 c hc with h | h
    · rw [h]; decide
    · simp [operandChar, h]
  obtain ⟨h1, h2, h3, h4⟩ := binary_rest_spec [op] (to_string b) (by simp) hopc hb1 hbc
  cases a with
  | boolean v =>
    cases v
    · exact evaluate_name_then env "false".toList _ (by decide) (by decide) (by decide)
        h1 h2 h3 h4 hkey
    · exact evaluate_name_then env "true".toList _ (by decide) (by decide) (by decide)
        h1 h2 h3 h4 hkey
  | quoted s =>
    have hshape : binaryText (NonNumber.quoted s).text [op] (to_string b)
        = Char.ofNat 34 :: (s ++ (Char.ofNat 34 :: (' ' :: ([op] ++ (' ' :: to_string b))))) := by
      simp [binaryText, NonNumber.text]
    rw [hshape] at hkey ⊢
    have hlast2 : (s ++ (Char.ofNat 34 :: (' ' :: ([op] ++ (' ' :: to_string b))))).getLast?
        = (to_string b).getLast? := by
      have : s ++ (Char.ofNat 34 :: (' ' :: ([op] ++ (' ' :: to_string b))))
          = (s ++ (Char.ofNat 34 :: (' ' :: ([op] ++ [' '])))) ++ to_string b := by simp
      rw [this, List.getLast?_append_of_ne_nil _ hb1]
    apply evaluate_quoted_then env _ (by simp)
    · intro c hc
      rw [hlast2] at hc
      have hd := hb3 c hc
      exact ⟨isDigit_not_isSpace c hd, ne_of_class hd (by decide)⟩
    · intro hm
      rcases List.mem_append.mp hm with hm1 | hm1
      · exact ha s rfl hm1
      · rcases List.mem_cons.mp hm1 with hm2 | hm2
        · exact absurd hm2 (by decide)
        · exact h3 hm2
    · rw [List.any_append, List.any_cons, h4]
      simp
    · exact hkey

/-- C20, instances of the amended claim: the texts `"a" * 2` and `false - 1`
evaluate to the Boolean `false`. -/
theorem evaluate_misfit_text_witness :
    evaluateExpression (Char.ofNat 34 :: 'a' :: Char.ofNat 34 :: " * 2".toList) ([] : Env Decimal)
        = .ok (.bool false)
      ∧ evaluateExpression "false - 1".toList ([] : Env Decimal) = .ok (.bool false) :=
  ⟨evaluate_misfit_text [] (.quoted "a".toList) '*' 2 (by decide)
      (fun s hs => by
        have hs2 : "a".toList = s := by injection hs
        rw [← hs2]; decide) rfl,
    evaluate_misfit_text [] (.boolean false) '-' 1 (by decide)
      (fun _ hs => NonNumber.noConfusion hs) rfl⟩

/-- C20 as stated fails: on the texts `"a" + 1` and `true + 1` the evaluator
raises no error; it returns the Boolean `false`. -/
theorem evaluate_misfit_is_no_error :
    evaluateExpression (Char.ofNat 34 :: 'a' :: Char.ofNat 34 :: " + 1".toList) ([] : Env Decimal)
        = .ok (.bool false)
      ∧ evaluateExpression "true + 1".toList ([] : Env Decimal) = .ok (.bool false) :=
  ⟨rfl, rfl⟩

end

/-! ## C13: the output statement -/

section
open Regex

/-- A step of the scan either cuts, and `parts` grows by one, or adds the
character to the current part; which of the two depends on the flags only. -/
theorem ArgScan.step_cases (a : ArgScan) (c : Char) :
    ((ArgScan.step a c).parts = a.parts ++ [trim a.currentPart]
        ∧ (ArgScan.step a c).currentPart = [])
      ∨ ((ArgScan.step a c).parts = a.parts
        ∧ (ArgScan.step a c).currentPart = a.currentPart ++ [c]) := by
  unfold ArgScan.step
  simp only
  split_ifs <;> simp

/-- The flags after a step, and whether it cuts, depend on the flags only. -/
theorem ArgScan.step_flags (a b : ArgScan) (c : Char) (h1 : a.inString = b.inString)
    (h2 : a.inChar = b.inChar) (h3 : a.bracketLevel = b.bracketLevel) :
    (ArgScan.step a c).inString = (ArgScan.step b c).inString
      ∧ (ArgScan.step a c).inChar = (ArgScan.step b c).inChar
      ∧ (ArgScan.step a c).bracketLevel = (ArgScan.step b c).bracketLevel
      ∧ ((ArgScan.step b c).parts = b.parts → (ArgScan.step a c).parts = a.parts
          ∧ (ArgScan.step a c).currentPart = a.currentPart ++ [c]) := by
  unfold ArgScan.step
  simp only [h1, h2, h3]
  split_ifs <;> simp_all


/-- The scan never drops a part. -/
theorem ArgScan.run_mono : ∀ (e : Str) (a : ArgScan),
    a.parts.length ≤ (e.foldl ArgScan.step a).parts.length := by
  intro e
  induction e with
  | nil => intro a; exact le_refl _
  | cons c e ih =>
    intro a
    have h := ih (ArgScan.step a c)
    rcases ArgScan.step_cases a c with hc | hc
    · rw [hc.1] at h
      simp only [List.length_append, List.length_singleton] at h
      exact le_trans (Nat.le_succ _) h
    · rw [hc.1] at h
      exact h

/-- A text over which the scan from `b` does not cut is added to the current
part of any scan `a` with the flags of `b`, which ends with the flags `b` ends
with. -/
theorem ArgScan.run_closed : ∀ (e : Str) (a b : ArgScan), a.inString = b.inString →
    a.inChar = b.inChar → a.bracketLevel = b.bracketLevel →
    (e.foldl ArgScan.step b).parts = b.parts →
    (e.foldl ArgScan.step a).parts = a.parts
      ∧ (e.foldl ArgScan.step a).currentPart = a.currentPart ++ e
      ∧ (e.foldl ArgScan.step a).inString = (e.foldl ArgScan.step b).inString
      ∧ (e.foldl ArgScan.step a).inChar = (e.foldl ArgScan.step b).inChar
      ∧ (e.foldl ArgScan.step a).bracketLevel = (e.foldl ArgScan.step b).bracketLevel := by
  intro e
  induction e with
  | nil => intro a b h1 h2 h3 _; simp [h1, h2, h3]
  | cons c e ih =>
    intro a b h1 h2 h3 hb
    simp only [List.foldl_cons] at hb ⊢
    have hbc : (ArgScan.step b c).parts = b.parts := by
      rcases ArgScan.step_cases b c with hc | hc
      · have hm := ArgScan.run_mono e (ArgScan.step b c)
        rw [hb, hc.1] at hm
        simp only [List.length_append, List.length_singleton] at hm
        omega
      · exact hc.1
    obtain ⟨g1, g2, g3, g4⟩ := ArgScan.step_flags a b c h1 h2 h3
    obtain ⟨g5, g6⟩ := g4 hbc
    obtain ⟨k1, k2, k3, k4, k5⟩ := ih (ArgScan.step a c) (ArgScan.step b c) g1 g2 g3
      (by rw [hb, hbc])
    refine ⟨by rw [k1, g5], ?_, k3, k4, k5⟩
    rw [k2, g6]
    simp

/-- The scan over an argument text that is closed: the text is added to the
current part, and the scan is outside quotes and brackets again. -/
theorem ArgScan.run_argClosed (e : Str) (he : argClosed e = true) (P : List Str) (C : Str) :
    e.foldl ArgScan.step
        { parts := P, currentPart := C, inString := false, inChar := false, bracketLevel := 0 }
      = { parts := P, currentPart := C ++ e, inString := false, inChar := false,
          bracketLevel := 0 } := by
  simp only [argClosed, Bool.and_eq_true, List.isEmpty_iff, Bool.not_eq_true', beq_iff_eq] at he
  obtain ⟨⟨⟨e1, e2⟩, e3⟩, e4⟩ := he
  obtain ⟨k1, k2, k3, k4, k5⟩ := ArgScan.run_closed e
    { parts := P, currentPart := C, inString := false, inChar := false, bracketLevel := 0 }
    ArgScan.start rfl rfl rfl (by rw [e1]; rfl)
  rw [e2] at k3
  rw [e3] at k4
  rw [e4] at k5
  cases hr : e.foldl ArgScan.step
    { parts := P, currentPart := C, inString := false, inChar := false, bracketLevel := 0 } with
  | mk p cp s ch l =>
    rw [hr] at k1 k2 k3 k4 k5
    simp only at k1 k2 k3 k4 k5
    rw [k1, k2, k3, k4, k5]

/-- The helper `parseOutputArgs` on closed argument texts with commas between
them: the texts, trimmed. -/
theorem parseOutputArgs_join : ∀ (es : List Str) (P : List Str), es ≠ [] →
    (∀ e ∈ es, argClosed e = true) →
    ((joinWith ',' es).foldl ArgScan.step
        { parts := P, currentPart := [], inString := false, inChar := false,
          bracketLevel := 0 }).parts
      ++ [trim ((joinWith ',' es).foldl ArgScan.step
        { parts := P, currentPart := [], inString := false, inChar := false,
          bracketLevel := 0 }).currentPart]
      = P ++ es.map trim := by
  intro es
  induction es with
  | nil => intro P h; exact absurd rfl h
  | cons e es ih =>
    intro P _ hcl
    have he := hcl e (List.mem_cons_self _ _)
    cases es with
    | nil =>
      simp only [joinWith, ArgScan.run_argClosed e he, List.nil_append, List.map_cons,
        List.map_nil]
    | cons e2 es =>
      have hstep : ArgScan.step
          { parts := P, currentPart := [] ++ e, inString := false, inChar := false,
            bracketLevel := 0 } ','
          = { parts := P ++ [trim e], currentPart := [], inString := false, inChar := false,
              bracketLevel := 0 } := by
        simp [ArgScan.step]
      simp only [joinWith, List.foldl_append, List.foldl_cons, ArgScan.run_argClosed e he, hstep]
      rw [ih (P ++ [trim e]) (by simp) (fun x hx => hcl x (List.mem_cons_of_mem _ hx))]
      simp


/-- The evaluator trims its text itself. -/
theorem evaluate_trim {D : Type} [StdDouble D] (e : Str) (env : Env D) :
    evaluateExpression (trim e) env = evaluateExpression e env := by
  unfold evaluateExpression
  simp only [trim_idem]

/-- The loop of `output` over arguments that evaluate: the renderings of the
values with a blank between them. -/
theorem outputLineOf_spec {D : Type} [StdDouble D] (env : Env D) :
    ∀ (es : List Str) (vs : List (Value D)),
      List.Forall₂ (fun e v => evaluateExpression e env = .ok v) es vs →
      outputLineOf env (es.map trim) = .ok (joinWith ' ' (vs.map prettyPrintAny)) := by
  intro es vs h
  induction h with
  | nil => rfl
  | cons hev hrest ih =>
    rename_i e v es vs
    cases hrest with
    | nil =>
      simp only [List.map_cons, List.map_nil, outputLineOf, evaluate_trim, hev, joinWith]
    | cons hev2 hrest2 =>
      rename_i e2 v2 es2 vs2
      simp only [List.map_cons] at ih ⊢
      simp only [outputLineOf, evaluate_trim, hev, ih, joinWith]

/-- C13 (amended): let a line hold the one statement `output(e1,...,ek)`,
k ≥ 1, where no argument text holds a semicolon, each is closed for the scan
of `parseOutputArgs` (no comma outside quotes and brackets, every quote and
bracket closed), and each evaluates to a value.  Then the line appends one
line to the output buffer, the renderings of the k values with single blanks
between them, leaves the lines before it and the environment as they are, and
goes on with the next line. -/
theorem output_line {D : Type} [StdDouble D] (td : TypeDefs) (lines : List Str) (pc : Nat)
    (st : State D) (es : List Str) (vs : List (Value D))
    (hline : trim (stripLineComment (lines.getD pc []))
      = "output(".toList ++ (joinWith ',' es ++ [')']))
    (hne : es ≠ []) (hsemi : ∀ e ∈ es, ';' ∉ e) (hclosed : ∀ e ∈ es, argClosed e = true)
    (heval : List.Forall₂ (fun e v => evaluateExpression e st.environment = .ok v) es vs) :
    executeLine td lines pc st
      = .next { st with
          outputBuffer := st.outputBuffer ++ [joinWith ' ' (vs.map prettyPrintAny)] } := by
  have ho : "output(".toList = ['o', 'u', 't', 'p', 'u', 't', '('] := rfl
  have hjoin : ∀ l : List Str, (∀ e ∈ l, ';' ∉ e) → ';' ∉ joinWith ',' l := by
    intro l
    induction l with
    | nil => intro _ h; exact absurd h (by simp [joinWith])
    | cons e l ih =>
      intro hl
      cases l with
      | nil => simpa [joinWith] using hl e (List.mem_cons_self _ _)
      | cons e2 l2 =>
        simp only [joinWith, List.mem_append, List.mem_cons, not_or]
        exact ⟨hl e (List.mem_cons_self _ _), by decide,
          ih (fun x hx => hl x (List.mem_cons_of_mem _ hx))⟩
  have hsemi2 : ';' ∉ "output(".toList ++ (joinWith ',' es ++ [')']) := by
    rw [ho]
    simp only [List.mem_append, List.mem_cons, List.mem_singleton, List.not_mem_nil, not_or,
      List.cons_append, List.nil_append]
    exact ⟨by decide, by decide, by decide, by decide, by decide, by decide, by decide,
      hjoin es hsemi, by decide⟩
  have htrim : trim ("output(".toList ++ (joinWith ',' es ++ [')']))
      = "output(".toList ++ (joinWith ',' es ++ [')']) := by
    rw [← hline, trim_idem]
  have hnee : ("output(".toList ++ (joinWith ',' es ++ [')'])).isEmpty = false := by
    rw [ho]; rfl
  have hstart : startsWith ("output(".toList ++ (joinWith ',' es ++ [')'])) "output(".toList
      = true := by
    rw [ho]; simp [startsWith]
  have hcontent : callContent ("output(".toList ++ (joinWith ',' es ++ [')'])) 7
      = joinWith ',' es := by
    unfold callContent substr
    rw [ho]
    simp
  have hargs : parseOutputArgs (joinWith ',' es) = es.map trim := by
    have := parseOutputArgs_join es [] hne hclosed
    simpa [parseOutputArgs] using this
  unfold executeLine
  simp only [hline]
  rw [split_single _ ';' (by rw [ho]; simp) hsemi2]
  simp only [executeStatements, htrim, hnee]
  unfold executeStatement
  simp only [hstart, if_true, hcontent, hargs, outputLineOf_spec st.environment es vs heval]
  rfl


/-- C13, an instance of the amended claim: the line `output("a,b", 1, true)`
appends the line `a,b 1 true`; the comma between the quotes does not separate
arguments. -/
theorem output_line_witness :
    executeLine initializeTypeSystem [commaTextLine] 0 (startState [])
      = .next { startState [] with outputBuffer := ["a,b 1 true".toList] } :=
  output_line initializeTypeSystem [commaTextLine] 0 (startState [])
    [Char.ofNat 34 :: ("a,b".toList ++ [Char.ofNat 34]), " 1".toList, " true".toList]
    [.str "a,b".toList, .int 1, .bool true] rfl (by simp) (by decide) (by decide)
    (.cons rfl (.cons rfl (.cons rfl .nil)))

/-- C13 as stated fails: the text `"a;b"` evaluates, to the text `a;b`, but the
line `output("a;b")` appends nothing: the line is cut at the semicolon before
its statements are read, and the run ends with the error of an expression
that cannot be evaluated. -/
theorem output_text_with_semicolon :
    evaluateExpression semicolonText ([] : Env Decimal) = .ok (.str "a;b".toList)
      ∧ executeAlgoritma initializeTypeSystem [semicolonTextLine] 5 (startState [])
        = .failed 0 (.cannotEvaluate [Char.ofNat 34]) (startState []) :=
  ⟨rfl, rfl⟩

end

/-! ## C15: the loop of resolveType -/

section
open Regex

/-- A key with an entry is among the keys. -/
theorem Map.mem_keys_of_find {α : Type} (m : Map α) (k : Str) (v : α)
    (h : Map.find m k = some v) : k ∈ m.map Prod.fst := by
  induction m with
  | nil => simp [Map.find] at h
  | cons e rest ih =>
    obtain ⟨k2, v2⟩ := e
    by_cases h2 : (k2 == k) = true
    · have : k2 = k := by simpa using h2
      rw [this]
      exact List.mem_cons_self _ _
    · simp only [Map.find, h2, Bool.false_eq_true, if_false] at h
      exact List.mem_cons_of_mem _ (ih h)

/-- Distinct keys with entries are no more than the entries. -/
theorem Map.nodup_keys_le {α : Type} (m : Map α) (seen : List Str) (hnd : seen.Nodup)
    (hkeys : ∀ x ∈ seen, (Map.find m x).isSome = true) : seen.length ≤ m.length := by
  have hsub : seen ⊆ m.map Prod.fst := by
    intro x hx
    have := hkeys x hx
    cases hf : Map.find m x with
    | none => rw [hf] at this; exact absurd this (by simp)
    | some v => exact Map.mem_keys_of_find m x v hf
  have := (List.subperm_of_subset hnd hsub).length_le
  simpa using this

/-- The loop of `resolveType` ends: with distinct keys in `seen` it needs no
more rounds than there are entries left; and the bounded loop of the
embedding gives the result of the loop. -/
theorem resolveWhile_total (td : TypeDefs) :
    ∀ (fuel : Nat) (seen : List Str) (current : Str), seen.Nodup →
      (∀ x ∈ seen, (Map.find td x).isSome = true) → td.length + 1 ≤ fuel + seen.length →
      resolveWhile td fuel seen current = some (resolveLoop td fuel seen current) := by
  intro fuel
  induction fuel with
  | zero =>
    intro seen current hnd hkeys hlen
    have := Map.nodup_keys_le td seen hnd hkeys
    omega
  | succ fuel ih =>
    intro seen current hnd hkeys hlen
    unfold resolveWhile resolveLoop
    cases hf : Map.find td current with
    | none => rfl
    | some d =>
      simp only
      by_cases ha : (d.type == "alias".toList) = true
      · simp only [ha, if_true]
        by_cases hs : seen.contains current = true
        · simp only [hs, if_true]
        · simp only [hs, Bool.false_eq_true, if_false]
          apply ih
          · refine List.nodup_cons.mpr ⟨?_, hnd⟩
            intro hm
            exact hs (by simpa using hm)
          · intro x hx
            rcases List.mem_cons.mp hx with h | h
            · rw [h, hf]; rfl
            · exact hkeys x h
          · simp only [List.length_cons]; omega
      · simp only [ha, Bool.false_eq_true, if_false]

/-- More rounds do not change the result of the loop. -/
theorem resolveWhile_mono (td : TypeDefs) :
    ∀ (fuel : Nat) (seen : List Str) (current : Str) (r : Except Err Str),
      resolveWhile td fuel seen current = some r →
      ∀ k, resolveWhile td (fuel + k) seen current = some r := by
  intro fuel
  induction fuel with
  | zero => intro seen current r h; simp [resolveWhile] at h
  | succ fuel ih =>
    intro seen current r h k
    have hk : fuel + 1 + k = (fuel + k) + 1 := by omega
    rw [hk]
    unfold resolveWhile at h ⊢
    cases hf : Map.find td current with
    | none => rw [hf] at h; exact h
    | some d =>
      rw [hf] at h
      simp only at h ⊢
      by_cases ha : (d.type == "alias".toList) = true
      · simp only [ha, if_true] at h ⊢
        by_cases hs : seen.contains current = true
        · simp only [hs, if_true] at h ⊢
          exact h
        · simp only [hs, Bool.false_eq_true, if_false] at h ⊢
          exact ih _ _ _ h k
      · simp only [ha, Bool.false_eq_true, if_false] at h ⊢
        exact h


/-- A chain of `m + k` links is a chain of `m` links and then one of `k`. -/
theorem aliasChain_add (td : TypeDefs) : ∀ (m k : Nat) (b : Str),
    aliasChain td (m + k) b = (aliasChain td m b).bind (aliasChain td k) := by
  intro m
  induction m with
  | zero => intro k b; simp [aliasChain]
  | succ m ih =>
    intro k b
    have hk : m + 1 + k = (m + k) + 1 := by omega
    rw [hk]
    simp only [aliasChain]
    cases aliasNext td b with
    | none => rfl
    | some next => exact ih k next

/-- One link more at the end of a chain. -/
theorem aliasChain_succ (td : TypeDefs) (n : Nat) (b : Str) :
    aliasChain td (n + 1) b = (aliasChain td n b).bind (aliasNext td) := by
  rw [aliasChain_add]
  congr 1
  funext x
  simp only [aliasChain]
  cases aliasNext td x <;> rfl

/-- A chain that has `n` links has every smaller number of links. -/
theorem aliasChain_prefix (td : TypeDefs) (m n : Nat) (b : Str) (hmn : m ≤ n)
    (h : (aliasChain td n b).isSome = true) : (aliasChain td m b).isSome = true := by
  obtain ⟨k, rfl⟩ := Nat.exists_eq_add_of_le hmn
  rw [aliasChain_add] at h
  cases hm : aliasChain td m b with
  | none => rw [hm] at h; exact absurd h (by simp)
  | some x => rfl

/-- Behind a name without an alias link the chain has no name. -/
theorem aliasChain_after_end (td : TypeDefs) (n m : Nat) (b c : Str)
    (hc : aliasChain td n b = some c) (hend : aliasNext td c = none) (hm : n < m) :
    aliasChain td m b = none := by
  obtain ⟨k, rfl⟩ := Nat.exists_eq_add_of_lt hm
  have : n + k + 1 = n + (k + 1) := by omega
  rw [this, aliasChain_add, hc]
  simp [aliasChain, hend]

/-- A chain that comes back to a name goes on for ever. -/
theorem aliasChain_cycle (td : TypeDefs) (i j : Nat) (b x : Str) (hij : i < j)
    (hi : aliasChain td i b = some x) (hj : aliasChain td j b = some x) :
    ∀ m, (aliasChain td m b).isSome = true := by
  intro m
  induction m using Nat.strong_induction_on with
  | _ m ih =>
    by_cases hm : m ≤ j
    · exact aliasChain_prefix td m j b hm (by rw [hj]; rfl)
    · obtain ⟨k, hk⟩ := Nat.exists_eq_add_of_lt (Nat.lt_of_not_le hm)
      have h1 : aliasChain td m b = aliasChain td (i + (k + 1)) b := by
        rw [hk]
        have : j + k + 1 = j + (k + 1) := by omega
        rw [this, aliasChain_add, hj, aliasChain_add, hi]
      rw [h1]
      exact ih (i + (k + 1)) (by omega)

/-- What the loop of `resolveType` returns, from the name `k` links after
`b`, with names of the chain before it in `seen`: a name of the chain without
an alias link, or the error for a name that the chain holds twice. -/
theorem resolveWhile_sound (td : TypeDefs) (b : Str) :
    ∀ (fuel : Nat) (seen : List Str) (current : Str) (k : Nat) (r : Except Err Str),
      aliasChain td k b = some current →
      (∀ x ∈ seen, ∃ i, i < k ∧ aliasChain td i b = some x) →
      resolveWhile td fuel seen current = some r →
      (∀ c, r = .ok c → ∃ n, aliasChain td n b = some c ∧ aliasNext td c = none)
        ∧ (∀ e, r = .error e → ∃ x i j, e = .circularType x ∧ i < j
            ∧ aliasChain td i b = some x ∧ aliasChain td j b = some x) := by
  intro fuel
  induction fuel with
  | zero => intro seen current k r _ _ h; simp [resolveWhile] at h
  | succ fuel ih =>
    intro seen current k r hk hseen h
    unfold resolveWhile at h
    cases hf : Map.find td current with
    | none =>
      rw [hf] at h
      have hr : Except.ok current = r := Option.some.inj h
      subst hr
      refine ⟨?_, fun e he => Except.noConfusion he⟩
      intro c hc
      have : current = c := Except.ok.inj hc
      subst this
      exact ⟨k, hk, by simp [aliasNext, hf]⟩
    | some d =>
      rw [hf] at h
      simp only at h
      by_cases ha : (d.type == "alias".toList) = true
      · simp only [ha, if_true] at h
        by_cases hs : seen.contains current = true
        · simp only [hs, if_true] at h
          have hr : Except.error (Err.circularType current) = r := Option.some.inj h
          subst hr
          refine ⟨fun c hc => Except.noConfusion hc, ?_⟩
          intro e he
          have he2 : Err.circularType current = e := Except.error.inj he
          obtain ⟨i, hik, hi⟩ := hseen current (by simpa using hs)
          exact ⟨current, i, k, he2.symm, hik, hi, hk⟩
        · simp only [hs, Bool.false_eq_true, if_false] at h
          apply ih (current :: seen) d.aliasedTo (k + 1) r _ _ h
          · rw [aliasChain_succ, hk]
            show aliasNext td current = some d.aliasedTo
            simp only [aliasNext, hf, ha, if_true]
          · intro x hx
            rcases List.mem_cons.mp hx with hx1 | hx1
            · exact ⟨k, Nat.lt_succ_self _, by rw [hx1]; exact hk⟩
            · obtain ⟨i, hik, hi⟩ := hseen x hx1
              exact ⟨i, Nat.lt_succ_of_lt hik, hi⟩
      · simp only [ha, Bool.false_eq_true, if_false] at h
        have hr : Except.ok current = r := Option.some.inj h
        subst hr
        refine ⟨?_, fun e he => Except.noConfusion he⟩
        intro c hc
        have : current = c := Except.ok.inj hc
        subst this
        exact ⟨k, hk, by simp only [aliasNext, hf, ha, Bool.false_eq_true, if_false]⟩

/-- The loop of `resolveType` on a chain that ends: the name at its end. -/
theorem resolveLoop_acyclic (td : TypeDefs) (b c : Str) (n : Nat)
    (hc : aliasChain td n b = some c) (hend : aliasNext td c = none) :
    resolveLoop td (td.length + 1) [] b = .ok c := by
  have htot := resolveWhile_total td (td.length + 1) [] b List.nodup_nil (by simp) (by simp)
  obtain ⟨hok, herr⟩ := resolveWhile_sound td b (td.length + 1) [] b 0 _ rfl (by simp) htot
  cases hr : resolveLoop td (td.length + 1) [] b with
  | ok c2 =>
    obtain ⟨n2, hc2, hend2⟩ := hok c2 hr
    rcases Nat.lt_trichotomy n n2 with h | h | h
    · have := aliasChain_after_end td n n2 b c hc hend h
      rw [this] at hc2; exact absurd hc2 (by simp)
    · rw [h, hc2] at hc
      rw [Option.some.inj hc]
    · have := aliasChain_after_end td n2 n b c2 hc2 hend2 h
      rw [this] at hc; exact absurd hc (by simp)
  | error e =>
    obtain ⟨x, i, j, _, hij, hi, hj⟩ := herr e hr
    have h1 := aliasChain_cycle td i j b x hij hi hj (n + 1)
    have h2 := aliasChain_after_end td n (n + 1) b c hc hend (Nat.lt_succ_self _)
    rw [h2] at h1
    exact absurd h1 (by simp)

/-- The loop of `resolveType` on a chain that comes back to a name: the
error of a circular definition. -/
theorem resolveLoop_cyclic (td : TypeDefs) (b x : Str) (i j : Nat) (hij : i < j)
    (hi : aliasChain td i b = some x) (hj : aliasChain td j b = some x) :
    ∃ y, resolveLoop td (td.length + 1) [] b = .error (.circularType y) := by
  have htot := resolveWhile_total td (td.length + 1) [] b List.nodup_nil (by simp) (by simp)
  obtain ⟨hok, herr⟩ := resolveWhile_sound td b (td.length + 1) [] b 0 _ rfl (by simp) htot
  cases hr : resolveLoop td (td.length + 1) [] b with
  | ok c2 =>
    obtain ⟨n2, hc2, hend2⟩ := hok c2 hr
    have h1 := aliasChain_cycle td i j b x hij hi hj (n2 + 1)
    have h2 := aliasChain_after_end td n2 (n2 + 1) b c2 hc2 hend2 (Nat.lt_succ_self _)
    rw [h2] at h1
    exact absurd h1 (by simp)
  | error e =>
    obtain ⟨y, _, _, he, _⟩ := herr e hr
    exact ⟨y, by rw [he]⟩


/-- C15 (amended): for every set of type definitions and every type name whose
dimensions `parseType` can read (each of them an `int`), `resolveType` ends:
the loop over the alias links needs no more rounds than there are definitions,
plus one, and the bounded loop of the embedding gives its result.  When the
chain of alias links from the base name reaches a name without an alias link,
`resolveType` returns that name with the dimensions; when the chain holds a
name twice, it raises the error of a circular definition. -/
theorem resolveType_terminates (td : TypeDefs) (typeName : Str) (pt : ParsedType)
    (hpt : parseType typeName = .ok pt) :
    (∀ fuel, td.length + 1 ≤ fuel →
        resolveWhile td fuel [] pt.baseType
          = some (resolveLoop td (td.length + 1) [] pt.baseType))
      ∧ (∀ n c, aliasChain td n pt.baseType = some c → aliasNext td c = none →
          resolveType td typeName = .ok (c ++ dimsText pt.dimensions))
      ∧ (∀ i j x, i < j → aliasChain td i pt.baseType = some x →
          aliasChain td j pt.baseType = some x →
          ∃ y, resolveType td typeName = .error (.circularType y)) := by
  refine ⟨?_, ?_, ?_⟩
  · intro fuel hfuel
    obtain ⟨k, rfl⟩ := Nat.exists_eq_add_of_le hfuel
    exact resolveWhile_mono td _ _ _ _
      (resolveWhile_total td (td.length + 1) [] pt.baseType List.nodup_nil (by simp) (by simp)) k
  · intro n c hc hend
    unfold resolveType
    simp only [hpt, resolveLoop_acyclic td pt.baseType c n hc hend]
  · intro i j x hij hi hj
    obtain ⟨y, hy⟩ := resolveLoop_cyclic td pt.baseType x i j hij hi hj
    refine ⟨y, ?_⟩
    unfold resolveType
    simp only [hpt, hy]

/-- C15, instances of the amended claim: after `type A B`, `type B integer`,
`type C D` and `type D C` the name `A[3]` resolves to `integer[3]`, and
`resolveType` of `C` raises the error of a circular definition. -/
theorem resolveType_terminates_witness :
    resolveType aliasTypes "A[3]".toList = .ok "integer[3]".toList
      ∧ ∃ y, resolveType aliasTypes "C".toList = .error (.circularType y) :=
  ⟨(resolveType_terminates aliasTypes "A[3]".toList ⟨"A".toList, [3]⟩ rfl).2.1 2
      "integer".toList rfl rfl,
    (resolveType_terminates aliasTypes "C".toList ⟨"C".toList, []⟩ rfl).2.2 0 2 "C".toList
      (by decide) rfl rfl⟩

/-- C15 as stated fails: of the name `integer[99999999999]`, whose base has no
alias link, `resolveType` returns no name: `std::stoi` throws on the
dimension, which is no `int`, and nothing catches it. -/
theorem resolveType_dimension_not_int :
    aliasNext initializeTypeSystem "integer".toList = none
      ∧ resolveType initializeTypeSystem "integer[99999999999]".toList = .error .stoiFailed :=
  ⟨rfl, rfl⟩

end

/-! ## The pattern of parseType -/

section
open Regex

/-- The digits of `std::to_string` for a number that is not negative. -/
theorem to_string_nat (d : Nat) :
    to_string (d : Int) ≠ [] ∧ ∀ c ∈ to_string (d : Int), c.isDigit = true := by
  obtain ⟨hne, hdig, _⟩ := natToStr_spec (d + 1) d (Nat.lt_succ_self _)
  have : to_string (d : Int) = natToStr (d + 1) d := by
    rw [to_string_eq]
    simp
  rw [this]
  exact ⟨hne, hdig⟩

/-- The pattern `\[\d+\]` reads one dimension and goes on behind it. -/
theorem run_dimension (total : Nat) (w rest : Str) (c : Caps) (k : Cont) (hw : w ≠ [])
    (hdig : ∀ x ∈ w, x.isDigit = true) :
    Regex.run total (cat [lit '[', plus (chr Char.isDigit), lit ']']) ('[' :: (w ++ ']' :: rest))
      c k = k rest c := by
  obtain ⟨x, xs, rfl⟩ := List.exists_cons_of_ne_nil hw
  have hx : x.isDigit = true := hdig x (List.mem_cons_self _ _)
  have hxs : ∀ y ∈ xs, y.isDigit = true := fun y hy => hdig y (List.mem_cons_of_mem _ hy)
  have hstop : ∀ K : Cont, Regex.run total (.star true (.chr Char.isDigit)) (']' :: rest) c K
      = K (']' :: rest) c :=
    fun K => star_stop _ _ _ _ _ _ (by intro y hy
                                       have : y = ']' := by simpa using hy.symm
                                       rw [this]; decide)
  simp only [Regex.cat, run_seq, Regex.lit, run_chr_cons, beq_self_eq_true, if_true,
    List.cons_append, run_plus_cons, hx]
  cases hk : k rest c with
  | some h =>
    apply star_greedy_append_some _ _ _ _ _ _ _ xs hxs
    rw [hstop]
    simp only [run_chr_cons, beq_self_eq_true, if_true, hk]
  | none =>
    apply star_greedy_append_none _ _ _ _ _ _ xs hxs
    · intro j hj
      have hne : xs.drop j ≠ [] := by
        intro h
        have := List.drop_eq_nil_iff.mp h
        omega
      obtain ⟨y, ys, hy⟩ := List.exists_cons_of_ne_nil hne
      have hyd : y.isDigit = true :=
        hxs y (List.mem_of_mem_drop (by rw [hy]; exact List.mem_cons_self _ _))
      have hyb : (y == ']') = false := by simpa using ne_of_class hyd (by decide)
      rw [hy]
      simp only [List.cons_append, run_chr_cons, hyb, Bool.false_eq_true, if_false]
    · rw [hstop]
      simp only [run_chr_cons, beq_self_eq_true, if_true, hk]

/-- The pattern `\[\d+\]` needs a bracket. -/
theorem run_dimension_none (total : Nat) (s : Str) (c : Caps) (k : Cont)
    (hs : ∀ x ∈ s.head?, x ≠ '[') :
    Regex.run total (cat [lit '[', plus (chr Char.isDigit), lit ']']) s c k = none := by
  cases s with
  | nil => simp only [Regex.cat, run_seq, Regex.lit, run_chr_nil]
  | cons x xs =>
    have : (x == '[') = false := by simpa using hs x (by simp)
    simp only [Regex.cat, run_seq, Regex.lit, run_chr_cons, this, Bool.false_eq_true, if_false]

/-- The loop `(\[\d+\])*` reads all the dimensions of `dimsText` when the end
of the text is accepted. -/
theorem starLoop_dims (total : Nat) (k : Cont) (h : Hit) :
    ∀ (ds : List Nat) (n : Nat) (c : Caps), ds.length ≤ n → k [] c = some h →
      starLoop true (Regex.run total (cat [lit '[', plus (chr Char.isDigit), lit ']'])) n
        (dimsText ds) c k = some h := by
  intro ds
  induction ds with
  | nil =>
    intro n c _ hk
    cases n with
    | zero => exact hk
    | succ n =>
      simp only [dimsText, starLoop, if_true]
      rw [run_dimension_none total [] c _ (by simp)]
      exact hk
  | cons d ds ih =>
    intro n c hn hk
    cases n with
    | zero => simp at hn
    | succ n =>
      obtain ⟨hne, hdig⟩ := to_string_nat d
      simp only [dimsText, starLoop, if_true]
      rw [run_dimension total _ _ c _ hne hdig]
      have hlen : (dimsText ds).length
          < ('[' :: (to_string (d : Int) ++ ']' :: dimsText ds)).length := by
        simp only [List.length_cons, List.length_append]; omega
      simp only [hlen, if_true]
      rw [ih n c (by simpa using hn) hk]

/-- The text of the dimensions is at least as long as their number. -/
theorem dimsText_length (ds : List Nat) : ds.length ≤ (dimsText ds).length := by
  induction ds with
  | nil => exact le_refl _
  | cons d ds ih =>
    simp only [dimsText, List.length_cons, List.length_append]
    omega

/-- The head of the text of the dimensions is a bracket. -/
theorem dimsText_head (ds : List Nat) : ∀ x ∈ (dimsText ds).head?, x = '[' := by
  intro x hx
  cases ds with
  | nil => simp [dimsText] at hx
  | cons d ds => simpa [dimsText] using hx.symm

/-- The pattern of `parseType` on a name and dimensions. -/
theorem typeName_match (B : Str) (ds : List Nat) (hB : isName B = true) :
    regex_match typeNameRegex (B ++ dimsText ds) = some [(2, dimsText ds), (1, B)] := by
  obtain ⟨hB1, hB2⟩ := isName_spec B hB
  have hhead : ∀ x ∈ (dimsText ds).head?, isWord x = false := by
    intro x hx
    rw [dimsText_head ds x hx]; decide
  have htw : (dimsText ds).takeWhile isWord = [] := by
    cases hd : dimsText ds with
    | nil => rfl
    | cons y ys =>
      have : isWord y = false := hhead y (by rw [hd]; rfl)
      simp [List.takeWhile, this]
  have hregex : typeNameRegex = .seq (.group 1 (plus (chr isWord)))
      (.seq (.group 2 (.star true (cat [lit '[', plus (chr Char.isDigit), lit ']']))) .eol) := rfl
  unfold regex_match
  rw [hregex, run_seq,
    run_group_plus _ 1 isWord B (dimsText ds) [] _ ([], [(2, dimsText ds), (1, B)]) hB1 hB2]
  · intro j c2 hj1 hj2
    rw [htw] at hj2
    simp at hj2
    omega
  · rw [run_seq, run_group, Regex.run]
    apply starLoop_dims _ _ _ ds _ _ (dimsText_length ds)
    simp [run_eol, atEnd]


/-- The search for `\[(\d+)\]` finds the first dimension at the front. -/
theorem dimRegex_front (total : Nat) (w rest : Str) (hw : w ≠ [])
    (hdig : ∀ x ∈ w, x.isDigit = true) :
    regex_search total dimRegex ('[' :: (w ++ ']' :: rest))
      = some ('[' :: (w ++ [']']), [(1, w)], rest) := by
  have hrun : Regex.run total dimRegex (('[' :: (w ++ [']'])) ++ rest) [] anywhere
      = some (rest, [(1, w)]) := by
    have hregex : dimRegex = .seq (lit '[') (.seq (.group 1 (plus (chr Char.isDigit))) (lit ']')) :=
      rfl
    have hshape : ('[' :: (w ++ [']'])) ++ rest = '[' :: (w ++ ']' :: rest) := by simp
    rw [hregex, hshape, run_seq, Regex.lit, run_chr_cons, if_pos (by decide), run_seq]
    apply run_group_plus _ 1 Char.isDigit w (']' :: rest) [] _ _ hw hdig
    · intro j c2 hj1 hj2
      simp [List.takeWhile, (by decide : Char.isDigit ']' = false)] at hj2
      omega
    · show Regex.run total (lit ']') (']' :: rest) [(1, w)] anywhere = _
      rw [Regex.lit, run_chr_cons, if_pos (by decide)]
      rfl
  have := regex_search_front total dimRegex ('[' :: (w ++ [']'])) rest [(1, w)] (by simp) hrun
  simpa using this

/-- The matches of `\[(\d+)\]` in the text of dimensions. -/
theorem dimRegex_all (total : Nat) : ∀ (ds : List Nat) (fuel : Nat), ds.length < fuel →
    regex_iter total dimRegex fuel (dimsText ds)
      = ds.map (fun (d : Nat) => ('[' :: (to_string (d : Int) ++ [']']), [(1, to_string (d : Int))])) := by
  intro ds
  induction ds with
  | nil =>
    intro fuel hf
    obtain ⟨f, rfl⟩ : ∃ f, fuel = f + 1 := ⟨fuel - 1, by omega⟩
    exact regex_iter_none _ _ _ _ (by rfl)
  | cons d ds ih =>
    intro fuel hf
    obtain ⟨f, rfl⟩ : ∃ f, fuel = f + 1 := ⟨fuel - 1, by omega⟩
    obtain ⟨hne, hdig⟩ := to_string_nat d
    rw [dimsText, regex_iter_hit _ _ _ _ _ _ _ (dimRegex_front total _ (dimsText ds) hne hdig)
      (by simp), ih f (by simpa using hf)]
    rfl

/-- The loop of `parseType` over the dimensions reads back the numbers. -/
theorem parseDims_spec : ∀ (ds : List Nat), (∀ d ∈ ds, d ≤ 2147483647) →
    parseDims (ds.map (fun (d : Nat) =>
      ('[' :: (to_string (d : Int) ++ [']']), [(1, to_string (d : Int))]))) = .ok ds := by
  intro ds
  induction ds with
  | nil => intro _; rfl
  | cons d ds ih =>
    intro h
    have hd := h d (List.mem_cons_self _ _)
    have hstoi : stoi (to_string (d : Int)) = some (d : Int) := by
      have := stoi_to_string_append (d : Int) ⟨by omega, by omega⟩ [] (by simp)
      rwa [List.append_nil] at this
    have hsub : sub [(1, to_string (d : Int))] 1 = to_string (d : Int) := rfl
    simp only [List.map_cons, parseDims, hsub, hstoi, ih (fun x hx => h x (List.mem_cons_of_mem _ hx)),
      Int.toNat_ofNat]

/-- The function `parseType` on a name with dimensions written by
`std::to_string`: the name and the dimensions. -/
theorem parseType_name_dims (B : Str) (ds : List Nat) (hB : isName B = true)
    (hds : ∀ d ∈ ds, d ≤ 2147483647) :
    parseType (B ++ dimsText ds) = .ok { baseType := B, dimensions := ds } := by
  have hs1 : sub [(2, dimsText ds), (1, B)] 1 = B := rfl
  have hs2 : sub [(2, dimsText ds), (1, B)] 2 = dimsText ds := rfl
  have hall : regex_all dimRegex (dimsText ds)
      = ds.map (fun (d : Nat) => ('[' :: (to_string (d : Int) ++ [']']), [(1, to_string (d : Int))])) :=
    dimRegex_all _ ds _ (Nat.lt_succ_of_le (dimsText_length ds))
  unfold parseType
  simp only [typeName_match B ds hB, hs1, hs2, hall, parseDims_spec ds hds]

end

/-! ## C16, C18: unknown bases and the defaults of arrays -/

section
open Regex

/-- C18 (amended): for a type name whose base name, after `n` alias links, is
a name `c` without a definition, `resolveType` raises no error: it returns `c`
with the dimensions.  The error of an unknown type is raised by
`createDefaultValue`, which looks the resolved base up. -/
theorem unknown_base_resolved {D : Type} [StdDouble D] (td : TypeDefs) (B c : Str)
    (ds : List Nat) (n fuel : Nat) (hB : isName B = true) (hc : isName c = true)
    (hds : ∀ d ∈ ds, d ≤ 2147483647) (hchain : aliasChain td n B = some c)
    (hnone : Map.find td c = none) :
    resolveType td (B ++ dimsText ds) = .ok (c ++ dimsText ds)
      ∧ (createDefaultValue td (fuel + 1) (B ++ dimsText ds) : Option (Except Err (Value D)))
        = some (.error (.unknownType c)) := by
  have hend : aliasNext td c = none := by simp only [aliasNext, hnone]
  have hres : resolveType td (B ++ dimsText ds) = .ok (c ++ dimsText ds) := by
    unfold resolveType
    simp only [parseType_name_dims B ds hB hds, resolveLoop_acyclic td B c n hchain hend]
  refine ⟨hres, ?_⟩
  unfold createDefaultValue
  simp only [hres, parseType_name_dims c ds hc hds, hnone]

/-- C18, an instance of the amended claim: with the five primitives only,
`resolveType` of `foo[3]` returns `foo[3]`, and `createDefaultValue` of it
raises the error of the unknown type `foo`. -/
theorem unknown_base_resolved_witness :
    resolveType initializeTypeSystem "foo[3]".toList = .ok "foo[3]".toList
      ∧ (createDefaultValue initializeTypeSystem 1 "foo[3]".toList
          : Option (Except Err (Value Decimal)))
        = some (.error (.unknownType "foo".toList)) :=
  unknown_base_resolved (D := Decimal) initializeTypeSystem "foo".toList "foo".toList [3] 0 0
    (by decide) (by decide) (by decide) rfl rfl

/-- C18 as stated fails: `foo` is no registered type, and neither is `Foo`,
which `A` is an alias of after `type A Foo`; `resolveType` of `foo` and of `A`
returns normally, with `foo` and `Foo`. -/
theorem resolveType_returns_unknown :
    Map.find initializeTypeSystem "foo".toList = none
      ∧ resolveType initializeTypeSystem "foo".toList = .ok "foo".toList
      ∧ Map.find (parseTypes ["type A Foo".toList] none initializeTypeSystem) "Foo".toList = none
      ∧ resolveType (parseTypes ["type A Foo".toList] none initializeTypeSystem) "A".toList
        = .ok "Foo".toList :=
  ⟨rfl, rfl, rfl, rfl⟩


/-- The function `createDefaultValue` behind the resolution of the type name
and the lookup of its base. -/
theorem createDefaultValue_eq {D : Type} [StdDouble D] (td : TypeDefs) (fuel : Nat)
    (typeName r : Str) (pt : ParsedType) (typeDef : TypeDef)
    (hr : resolveType td typeName = .ok r) (hp : parseType r = .ok pt)
    (hfind : Map.find td pt.baseType = some typeDef) :
    (createDefaultValue td (fuel + 1) typeName : Option (Except Err (Value D)))
      = match baseDefault (createDefaultValue td fuel) pt.baseType typeDef with
        | none => none
        | some (.error e) => some (.error e)
        | some (.ok v) =>
          if pt.dimensions.isEmpty then some (.ok v)
          else createArrayRecursive (createDefaultValue td fuel) pt.dimensions pt.baseType := by
  unfold createDefaultValue baseDefault
  simp only [hr, hp, hfind]


/-- The loop of `createArrayRecursive` with an element that is built. -/
theorem fillArray_ok {D : Type} (v : Value D) :
    ∀ n : Nat, fillArray (some (.ok v)) n = some (.ok (List.replicate n v)) := by
  intro n
  induction n with
  | zero => rfl
  | succ n ih => simp only [fillArray, ih, List.replicate_succ]

/-- The function `createArrayRecursive` when the default of the base type is
built: the array of the dimensions with that default in every place. -/
theorem createArrayRecursive_ok {D : Type} (mk : Str → Option (Except Err (Value D)))
    (B : Str) (v : Value D) (hmk : mk B = some (.ok v)) :
    ∀ (d : Nat) (ds : List Nat),
      createArrayRecursive mk (d :: ds) B = some (.ok (nestedArray v (d :: ds))) := by
  intro d ds
  induction ds generalizing d with
  | nil => simp only [createArrayRecursive, hmk, fillArray_ok, nestedArray]
  | cons d2 ds ih => simp only [createArrayRecursive, ih d2, fillArray_ok, nestedArray]

/-- The loop of `createArrayRecursive` when more calls return. -/
theorem fillArray_mono {D : Type} (e1 e2 : Option (Except Err (Value D)))
    (h : ∀ x, e1 = some x → e2 = some x) :
    ∀ (n : Nat) (r : Except Err (List (Value D))), fillArray e1 n = some r →
      fillArray e2 n = some r := by
  intro n r hr
  cases e1 with
  | none =>
    cases n with
    | zero => simpa [fillArray] using hr
    | succ n => simp [fillArray] at hr
  | some x => rw [h x rfl]; exact hr

/-- The function `createArrayRecursive` when more calls return. -/
theorem createArrayRecursive_mono {D : Type} (mk1 mk2 : Str → Option (Except Err (Value D)))
    (h : ∀ name x, mk1 name = some x → mk2 name = some x) (B : Str) :
    ∀ (dims : List Nat) (r : Except Err (Value D)), createArrayRecursive mk1 dims B = some r →
      createArrayRecursive mk2 dims B = some r := by
  intro dims
  induction dims with
  | nil => intro r hr; exact hr
  | cons d ds ih =>
    intro r hr
    cases ds with
    | nil =>
      simp only [createArrayRecursive] at hr ⊢
      cases hf : fillArray (mk1 B) d with
      | none => rw [hf] at hr; exact absurd hr (by simp)
      | some y =>
        rw [fillArray_mono (mk1 B) (mk2 B) (h B) d y hf]
        rw [hf] at hr
        exact hr
    | cons d2 ds2 =>
      simp only [createArrayRecursive] at hr ⊢
      cases hf : fillArray (createArrayRecursive mk1 (d2 :: ds2) B) d with
      | none => rw [hf] at hr; exact absurd hr (by simp)
      | some y =>
        rw [fillArray_mono _ (createArrayRecursive mk2 (d2 :: ds2) B) (fun x hx => ih x hx) d y hf]
        rw [hf] at hr
        exact hr

/-- The loop over the members of a record when more calls return. -/
theorem defaultFields_mono {D : Type} (mk1 mk2 : Str → Option (Except Err (Value D)))
    (h : ∀ name x, mk1 name = some x → mk2 name = some x) :
    ∀ (fields : Map Str) (acc : Map (Value D)) (r : Except Err (Map (Value D))),
      defaultFields mk1 fields acc = some r → defaultFields mk2 fields acc = some r := by
  intro fields
  induction fields with
  | nil => intro acc r hr; exact hr
  | cons f fields ih =>
    intro acc r hr
    obtain ⟨name, ty⟩ := f
    simp only [defaultFields] at hr ⊢
    cases hm : mk1 ty with
    | none => rw [hm] at hr; exact absurd hr (by simp)
    | some x =>
      rw [h ty x hm]
      rw [hm] at hr
      cases x with
      | error e => exact hr
      | ok v => exact ih _ _ hr

/-- The default of the base type when more calls return. -/
theorem baseDefault_mono {D : Type} [StdDouble D] (mk1 mk2 : Str → Option (Except Err (Value D)))
    (h : ∀ name x, mk1 name = some x → mk2 name = some x) (baseType : Str) (typeDef : TypeDef)
    (r : Except Err (Value D)) (hr : baseDefault mk1 baseType typeDef = some r) :
    baseDefault mk2 baseType typeDef = some r := by
  unfold baseDefault at hr ⊢
  split_ifs at hr ⊢ <;> try exact hr
  cases hf : defaultFields mk1 typeDef.fields [] with
  | none => rw [hf] at hr; exact absurd hr (by simp)
  | some y =>
    rw [defaultFields_mono mk1 mk2 h _ _ y hf]
    rw [hf] at hr
    exact hr

/-- A call of `createDefaultValue` that returns within a depth returns the
same within a larger one. -/
theorem createDefaultValue_mono {D : Type} [StdDouble D] (td : TypeDefs) :
    ∀ (fuel : Nat) (typeName : Str) (r : Except Err (Value D)),
      createDefaultValue td fuel typeName = some r →
      createDefaultValue td (fuel + 1) typeName = some r := by
  intro fuel
  induction fuel with
  | zero => intro typeName r h; simp [createDefaultValue] at h
  | succ fuel ih =>
    intro typeName r h
    cases hres : resolveType td typeName with
    | error e =>
      unfold createDefaultValue at h ⊢
      simp only [hres] at h ⊢
      exact h
    | ok res =>
      cases hp : parseType res with
      | error e =>
        unfold createDefaultValue at h ⊢
        simp only [hres, hp] at h ⊢
        exact h
      | ok pt =>
        cases hfind : Map.find td pt.baseType with
        | none =>
          unfold createDefaultValue at h ⊢
          simp only [hres, hp, hfind] at h ⊢
          exact h
        | some typeDef =>
          have e1 := createDefaultValue_eq (D := D) td fuel typeName res pt typeDef hres hp hfind
          have e2 := createDefaultValue_eq (D := D) td (fuel + 1) typeName res pt typeDef hres hp
            hfind
          rw [e1] at h
          rw [e2]
          cases hb : baseDefault (D := D) (createDefaultValue td fuel) pt.baseType typeDef with
          | none => rw [hb] at h; exact absurd h (by simp)
          | some x =>
            rw [baseDefault_mono _ (createDefaultValue td (fuel + 1)) ih _ _ x hb]
            rw [hb] at h
            cases x with
            | error e => exact h
            | ok v =>
              simp only at h ⊢
              by_cases hd : pt.dimensions.isEmpty = true
              · simp only [hd, if_true] at h ⊢
                exact h
              · simp only [hd, Bool.false_eq_true, if_false] at h ⊢
                exact createArrayRecursive_mono _ _ ih _ _ _ h


/-- A name that is defined, and not as an alias, resolves to itself, with its
dimensions. -/
theorem resolveType_registered (td : TypeDefs) (B : Str) (typeDef : TypeDef) (ds : List Nat)
    (hB : isName B = true) (hfind : Map.find td B = some typeDef)
    (halias : (typeDef.type == "alias".toList) = false) (hds : ∀ d ∈ ds, d ≤ 2147483647) :
    resolveType td (B ++ dimsText ds) = .ok (B ++ dimsText ds) := by
  unfold resolveType
  simp only [parseType_name_dims B ds hB hds, resolveLoop, hfind, halias, Bool.false_eq_true,
    if_false]

/-- C16 (amended): let B be a name with a definition that is not an alias, so
a primitive or a record, for which `createDefaultValue` returns the default
`v` within the depth `fuel`, and let the dimensions d0, ..., dn each be an
`int`.  Then `createDefaultValue` of `B[d0]...[dn]` returns an array of d0
elements, each of them the value that `createDefaultValue` of `B[d1]...[dn]`
returns: `v` itself when n = 0, and the array of the dimensions d1, ..., dn
with `v` in every place otherwise. -/
theorem default_array {D : Type} [StdDouble D] (td : TypeDefs) (B : Str) (typeDef : TypeDef)
    (d0 : Nat) (ds : List Nat) (fuel : Nat) (v : Value D)
    (hB : isName B = true) (hfind : Map.find td B = some typeDef)
    (halias : (typeDef.type == "alias".toList) = false)
    (hds : ∀ d ∈ d0 :: ds, d ≤ 2147483647)
    (hdef : createDefaultValue td fuel B = some (.ok v)) :
    createDefaultValue td (fuel + 1) (B ++ dimsText (d0 :: ds))
        = some (.ok (.arr (List.replicate d0 (nestedArray v ds))))
      ∧ createDefaultValue td (fuel + 1) (B ++ dimsText ds) = some (.ok (nestedArray v ds)) := by
  have hmono := createDefaultValue_mono td fuel B _ hdef
  have hB0 : B ++ dimsText [] = B := by simp [dimsText]
  have hresB := resolveType_registered td B typeDef [] hB hfind halias (by simp)
  have hpB := parseType_name_dims B [] hB (by simp)
  rw [hB0] at hresB hpB
  have hbase : baseDefault (D := D) (createDefaultValue td fuel) B typeDef = some (.ok v) := by
    have e := createDefaultValue_eq (D := D) td fuel B B ⟨B, []⟩ typeDef hresB hpB hfind
    rw [e] at hmono
    cases hb : baseDefault (D := D) (createDefaultValue td fuel) B typeDef with
    | none => rw [hb] at hmono; exact absurd hmono (by simp)
    | some x =>
      rw [hb] at hmono
      cases x with
      | error e2 => simp at hmono
      | ok v2 => simpa using hmono
  have harr : ∀ (d : Nat) (dims : List Nat), (∀ x ∈ d :: dims, x ≤ 2147483647) →
      createDefaultValue td (fuel + 1) (B ++ dimsText (d :: dims))
        = some (.ok (nestedArray v (d :: dims))) := by
    intro d dims hdims
    have e := createDefaultValue_eq (D := D) td fuel (B ++ dimsText (d :: dims))
      (B ++ dimsText (d :: dims)) ⟨B, d :: dims⟩ typeDef
      (resolveType_registered td B typeDef (d :: dims) hB hfind halias hdims)
      (parseType_name_dims B (d :: dims) hB hdims) hfind
    rw [e, hbase]
    simp only [List.isEmpty_cons, Bool.false_eq_true, if_false]
    exact createArrayRecursive_ok _ B v hdef d dims
  refine ⟨harr d0 ds hds, ?_⟩
  cases ds with
  | nil => rw [hB0]; exact hmono
  | cons d1 ds2 => exact harr d1 ds2 (fun x hx => hds x (List.mem_cons_of_mem _ hx))

/-- C16, an instance of the amended claim: the default of `integer[3][2]` is a
sequence of 3 sequences of 2 zeros, and the default of `integer[2]` is a
sequence of 2 zeros. -/
theorem default_array_witness :
    (createDefaultValue initializeTypeSystem 2 "integer[3][2]".toList
        : Option (Except Err (Value Decimal)))
        = some (.ok (.arr [.arr [.int 0, .int 0], .arr [.int 0, .int 0], .arr [.int 0, .int 0]]))
      ∧ (createDefaultValue initializeTypeSystem 2 "integer[2]".toList
          : Option (Except Err (Value Decimal)))
        = some (.ok (.arr [.int 0, .int 0])) :=
  default_array (D := Decimal) initializeTypeSystem "integer".toList
    ⟨"primitive".toList, [], []⟩ 3 [2] 1 (.int 0) (by decide) rfl rfl (by decide) rfl

/-- C16 as stated fails: after `type R <`, `x : foo`, `>` the name `R` is a
registered record, and `createDefaultValue` of `R[2]` is no array: it raises
the error of the unknown type `foo`, whatever the depth allowed above one. -/
theorem default_array_of_record_fails :
    Map.find holeTypes "R".toList
        = some ⟨"struct".toList, [], [("x".toList, "foo".toList)]⟩
      ∧ ∀ fuel : Nat,
          (createDefaultValue holeTypes (fuel + 2) "R[2]".toList
            : Option (Except Err (Value Decimal)))
          = some (.error (.unknownType "foo".toList)) := by
  refine ⟨rfl, ?_⟩
  intro fuel
  rfl

end

/-! ## C21, C22: identifiers and the cast to boolean -/

section
open Regex

/-- C21: for every identifier, a letter or an underscore followed by word
characters, other than `true` and `false`: when it is a key of the
environment, `evaluateExpression` returns the value of that variable; when it
is not, `evaluateExpression` raises the error of an expression that cannot be
evaluated, and returns no value. -/
theorem evaluate_identifier {D : Type} [StdDouble D] (env : Env D) (x : Str)
    (hx : isIdentifier x = true) (htrue : x ≠ "true".toList) (hfalse : x ≠ "false".toList) :
    evaluateExpression x env
      = match Map.find env x with
        | some v => .ok v.value
        | none => .error (.cannotEvaluate x) := by
  obtain ⟨hne, hword, hhead⟩ := isIdentifier_spec x hx
  obtain ⟨x0, xs, hxs⟩ := List.exists_cons_of_ne_nil hne
  have hw0 : isWord x0 = true := hword x0 (by rw [hxs]; exact List.mem_cons_self _ _)
  have hd0 : x0.isDigit = false := hhead x0 (by rw [hxs]; rfl)
  have hh : x.head? = some x0 := by rw [hxs]; rfl
  have htrim : trim x = x := by
    apply trim_eq_self x hne
    · intro c hc; rw [hh] at hc; have : c = x0 := by simpa using hc.symm
      rw [this]; exact isWord_not_isSpace x0 hw0
    · intro c hc
      exact isWord_not_isSpace c (hword c (List.mem_of_mem_getLast? hc))
  have hq1 : (some x0 == some (Char.ofNat 34)) = false := by
    simpa using ne_of_class hw0 (by decide : isWord (Char.ofNat 34) = false)
  have hq2 : (some x0 == some (Char.ofNat 39)) = false := by
    simpa using ne_of_class hw0 (by decide : isWord (Char.ofNat 39) = false)
  have ht : (x == "true".toList) = false := by simpa using htrue
  have hf : (x == "false".toList) = false := by simpa using hfalse
  have hnodot : x.contains '.' = false := by
    rw [Bool.eq_false_iff]
    intro h
    have hm : '.' ∈ x := by simpa using h
    exact absurd (hword _ hm) (by decide)
  have hstoi : stoi x = none := by
    have := stoi_spec [] [] [] x (by simp) (by simp) (by simp)
      (by intro c hc; rw [hh] at hc; have : c = x0 := by simpa using hc.symm
          rw [this]; exact hd0)
      (by intro _ _ c hc; rw [hh] at hc; have : c = x0 := by simpa using hc.symm
          rw [this]
          exact ⟨isWord_not_isSpace x0 hw0, ne_of_class hw0 (by decide),
            ne_of_class hw0 (by decide)⟩)
    simpa using this
  have hany : x.any (fun c => operatorChars.contains c) = false := by
    rw [Bool.eq_false_iff]
    intro h
    obtain ⟨c, hc, hop⟩ := List.any_eq_true.mp h
    have hw := hword c hc
    have hmem : c ∈ operatorChars := by simpa using hop
    have hops : ∀ d ∈ operatorChars, isWord d = false := by decide
    rw [hops c hmem] at hw
    exact absurd hw (by decide)
  have harr : regex_match arrAccess x = none := by
    have := arrAccess_no_match x [] hne hword (by simp)
    rwa [List.append_nil] at this
  unfold evaluateExpression
  simp only [htrim, hh, hq1, hq2, Bool.and_false, Bool.false_and, ht, hf, hnodot, hstoi,
    Bool.false_eq_true, if_false, Option.map_none']
  unfold evaluateRest
  cases hfind : Map.find env x with
  | some v => rfl
  | none => simp only [harr, hany, Bool.false_eq_true, if_false]


/-- C21, instances: where `x` is 1 and `y` is 2, the identifier `x` evaluates
to 1 and the identifier `z`, which is no key, raises the error. -/
theorem evaluate_identifier_witness :
    evaluateExpression "x".toList xyEnv = .ok (.int 1)
      ∧ evaluateExpression "z".toList xyEnv = .error (.cannotEvaluate "z".toList) :=
  ⟨evaluate_identifier xyEnv "x".toList (by decide) (by decide) (by decide),
    evaluate_identifier xyEnv "z".toList (by decide) (by decide) (by decide)⟩

/-- C22: for a type that resolves to `boolean`, `castValue` raises nothing: a
Boolean is returned as it is, an array or a record as well, and for any other
value the result is the Boolean that says whether the text of the value is
`true`, the case of letters ignored; so it is `false` for the texts `yes`, `1`
and the empty text. -/
theorem castValue_boolean {D : Type} [StdDouble D] (td : TypeDefs) (T : Str) (v : Value D)
    (hres : resolveType td T = .ok "boolean".toList) :
    castValue td v T
      = .ok (match v with
        | .bool b => .bool b
        | .arr xs => .arr xs
        | .struct fs => .struct fs
        | w => .bool (isTrueText (anyToString w))) := by
  have hparse : parseType "boolean".toList = .ok ⟨"boolean".toList, []⟩ := by rfl
  have h1 : ("boolean".toList == "integer".toList) = false := by decide
  have h2 : ("boolean".toList == "real".toList) = false := by decide
  unfold castValue
  simp only [hres, hparse, h1, h2, Bool.false_eq_true, if_false, beq_self_eq_true, if_true,
    isTrueText]
  cases v <;> rfl

/-- C22, instances: the casts to `boolean` of the Boolean `false`, of the text
`TRUE`, of the texts `yes` and `1`, of the empty text and of the integer 1. -/
theorem castValue_boolean_witness :
    castValue initializeTypeSystem (.bool false : Value Decimal) "boolean".toList
        = .ok (.bool false)
      ∧ castValue initializeTypeSystem (.str "TRUE".toList : Value Decimal) "boolean".toList
        = .ok (.bool true)
      ∧ castValue initializeTypeSystem (.str "yes".toList : Value Decimal) "boolean".toList
        = .ok (.bool false)
      ∧ castValue initializeTypeSystem (.str "1".toList : Value Decimal) "boolean".toList
        = .ok (.bool false)
      ∧ castValue initializeTypeSystem (.str [] : Value Decimal) "boolean".toList
        = .ok (.bool false)
      ∧ castValue initializeTypeSystem (.int 1 : Value Decimal) "boolean".toList
        = .ok (.bool false) :=
  ⟨castValue_boolean (D := Decimal) initializeTypeSystem "boolean".toList (.bool false) rfl,
    castValue_boolean (D := Decimal) initializeTypeSystem "boolean".toList (.str "TRUE".toList) rfl,
    castValue_boolean (D := Decimal) initializeTypeSystem "boolean".toList (.str "yes".toList) rfl,
    castValue_boolean (D := Decimal) initializeTypeSystem "boolean".toList (.str "1".toList) rfl,
    castValue_boolean (D := Decimal) initializeTypeSystem "boolean".toList (.str []) rfl,
    castValue_boolean (D := Decimal) initializeTypeSystem "boolean".toList (.int 1) rfl⟩

end

/-! ## C28, C29: blank lines and the range of findJumpTarget -/

section
open Regex

/-- C28 (the code departs from the claim): `trim` returns a text of white
space as it is, not the empty text, so a line of three blanks, a line with a
tab, and a line of blanks before a comment are not skipped: they reach the
dispatcher as statements, and the run ends with the error of an unknown
statement.  The empty line and the line that starts with its comment are
skipped. -/
theorem blank_line_is_not_skipped :
    trim "   ".toList = "   ".toList
      ∧ executeAlgoritma initializeTypeSystem ["   ".toList] 3 (startState [])
        = .failed 0 (.unknownStatement "   ".toList) (startState [])
      ∧ executeAlgoritma initializeTypeSystem [['\t']] 3 (startState [])
        = .failed 0 (.unknownStatement ['\t']) (startState [])
      ∧ executeAlgoritma initializeTypeSystem ["  // note".toList] 3 (startState [])
        = .failed 0 (.unknownStatement "  ".toList) (startState [])
      ∧ executeAlgoritma initializeTypeSystem [[], "// note".toList] 3 (startState [])
        = .finished (startState []) :=
  ⟨rfl, rfl, rfl, rfl, rfl⟩

/-- A line that the loop of `findJumpTarget` returns is one of the lines it
has looked at. -/
theorem findJumpScan_range (startKeyword matchingEnd : Str) (targets : List Str) :
    ∀ (rest : List Str) (i nestingLevel r : Nat),
      findJumpScan startKeyword matchingEnd targets rest i nestingLevel = some r →
      i ≤ r ∧ r < i + rest.length := by
  intro rest
  induction rest with
  | nil => intro i n r h; simp [findJumpScan] at h
  | cons l rest ih =>
    intro i n r h
    have hstep : ∀ m, findJumpScan startKeyword matchingEnd targets rest (i + 1) m = some r →
        i ≤ r ∧ r < i + (l :: rest).length := by
      intro m hm
      have := ih (i + 1) m r hm
      simp only [List.length_cons]
      omega
    have hhere : some i = some r → i ≤ r ∧ r < i + (l :: rest).length := by
      intro hir
      have : i = r := Option.some.inj hir
      simp only [List.length_cons]
      omega
    unfold findJumpScan at h
    simp only at h
    split_ifs at h
    all_goals first
      | exact hstep _ h
      | exact hhere h

/-- C29 (amended): for every list of lines, every `startPC` below their
number and every list of targets, the line `findJumpTarget` returns is not
before `startPC` and is a line of the list; it is behind `startPC` whenever
`startPC` is not the last line. -/
theorem findJumpTarget_range (lines : List Str) (startPC : Nat) (targets : List Str)
    (h : startPC < lines.length) :
    startPC ≤ findJumpTarget lines startPC targets
      ∧ findJumpTarget lines startPC targets < lines.length
      ∧ (startPC + 1 < lines.length → startPC < findJumpTarget lines startPC targets) := by
  unfold findJumpTarget
  simp only
  cases hs : findJumpScan (first (split (trim (stripLineComment (lines.getD startPC []))) ' '))
      (matchingEndOf (first (split (trim (stripLineComment (lines.getD startPC []))) ' ')))
      targets (lines.drop (startPC + 1)) (startPC + 1) 0 with
  | none => simp only; omega
  | some r =>
    have := findJumpScan_range _ _ _ _ _ _ _ hs
    simp only [List.length_drop] at this
    simp only
    omega

theorem findJumpTarget_range_witness :
    (1 : Nat) < ["if false then".toList, "x = 1".toList, "else".toList, "x = 2".toList,
        "endif".toList].length
      ∧ findJumpTarget ["if false then".toList, "x = 1".toList, "else".toList, "x = 2".toList,
        "endif".toList] 0 ["else if".toList, "else".toList, "endif".toList] = 2
      ∧ (0 ≤ findJumpTarget ["if false then".toList, "x = 1".toList, "else".toList,
            "x = 2".toList, "endif".toList] 0 ["else if".toList, "else".toList, "endif".toList]
        ∧ findJumpTarget ["if false then".toList, "x = 1".toList, "else".toList,
            "x = 2".toList, "endif".toList] 0 ["else if".toList, "else".toList, "endif".toList]
          < ["if false then".toList, "x = 1".toList, "else".toList, "x = 2".toList,
            "endif".toList].length
        ∧ (0 + 1 < ["if false then".toList, "x = 1".toList, "else".toList, "x = 2".toList,
            "endif".toList].length →
          0 < findJumpTarget ["if false then".toList, "x = 1".toList, "else".toList,
            "x = 2".toList, "endif".toList] 0
              ["else if".toList, "else".toList, "endif".toList])) :=
  ⟨by decide, rfl, findJumpTarget_range _ 0 _ (by decide)⟩

/-- The round of the loop at a false `if` that is the only line comes back to
that line, with the state as it was. -/
theorem lone_if_round (fuel : Nat) :
    executeFrom initializeTypeSystem ["if false then".toList] fuel 0 (startState [])
      = .running 0 (startState []) := by
  induction fuel with
  | zero => rfl
  | succ n ih =>
    rw [executeFrom_succ, if_pos (by decide)]
    have h : executeLine initializeTypeSystem ["if false then".toList] 0 (startState [])
        = .jump 0 (startState []) := by rfl
    rw [h]
    exact ih

/-- C29 (counterexample): for the one line `if false then`, with `startPC` 0
and the targets of a false `if`, `findJumpTarget` returns 0, which is not
greater than `startPC`; the program counter stays at 0, and the run is at line
0 after every number of rounds. -/
theorem findJumpTarget_last_line_stays :
    (0 : Nat) < ["if false then".toList].length
      ∧ findJumpTarget ["if false then".toList] 0
          ["else if".toList, "else".toList, "endif".toList] = 0
      ∧ ∀ fuel : Nat,
          executeAlgoritma initializeTypeSystem ["if false then".toList] fuel (startState [])
            = .running 0 (startState []) :=
  ⟨by decide, rfl, fun fuel => lone_if_round fuel⟩

end

/-! ## C25: declarations that name a primitive type -/

section
open Regex

/-- A line without a slash has no comment. -/
theorem stripLineComment_eq_self : ∀ (s : Str), '/' ∉ s → stripLineComment s = s
  | [], _ => rfl
  | [_], _ => rfl
  | c :: d :: cs, h => by
    have hc : (c == '/') = false := by
      have : c ≠ '/' := fun e => h (by rw [e]; exact List.mem_cons_self _ _)
      simpa using this
    have ih := stripLineComment_eq_self (d :: cs) (fun hm => h (List.mem_cons_of_mem _ hm))
    rw [stripLineComment, hc, ih]
    rfl

/-- The pattern of an alias declaration on the line `type P T`. -/
theorem typeAlias_match (p t : Str) (hp : isName p = true) (ht : isName t = true) :
    regex_match typeAliasRegex (typeAliasText p t) = some [(2, t), (1, p)] := by
  obtain ⟨hp1, hp2⟩ := isName_spec p hp
  obtain ⟨ht1, ht2⟩ := isName_spec t ht
  have hregex : typeAliasRegex = .seq .bol (.seq (.star true (.chr isSpace))
      (.seq (.seq (.liti 't') (.seq (.liti 'y') (.seq (.liti 'p') (.liti 'e'))))
        (.seq (plus (.chr isSpace)) (.seq (.group 1 (plus (.chr isWord)))
          (.seq (plus (.chr isSpace)) (.seq (.group 2 (plus (.chr isWord)))
            (.seq (.star true (.chr isSpace)) .eol))))))) := rfl
  have htext : typeAliasText p t = 't' :: 'y' :: 'p' :: 'e' :: ' ' :: (p ++ (' ' :: (t ++ []))) := by
    rw [List.append_nil]; rfl
  have hphead : ∀ x ∈ (p ++ (' ' :: (t ++ []))).head?, isSpace x = false := by
    intro x hx
    rw [List.head?_append_of_ne_nil _ hp1] at hx
    exact isWord_not_isSpace x (hp2 x (List.mem_of_mem_head? hx))
  have hthead : ∀ x ∈ (t ++ []).head?, isSpace x = false := by
    intro x hx
    rw [List.append_nil] at hx
    exact isWord_not_isSpace x (ht2 x (List.mem_of_mem_head? hx))
  unfold regex_match
  rw [hregex, run_seq, run_bol, if_pos rfl, run_seq, htext,
    star_stop _ _ _ _ _ _ (by intro x hx; simp at hx; subst hx; decide),
    run_seq, run_seq, Regex.liti, run_chr_cons, if_pos (by decide),
    run_seq, Regex.liti, run_chr_cons, if_pos (by decide),
    run_seq, Regex.liti, run_chr_cons, if_pos (by decide),
    Regex.liti, run_chr_cons, if_pos (by decide),
    run_seq, run_plus_space _ _ _ _ hphead, run_seq,
    run_group_plus _ 1 isWord p _ [] _ ([], [(2, t), (1, p)]) hp1 hp2]
  · intro j c2 hj1 hj2
    have : ((' ' :: (t ++ [])).takeWhile isWord).length = 0 := by
      simp [List.takeWhile, (by decide : isWord ' ' = false)]
    omega
  · rw [run_seq, run_plus_space _ _ _ _ hthead, run_seq]
    apply run_group_plus _ 2 isWord t [] _ _ _ ht1 ht2
    · intro j c2 hj1 hj2
      simp at hj2
      omega
    · rw [run_seq, star_nil, run_eol]
      rfl

/-- The shape of the line `type P T`. -/
theorem typeAliasText_shape (p t : Str) (hp : isName p = true) (ht : isName t = true) :
    trim (stripLineComment (typeAliasText p t)) = typeAliasText p t
      ∧ (typeAliasText p t).contains '<' = false := by
  obtain ⟨hp1, hp2⟩ := isName_spec p hp
  obtain ⟨ht1, ht2⟩ := isName_spec t ht
  have hword : ∀ x : Char, isWord x = true → x ≠ '/' ∧ x ≠ '<' := by
    intro x hx
    constructor <;> (intro e; rw [e] at hx; exact absurd hx (by decide))
  have hkey : ∀ y ∈ "type ".toList, y ≠ '/' ∧ y ≠ '<' := by decide
  have hmem : ∀ x ∈ typeAliasText p t, x ≠ '/' ∧ x ≠ '<' := by
    intro x hx
    simp only [typeAliasText, List.mem_append, List.mem_cons] at hx
    rcases hx with h | h | h | h
    · exact hkey x h
    · exact hword x (hp2 x h)
    · rw [h]; decide
    · exact hword x (ht2 x h)
  have hstrip : stripLineComment (typeAliasText p t) = typeAliasText p t :=
    stripLineComment_eq_self _ (fun hm => (hmem _ hm).1 rfl)
  have hlast : (typeAliasText p t).getLast? = t.getLast? := by
    have h1 : typeAliasText p t = ("type ".toList ++ (p ++ [' '])) ++ t := by
      simp [typeAliasText]
    rw [h1, List.getLast?_append_of_ne_nil _ ht1]
  refine ⟨?_, ?_⟩
  · rw [hstrip]
    apply trim_eq_self
    · simp [typeAliasText]
    · intro c hc
      have : c = 't' := by simpa [typeAliasText] using hc.symm
      rw [this]; decide
    · intro c hc
      rw [hlast] at hc
      exact isWord_not_isSpace c (ht2 c (List.mem_of_mem_getLast? hc))
  · cases hcon : (typeAliasText p t).contains '<' with
    | false => rfl
    | true =>
      have : '<' ∈ typeAliasText p t := by simpa using hcon
      exact absurd rfl (hmem _ this).2

/-- What `parseKamus` makes of the one line `type P T`. -/
theorem parseKamus_alias_line {D : Type} [StdDouble D] (fuel : Nat) (env : Env D) (p t : Str)
    (hp : isName p = true) (ht : isName t = true) :
    parseKamus fuel [typeAliasText p t] env
      = some { typeDefinitions := Map.set initializeTypeSystem p
                { type := "alias".toList, aliasedTo := t, fields := [] },
               environment := env, error := none } := by
  obtain ⟨hshape, hlt⟩ := typeAliasText_shape p t hp ht
  have hm := typeAlias_match p t hp ht
  have hne : (typeAliasText p t).isEmpty = false := rfl
  have hstart : startsWith (typeAliasText p t) "type ".toList = true := by
    simp [startsWith, typeAliasText]
  have hs1 : sub [(2, t), (1, p)] 1 = p := rfl
  have hs2 : sub [(2, t), (1, p)] 2 = t := rfl
  simp only [parseKamus, parseTypes, parseBindings, hshape, hne, hm, hs1, hs2, hstart, hlt,
    Bool.false_eq_true, if_false, Bool.or_true, Bool.false_or, if_true]

/-- C25 (amended): `parseKamus` does not reserve the primitive names.  For
every two names P and T, also when P is one of `integer`, `real`,
`character`, `string` and `boolean`, the section of the one line `type P T`
is read without an exception, leaves the Environment as it was and registers
P as an alias of T; every other name keeps the definition that
`initializeTypeSystem` gave it. -/
theorem type_line_registers_alias {D : Type} [StdDouble D] (fuel : Nat) (env : Env D) (p t : Str)
    (hp : isName p = true) (ht : isName t = true) :
    ∃ td : TypeDefs,
      parseKamus fuel [typeAliasText p t] env
          = some { typeDefinitions := td, environment := env, error := none }
        ∧ Map.find td p = some { type := "alias".toList, aliasedTo := t, fields := [] }
        ∧ ∀ q : Str, q ≠ p → Map.find td q = Map.find initializeTypeSystem q :=
  ⟨_, parseKamus_alias_line fuel env p t hp ht, Map.find_set_self _ _ _,
    fun _ hq => Map.find_set_ne _ _ _ _ hq⟩

theorem type_line_registers_alias_witness :
    isName "integer".toList = true ∧ isName "real".toList = true
      ∧ ∃ td : TypeDefs,
        parseKamus 0 [typeAliasText "integer".toList "real".toList] ([] : Env Decimal)
            = some { typeDefinitions := td, environment := [], error := none }
          ∧ Map.find td "integer".toList
              = some { type := "alias".toList, aliasedTo := "real".toList, fields := [] }
          ∧ ∀ q : Str, q ≠ "integer".toList →
              Map.find td q = Map.find initializeTypeSystem q :=
  ⟨by decide, by decide,
    type_line_registers_alias 0 [] "integer".toList "real".toList (by decide) (by decide)⟩

/-- C25 (counterexample): the section `type integer real` is read without an
exception, and afterwards `integer` is an alias of `real`, not a primitive
type: a variable declared as `integer` is a `real` with the value 0.0.  The
section with the record block `type boolean <`, `x : integer`, `>` is read
without an exception too, and afterwards `boolean` is a record type. -/
theorem primitive_name_redefined :
    (parseKamus 3 ["type integer real".toList, "n : integer".toList] ([] : Env Decimal)).map
        (fun r => (r.error, Map.find r.typeDefinitions "integer".toList, r.environment))
      = some (none, some { type := "alias".toList, aliasedTo := "real".toList, fields := [] },
          [("n".toList,
            { value := .real StdDouble.zero, type := "real".toList, isConst := false })])
      ∧ (parseKamus 3 ["type boolean <".toList, "x : integer".toList, ">".toList]
            ([] : Env Decimal)).map
          (fun r => (r.error, Map.find r.typeDefinitions "boolean".toList, r.environment))
        = some (none,
            some { type := "struct".toList, aliasedTo := [],
                   fields := [("x".toList, "integer".toList)] }, [])
      ∧ Map.find initializeTypeSystem "integer".toList
        = some { type := "primitive".toList, aliasedTo := [], fields := [] } :=
  ⟨rfl, rfl, rfl⟩

end

/-! ## C23: the bounds of an array index -/

section
open Regex

/-- Writing to a key the entry it has changes nothing. -/
theorem Map.set_find_self {α : Type} (m : Map α) (k : Str) (v : α)
    (h : Map.find m k = some v) : Map.set m k v = m := by
  induction m with
  | nil => simp [Map.find] at h
  | cons e rest ih =>
    obtain ⟨k2, v2⟩ := e
    by_cases h2 : (k2 == k) = true
    · have hk : k2 = k := by simpa using h2
      have hv : v2 = v := by simpa [Map.find, h2] using h
      simp [Map.set, h2, hk, hv]
    · have hr : Map.find rest k = some v := by simpa [Map.find, h2] using h
      simp [Map.set, h2, ih hr]

/-- An index accessor at the front of a text of accessors. -/
theorem run_index_accessor (total : Nat) (idx rest : Str)
    (hidx : ∀ c ∈ idx, isDot c = true ∧ c ≠ ']') :
    Regex.run total accessorRegex (('[' :: (idx ++ [']'])) ++ rest) [] anywhere
      = some (rest, []) := by
  have h1 : ('[' == '.') = false := by decide
  have happ : idx ++ [']'] ++ rest = idx ++ (']' :: rest) := by simp
  simp only [accessorRegex, run_alt, run_seq, Regex.lit, Regex.cat, List.cons_append,
    run_chr_cons, h1, Bool.false_eq_true, if_false, beq_self_eq_true, if_true, happ]
  rw [star_lazy_append total isDot _ (']' :: rest) [] idx (fun x hx => (hidx x hx).1) ?_]
  · rw [star_lazy_cons]
    simp [run_chr_cons, anywhere]
  · intro j hj
    have hne : idx.drop j ≠ [] := by
      intro h
      have := List.drop_eq_nil_iff.mp h
      omega
    obtain ⟨y, ys, hy⟩ := List.exists_cons_of_ne_nil hne
    have hmem : y ∈ idx := List.mem_of_mem_drop (by rw [hy]; exact List.mem_cons_self _ _)
    have hyb : (y == ']') = false := by simpa using (hidx y hmem).2
    rw [hy]
    simp [run_chr_cons, hyb]

/-- A field accessor at the end of a text of accessors. -/
theorem run_field_accessor (total : Nat) (field : Str) (hf : isName field = true) :
    Regex.run total accessorRegex (('.' :: field) ++ []) [] anywhere = some ([], []) := by
  obtain ⟨hfne, hfw⟩ := isName_spec field hf
  obtain ⟨f0, fs, rfl⟩ := List.exists_cons_of_ne_nil hfne
  have hf0 : isWord f0 = true := hfw f0 (List.mem_cons_self _ _)
  have hfs : ∀ y ∈ fs, isWord y = true := fun y hy => hfw y (List.mem_cons_of_mem _ hy)
  simp only [accessorRegex, run_alt, run_seq, Regex.lit, List.cons_append, run_chr_cons,
    beq_self_eq_true, if_true, run_plus_cons, hf0]
  rw [star_greedy_append_some total isWord anywhere [] [] ([], []) ?_ fs hfs]
  · rfl
  · rw [star_nil]
    rfl

/-- No accessor is found in the empty text. -/
theorem accessor_search_nil (total : Nat) : regex_search total accessorRegex [] = none := by
  simp [regex_search, accessorRegex, run_alt, run_seq, Regex.lit, Regex.cat, run_chr_nil]

/-- The accessors of `[idx]`. -/
theorem accessors_index (idx : Str) (hidx : ∀ c ∈ idx, isDot c = true ∧ c ≠ ']') :
    (regex_all accessorRegex ('[' :: (idx ++ [']']))).map Prod.fst = ['[' :: (idx ++ [']'])] := by
  have hS := fun total => regex_search_front total accessorRegex ('[' :: (idx ++ [']']))
    [] [] (by simp) (run_index_accessor total idx [] hidx)
  simp only [List.cons_append, List.append_nil] at hS
  have hlen : ('[' :: (idx ++ [']'])).length + 1 = (idx.length + 1) + 2 := by
    simp only [List.length_cons, List.length_append, List.length_nil]
  unfold regex_all
  rw [hlen, regex_iter_hit _ _ _ _ _ _ _ (hS _) (by simp),
    regex_iter_none _ _ _ _ (accessor_search_nil _)]
  rfl

/-- The accessors of `[idx]` followed by one more accessor `a`. -/
theorem accessors_index_then (idx a : Str) (hidx : ∀ c ∈ idx, isDot c = true ∧ c ≠ ']')
    (ha : a ≠ [])
    (hrun : ∀ total, Regex.run total accessorRegex (a ++ []) [] anywhere = some ([], [])) :
    (regex_all accessorRegex (('[' :: (idx ++ [']'])) ++ a)).map Prod.fst
      = ['[' :: (idx ++ [']']), a] := by
  have hS1 := fun total => regex_search_front total accessorRegex ('[' :: (idx ++ [']']))
    a [] (by simp) (run_index_accessor total idx a hidx)
  have hS2 := fun total => regex_search_front total accessorRegex a [] [] ha (hrun total)
  simp only [List.append_nil] at hS2
  have hlen : (('[' :: (idx ++ [']'])) ++ a).length + 1 = (idx.length + a.length) + 3 := by
    simp only [List.length_cons, List.length_append, List.length_nil]; omega
  unfold regex_all
  rw [hlen, regex_iter_hit _ _ _ _ _ _ _ (hS1 _) (by simp),
    regex_iter_hit _ _ _ _ _ _ _ (hS2 _) ha, regex_iter_none _ _ _ _ (accessor_search_nil _)]
  rfl

/-- A path that starts with `x[idx]` as `assignValue` parses it. -/
theorem indexPath_parse (x idx more : Str) (hx : isName x = true)
    (hidx : ∀ c ∈ idx, isDot c = true ∧ c ≠ ']') (hmore : more.all isDot = true) :
    regex_match baseMatchRegex (indexPath x idx ++ more)
      = some [(2, ('[' :: (idx ++ [']'])) ++ more), (1, x)] := by
  obtain ⟨h1, h2⟩ := isName_spec x hx
  have hshape : indexPath x idx ++ more = x ++ (('[' :: (idx ++ [']'])) ++ more) := by
    simp [indexPath]
  rw [hshape, baseMatch_run x _ h1 h2 (by intro c hc
                                          have : c = '[' := by simpa using hc.symm
                                          rw [this]; decide)]
  have hall : (('[' :: (idx ++ [']'])) ++ more).all isDot = true := by
    simp only [List.cons_append, List.all_cons, List.all_append, List.all_nil, Bool.and_true,
      Bool.and_eq_true, List.all_eq_true]
    refine ⟨by decide, ⟨fun c hc => (hidx c hc).1, by decide⟩, ?_⟩
    simpa [List.all_eq_true] using hmore
  rw [if_pos hall]

/-- The exceptions of `parseType` are those of `std::stoi`. -/
theorem parseDims_error : ∀ (l : List (Str × Caps)) (e : Err),
    parseDims l = .error e → e = .stoiFailed := by
  intro l
  induction l with
  | nil => intro e h; simp [parseDims] at h
  | cons x rest ih =>
    intro e h
    obtain ⟨m, c⟩ := x
    simp only [parseDims] at h
    cases hs : stoi (sub c 1) with
    | none => rw [hs] at h; simp only at h; exact (Except.error.inj h).symm
    | some d =>
      rw [hs] at h
      simp only at h
      cases hr : parseDims rest with
      | error e2 =>
        rw [hr] at h
        simp only at h
        rw [← Except.error.inj h]
        exact ih e2 hr
      | ok ds => rw [hr] at h; simp at h

theorem parseType_error (typeName : Str) (e : Err) (h : parseType typeName = .error e) :
    e = .stoiFailed := by
  unfold parseType at h
  cases hm : regex_match typeNameRegex typeName with
  | none => rw [hm] at h; simp at h
  | some m =>
    rw [hm] at h
    simp only at h
    cases hd : parseDims (regex_all dimRegex (sub m 2)) with
    | error e2 =>
      rw [hd] at h
      simp only at h
      rw [← Except.error.inj h]
      exact parseDims_error _ e2 hd
    | ok ds => rw [hd] at h; simp at h

/-- The exception of the loop of `resolveType` is that of a circular type. -/
theorem resolveLoop_error (td : TypeDefs) : ∀ (fuel : Nat) (seen : List Str) (current : Str)
    (e : Err), resolveLoop td fuel seen current = .error e → ∃ name, e = .circularType name := by
  intro fuel
  induction fuel with
  | zero =>
    intro seen current e h
    simp only [resolveLoop] at h
    exact ⟨current, (Except.error.inj h).symm⟩
  | succ fuel ih =>
    intro seen current e h
    simp only [resolveLoop] at h
    cases hf : Map.find td current with
    | none => rw [hf] at h; simp at h
    | some d =>
      rw [hf] at h
      simp only at h
      split_ifs at h
      · exact ⟨current, (Except.error.inj h).symm⟩
      · exact ih _ _ _ h

theorem resolveType_error (td : TypeDefs) (typeName : Str) (e : Err)
    (h : resolveType td typeName = .error e) :
    e = .stoiFailed ∨ ∃ name, e = .circularType name := by
  unfold resolveType at h
  cases hp : parseType typeName with
  | error e2 =>
    rw [hp] at h
    simp only at h
    rw [← Except.error.inj h]
    exact Or.inl (parseType_error _ _ hp)
  | ok pt =>
    rw [hp] at h
    simp only at h
    cases hl : resolveLoop td (td.length + 1) [] pt.baseType with
    | error e2 =>
      rw [hl] at h
      simp only at h
      rw [← Except.error.inj h]
      exact Or.inr (resolveLoop_error td _ _ _ _ hl)
    | ok c => rw [hl] at h; simp at h

/-- The exceptions of `castValue`: those of the resolution of the type and
the two of a text that is no number.  None of them is the error of an index. -/
theorem castValue_error {D : Type} [StdDouble D] (td : TypeDefs) (value : Value D) (T : Str)
    (e : Err) (h : castValue td value T = .error e) :
    e = .stoiFailed ∨ (∃ name, e = .circularType name) ∨ (∃ s, e = .castInteger s)
      ∨ ∃ s, e = .castReal s := by
  cases hr : resolveType td T with
  | error e2 =>
    unfold castValue at h
    rw [hr] at h
    simp only at h
    rw [← Except.error.inj h]
    rcases resolveType_error td T e2 hr with h1 | h1
    · exact Or.inl h1
    · exact Or.inr (Or.inl h1)
  | ok r =>
    cases hp : parseType r with
    | error e2 =>
      unfold castValue at h
      rw [hr] at h
      simp only [hp] at h
      rw [← Except.error.inj h]
      exact Or.inl (parseType_error _ _ hp)
    | ok pt =>
      rw [castValue_eq td T r pt hr hp value] at h
      cases value <;> simp only at h <;> (try split_ifs at h) <;> (try split at h) <;>
        cases h <;>
        first
          | exact Or.inr (Or.inr (Or.inl ⟨_, rfl⟩))
          | exact Or.inr (Or.inr (Or.inr ⟨_, rfl⟩))

/-- C23: let `x` be a variable that is not const, of a type that resolves to
an array type, holding the array `xs`, and let the index expression `idx`
evaluate to the integer `i`.  When `i` is below 0 or not below the length of
`xs`, `assignValue` on the path `x[idx]` raises the error of an array index
out of range and the environment is as before.  When `i` is at least 0 and
below the length, `assignValue` raises what the cast of the value to the
element type raises, which is never the error of an index, and nothing when
that cast returns; then the element `i` of `x` is the cast value.  When
further accessors follow the index, the loop over the accessors stops at an
index out of range in the same way, with the array as it was. -/
theorem array_index_bounds {D : Type} [StdDouble D] (td : TypeDefs) (env : Env D)
    (x idx : Str) (v : Variable D) (xs : List (Value D)) (resolved : Str) (pt : ParsedType)
    (i : Int) (value : Value D)
    (hx : isName x = true) (hidx : idx ≠ [] ∧ ∀ c ∈ idx, isDot c = true ∧ c ≠ ']')
    (hfind : Map.find env x = some v) (hconst : v.isConst = false) (hvalue : v.value = .arr xs)
    (hres : resolveType td v.type = .ok resolved) (hpt : parseType resolved = .ok pt)
    (hdims : pt.dimensions ≠ [])
    (heval : evaluateExpression idx env = .ok (.int i)) :
    ((i < 0 ∨ i ≥ xs.length) →
        assignValue td (indexPath x idx) value env = (env, some .arrayIndex))
      ∧ ((0 ≤ i ∧ i < xs.length) →
        (assignValue td (indexPath x idx) value env).2 ≠ some .arrayIndex
          ∧ (assignValue td (indexPath x idx) value env).2 ≠ some .stringIndex
          ∧ assignValue td (indexPath x idx) value env
            = match castValue td value (elementTypeOf pt) with
              | .error e => (env, some e)
              | .ok w => (Map.set env x { v with value := .arr (xs.set i.toNat w) }, none))
      ∧ (∀ rest : List Str, (i < 0 ∨ i ≥ xs.length) →
        assignWalk td env value (('[' :: (idx ++ [']'])) :: rest) (.arr xs) v.type
          = (.arr xs, some .arrayIndex)) := by
  have hacc := accessors_index idx hidx.2
  have hparse := indexPath_parse x idx [] hx hidx.2 rfl
  simp only [List.append_nil] at hparse
  have hsub : substr ('[' :: (idx ++ [']'])) 1 (('[' :: (idx ++ [']'])).length - 2) = idx := by
    simp [substr]
  have hidxe : idx.isEmpty = false := by
    cases hi2 : idx with
    | nil => exact absurd hi2 hidx.1
    | cons _ _ => rfl
  have hdimse : pt.dimensions.isEmpty = false := by
    cases hd : pt.dimensions with
    | nil => exact absurd hd hdims
    | cons _ _ => rfl
  have hs1 : sub [(2, '[' :: (idx ++ [']'])), (1, x)] 1 = x := rfl
  have hs2 : sub [(2, '[' :: (idx ++ [']'])), (1, x)] 2 = '[' :: (idx ++ [']']) := rfl
  have hhead : (('[' :: (idx ++ [']'])).head? == some '.') = false := by rfl
  have hsame : ({ value := .arr xs, type := v.type, isConst := false } : Variable D) = v := by
    rw [← hvalue, ← hconst]
  have hwalk : assignWalk td env value ['[' :: (idx ++ [']'])] (.arr xs) v.type
      = if i < 0 ∨ i ≥ (xs.length : Int) then (.arr xs, some .arrayIndex)
        else match castValue td value (elementTypeOf pt) with
          | .error e => (.arr xs, some e)
          | .ok w => (.arr (xs.set i.toNat w), none) := by
    simp only [assignWalk, hres, hpt, hhead, hsub, hidxe, heval, hdimse, Bool.false_eq_true,
      if_false, List.isEmpty_nil, if_true]
  have hresult : assignValue td (indexPath x idx) value env
      = if i < 0 ∨ i ≥ (xs.length : Int) then (env, some .arrayIndex)
        else match castValue td value (elementTypeOf pt) with
          | .error e => (env, some e)
          | .ok w => (Map.set env x { v with value := .arr (xs.set i.toNat w) }, none) := by
    unfold assignValue
    simp only [hparse, hs1, hs2, hfind, hconst, hacc, hvalue, hwalk, List.isEmpty_cons,
      Bool.false_eq_true, if_false]
    split_ifs
    · simp only [hsame, Map.set_find_self env x v hfind]
    · cases hc : castValue td value (elementTypeOf pt) with
      | error e => simp only [hsame, Map.set_find_self env x v hfind]
      | ok w => rfl
  refine ⟨fun hout => ?_, fun hin => ?_, fun rest hout => ?_⟩
  rotate_left
  · have hrange : ¬ (i < 0 ∨ i ≥ (xs.length : Int)) := by omega
    rw [hresult, if_neg hrange]
    cases hc : castValue td value (elementTypeOf pt) with
    | error e =>
      refine ⟨?_, ?_, rfl⟩
      · intro h
        have he : e = .arrayIndex := Option.some.inj h
        rcases castValue_error td value _ e hc with h1 | ⟨_, h1⟩ | ⟨_, h1⟩ | ⟨_, h1⟩ <;>
          rw [h1] at he <;> cases he
      · intro h
        have he : e = .stringIndex := Option.some.inj h
        rcases castValue_error td value _ e hc with h1 | ⟨_, h1⟩ | ⟨_, h1⟩ | ⟨_, h1⟩ <;>
          rw [h1] at he <;> cases he
    | ok w => exact ⟨by simp, by simp, rfl⟩
  · simp only [assignWalk, hres, hpt, hhead, hsub, hidxe, heval, hdimse, Bool.false_eq_true,
      if_false, hout, if_true]
  · rw [hresult, if_pos hout]

/-- C23, an instance: in the environment after `a : integer[3]` the assignment
to `a[3]` raises the error of the index and changes nothing, and the
assignment of 7 to `a[1]` raises nothing and changes the element 1. -/
theorem array_index_bounds_witness :
    parseKamus 2 ["a : integer[3]".toList] ([] : Env Decimal)
        = some ⟨initializeTypeSystem, rowEnv, none⟩
      ∧ assignValue initializeTypeSystem (indexPath "a".toList "3".toList) (.int 7) rowEnv
        = (rowEnv, some .arrayIndex)
      ∧ assignValue initializeTypeSystem (indexPath "a".toList "1".toList) (.int 7) rowEnv
        = ([("a".toList, { value := .arr [.int 0, .int 7, .int 0], type := "integer[3]".toList,
                           isConst := false })], none) :=
  ⟨rfl,
    (array_index_bounds (D := Decimal) initializeTypeSystem rowEnv "a".toList "3".toList
      { value := .arr [.int 0, .int 0, .int 0], type := "integer[3]".toList, isConst := false }
      [.int 0, .int 0, .int 0] "integer[3]".toList ⟨"integer".toList, [3]⟩ 3 (.int 7)
      (by decide) ⟨by decide, by decide⟩ rfl rfl rfl rfl rfl (by decide) rfl).1
      (Or.inr (by decide)),
    rfl⟩

end

/-! ## C24: the index into a text -/

section
open Regex

/-- The cast to `character` of a value that is no array and no record, when
`character` is not redefined: the first character of its rendering. -/
theorem castValue_character {D : Type} [StdDouble D] (td : TypeDefs) (value : Value D)
    (hchar : resolveType td "character".toList = .ok "character".toList)
    (hplain : isContainer value = false) :
    castValue td value "character".toList = .ok (.str ((anyToString value).take 1)) := by
  have hp : parseType "character".toList = .ok ⟨"character".toList, []⟩ := by rfl
  rw [castValue_eq td _ _ _ hchar hp value]
  cases value <;> first
    | rfl
    | simp [isContainer] at hplain

/-- C24 (amended): let `s` be a variable that is not const, of a type that
resolves to `string`, holding a text `old`; let the index expression `idx`
evaluate to the integer `i`; let the value be no array and no record, with a
rendering that starts with the character `c`; and let `character` resolve to
itself.  When `i` is at least 0 and below the length of `old`, `assignValue`
on the path `s[idx]` raises nothing and `s` holds `old` with `c` at the place
`i`; when `i` is below 0 or not below the length, it raises the error of the
string index and the environment is as before; and on a path that goes on
behind `s[idx]` with an index or a field it raises the error of an access
into a character, and the environment is as before. -/
theorem string_index_assign {D : Type} [StdDouble D] (td : TypeDefs) (env : Env D)
    (s idx : Str) (v : Variable D) (old : Str) (i : Int) (value : Value D) (c : Char) (cs : Str)
    (hs : isName s = true) (hidx : idx ≠ [] ∧ ∀ x ∈ idx, isDot x = true ∧ x ≠ ']')
    (hfind : Map.find env s = some v) (hconst : v.isConst = false) (hvalue : v.value = .str old)
    (hres : resolveType td v.type = .ok "string".toList)
    (hchar : resolveType td "character".toList = .ok "character".toList)
    (heval : evaluateExpression idx env = .ok (.int i))
    (hplain : isContainer value = false) (hrender : anyToString value = c :: cs) :
    ((0 ≤ i ∧ i < old.length) →
        assignValue td (indexPath s idx) value env
          = (Map.set env s { v with value := .str (old.set i.toNat c) }, none)
        ∧ (old.set i.toNat c).length = old.length
        ∧ (old.set i.toNat c).get? i.toNat = some c
        ∧ ∀ j, j ≠ i.toNat → (old.set i.toNat c).get? j = old.get? j)
      ∧ ((i < 0 ∨ i ≥ old.length) →
        assignValue td (indexPath s idx) value env = (env, some .stringIndex))
      ∧ (∀ idx2 : Str, (∀ x ∈ idx2, isDot x = true ∧ x ≠ ']') →
        assignValue td (indexPath s idx ++ ('[' :: (idx2 ++ [']']))) value env
          = (env, some .stringMember))
      ∧ (∀ field : Str, isName field = true →
        assignValue td (indexPath s idx ++ ('.' :: field)) value env
          = (env, some .stringMember)) := by
  have hp : parseType "string".toList = .ok ⟨"string".toList, []⟩ := by rfl
  have hcast := castValue_character td value hchar hplain
  rw [hrender] at hcast
  have htake : (c :: cs).take 1 = [c] := rfl
  rw [htake] at hcast
  have hsub : substr ('[' :: (idx ++ [']'])) 1 (('[' :: (idx ++ [']'])).length - 2) = idx := by
    simp [substr]
  have hidxe : idx.isEmpty = false := by
    cases hi2 : idx with
    | nil => exact absurd hi2 hidx.1
    | cons _ _ => rfl
  have hhead : (('[' :: (idx ++ [']'])).head? == some '.') = false := by rfl
  have hsame : ({ value := .str old, type := v.type, isConst := false } : Variable D) = v := by
    rw [← hvalue, ← hconst]
  have hbase : (("string".toList == "string".toList) : Bool) = true := by decide
  have hwalk : assignWalk td env value ['[' :: (idx ++ [']'])] (.str old) v.type
      = if i < 0 ∨ i ≥ (old.length : Int) then (.str old, some .stringIndex)
        else (.str (old.set i.toNat c), none) := by
    simp only [assignWalk, hres, hp, hhead, hsub, hidxe, heval, hcast, setStringAtIndex,
      Bool.false_eq_true, if_false, List.isEmpty_nil, if_true, hbase, List.headD_cons]
    split_ifs <;> rfl
  have hmember : ∀ a : Str, assignWalk td env value ['[' :: (idx ++ [']']), a] (.str old) v.type
      = (.str old, some .stringMember) := by
    intro a
    simp only [assignWalk, hres, hp, hhead, hsub, hidxe, heval, Bool.false_eq_true, if_false,
      List.isEmpty_nil, if_true, hbase, List.isEmpty_cons]
  have hs1 : ∀ t : Str, sub [(2, t), (1, s)] 1 = s := fun _ => rfl
  have hs2 : ∀ t : Str, sub [(2, t), (1, s)] 2 = t := fun _ => rfl
  have hresult : assignValue td (indexPath s idx) value env
      = if i < 0 ∨ i ≥ (old.length : Int) then (env, some .stringIndex)
        else (Map.set env s { v with value := .str (old.set i.toNat c) }, none) := by
    have hacc := accessors_index idx hidx.2
    have hparse := indexPath_parse s idx [] hs hidx.2 rfl
    simp only [List.append_nil] at hparse
    unfold assignValue
    simp only [hparse, hs1, hs2, hfind, hconst, hacc, hvalue, hwalk, List.isEmpty_cons,
      Bool.false_eq_true, if_false]
    split_ifs
    · simp only [hsame, Map.set_find_self env s v hfind]
    · rfl
  have hfurther : ∀ a : Str, a ≠ [] → a.all isDot = true →
      (∀ total, Regex.run total accessorRegex (a ++ []) [] anywhere = some ([], [])) →
      assignValue td (indexPath s idx ++ a) value env = (env, some .stringMember) := by
    intro a ha hdot hrun
    have hacc := accessors_index_then idx a hidx.2 ha hrun
    have hparse := indexPath_parse s idx a hs hidx.2 hdot
    unfold assignValue
    simp only [hparse, hs1, hs2, hfind, hconst, hacc, hvalue, hmember, List.isEmpty_cons,
      Bool.false_eq_true, if_false, hsame, Map.set_find_self env s v hfind]
  refine ⟨fun hin => ?_, fun hout => ?_, fun idx2 h2 => ?_, fun field hf => ?_⟩
  · have hrange : ¬ (i < 0 ∨ i ≥ (old.length : Int)) := by omega
    have hlt : i.toNat < old.length := by omega
    rw [hresult, if_neg hrange]
    refine ⟨rfl, by simp, ?_, ?_⟩
    · simp [List.getElem?_set, hlt]
    · intro j hj
      simp [List.getElem?_set, Ne.symm hj]
  · rw [hresult, if_pos hout]
  · apply hfurther _ (by simp)
    · simp only [List.all_cons, List.all_append, List.all_nil, Bool.and_true,
        Bool.and_eq_true, List.all_eq_true]
      exact ⟨by decide, fun x hx => (h2 x hx).1, by decide⟩
    · intro total
      exact run_index_accessor total idx2 [] h2
  · obtain ⟨_, hfw⟩ := isName_spec field hf
    apply hfurther _ (by simp)
    · simp only [List.all_cons, Bool.and_eq_true, List.all_eq_true]
      refine ⟨by decide, fun x hx => ?_⟩
      simp only [isDot, Bool.not_eq_true', Bool.or_eq_false_iff, beq_eq_false_iff_ne]
      exact ⟨ne_of_class (hfw x hx) (by decide : isWord '\n' = false),
        ne_of_class (hfw x hx) (by decide : isWord '\r' = false)⟩
    · intro total
      exact run_field_accessor total field hf

/-- C24, an instance of the amended claim: with `s` holding `abc`, the
assignment of the text `xy` to `s[1]` makes it `axc`, the assignment to `s[3]`
raises the error of the string index, and the assignment to `s[1][0]` raises
the error of an access into a character. -/
theorem string_index_assign_witness :
    assignValue initializeTypeSystem (indexPath "s".toList "1".toList) (.str "xy".toList) textEnv
        = ([("s".toList, { value := .str "axc".toList, type := "string".toList,
                           isConst := false })], none)
      ∧ assignValue initializeTypeSystem (indexPath "s".toList "3".toList) (.str "xy".toList)
          textEnv = (textEnv, some .stringIndex)
      ∧ assignValue initializeTypeSystem
          (indexPath "s".toList "1".toList ++ ('[' :: ("0".toList ++ [']'])))
          (.str "xy".toList) textEnv = (textEnv, some .stringMember) :=
  ⟨((string_index_assign (D := Decimal) initializeTypeSystem textEnv "s".toList "1".toList
      { value := .str "abc".toList, type := "string".toList, isConst := false }
      "abc".toList 1 (.str "xy".toList) 'x' "y".toList
      (by decide) ⟨by decide, by decide⟩ rfl rfl rfl rfl rfl rfl rfl rfl).1
      ⟨by decide, by decide⟩).1,
    (string_index_assign (D := Decimal) initializeTypeSystem textEnv "s".toList "3".toList
      { value := .str "abc".toList, type := "string".toList, isConst := false }
      "abc".toList 3 (.str "xy".toList) 'x' "y".toList
      (by decide) ⟨by decide, by decide⟩ rfl rfl rfl rfl rfl rfl rfl rfl).2.1
      (Or.inr (by decide)),
    (string_index_assign (D := Decimal) initializeTypeSystem textEnv "s".toList "1".toList
      { value := .str "abc".toList, type := "string".toList, isConst := false }
      "abc".toList 1 (.str "xy".toList) 'x' "y".toList
      (by decide) ⟨by decide, by decide⟩ rfl rfl rfl rfl rfl rfl rfl rfl).2.2.1
      "0".toList (by decide)⟩

/-- C24 (counterexample): with `s` holding `abc`, a text of length 3, and a
value that is an array, whose rendering `[Object]` is not empty, the
assignment to `s[1]` replaces no character: it raises the exception of a bad
cast; and the assignment to `s[7]` raises that exception too, not the error of
the index.  The programs `s[1] = a` and `s[7] = a`, with `a` an array
variable, end so. -/
theorem string_index_array_value :
    anyToString (.arr [.int 1] : Value Decimal) = "[Object]".toList
      ∧ assignValue initializeTypeSystem "s[1]".toList (.arr [.int 1]) textEnv
        = (textEnv, some .badAnyCast)
      ∧ assignValue initializeTypeSystem "s[7]".toList (.arr [.int 1]) textEnv
        = (textEnv, some .badAnyCast)
      ∧ executeAlgoritma initializeTypeSystem ["s[1] = a".toList] 3
          (startState (textEnv ++ rowEnv))
        = .failed 0 .badAnyCast (startState (textEnv ++ rowEnv))
      ∧ executeAlgoritma initializeTypeSystem ["s[7] = a".toList] 3
          (startState (textEnv ++ rowEnv))
        = .failed 0 .badAnyCast (startState (textEnv ++ rowEnv)) :=
  ⟨rfl, rfl, rfl, rfl, rfl⟩

end

/-! ## C27: conformance of values to types -/

section
open Regex

end

/-! ## C26: constants of text -/

section
open Regex

/-- A word character is no line terminator. -/
theorem isWord_isDot (c : Char) (h : isWord c = true) : isDot c = true := by
  simp only [isDot, Bool.not_eq_true', Bool.or_eq_false_iff, beq_eq_false_iff_ne]
  exact ⟨ne_of_class h (by decide : isWord '\n' = false),
    ne_of_class h (by decide : isWord '\r' = false)⟩

/-- What follows the type in the pattern of a constant, on ` = VALUE`. -/
theorem constTail_match (total : Nat) (value : Str) (c : Caps) (hv : value ≠ [])
    (hdot : ∀ x ∈ value, isDot x = true) (hhead : ∀ x ∈ value.head?, isSpace x = false) :
    Regex.run total (.seq (.star true (.chr isSpace)) (.seq (.lit '=')
        (.seq (.star true (.chr isSpace)) (.seq (.group 3 (plus (.chr isDot))) .eol))))
      (" = ".toList ++ value) c atEnd = some ([], (3, value) :: c) := by
  have h1 : " = ".toList ++ value = ' ' :: '=' :: ' ' :: value := rfl
  rw [h1, run_seq]
  apply run_star_space _ _ _ _ _ (by intro x hx; simp at hx; subst hx; decide)
  rw [run_seq, Regex.lit, run_chr_cons, if_pos (by decide), run_seq]
  apply run_star_space _ _ _ _ _ hhead
  exact run_group_dots_eol total 3 value c hv hdot

/-- What follows the type in the pattern of a constant, inside the type. -/
theorem constTail_none (total : Nat) (y : Char) (ys : Str) (c : Caps) (hy : isWord y = true)
    (k : Cont) :
    Regex.run total (.seq (.star true (.chr isSpace)) (.seq (.lit '=')
        (.seq (.star true (.chr isSpace)) (.seq (.group 3 (plus (.chr isDot))) .eol))))
      (y :: ys) c k = none := by
  have hsp : isSpace y = false := isWord_not_isSpace y hy
  have hne : (y == '=') = false := by
    have : y ≠ '=' := ne_of_class hy (by decide : isWord '=' = false)
    simpa using this
  rw [run_seq, star_stop _ _ _ _ _ _ (by intro x hx; simp at hx; subst hx; exact hsp),
    run_seq, Regex.lit, run_chr_cons, hne]
  rfl

/-- The pattern of a constant on the line `const NAME : TYPE = VALUE`. -/
theorem const_match (name type value : Str) (hname : isName name = true)
    (htype : isName type = true) (hv : value ≠ [])
    (hdot : ∀ x ∈ value, isDot x = true) (hhead : ∀ x ∈ value.head?, isSpace x = false) :
    regex_match constRegex (constText name type value)
      = some [(3, value), (2, type), (1, name)] := by
  obtain ⟨hn1, hn2⟩ := isName_spec name hname
  obtain ⟨ht1, ht2⟩ := isName_spec type htype
  obtain ⟨t0, ts, rfl⟩ := List.exists_cons_of_ne_nil ht1
  have ht0 : isDot t0 = true := isWord_isDot t0 (ht2 t0 (List.mem_cons_self _ _))
  have hts : ∀ y ∈ ts, isDot y = true :=
    fun y hy => isWord_isDot y (ht2 y (List.mem_cons_of_mem _ hy))
  have hregex : constRegex = .seq .bol (.seq (.star true (.chr isSpace))
      (.seq (.seq (.liti 'c') (.seq (.liti 'o') (.seq (.liti 'n') (.seq (.liti 's') (.liti 't')))))
        (.seq (plus (.chr isSpace)) (.seq (.group 1 (plus (.chr isWord)))
          (.seq (.star true (.chr isSpace)) (.seq (.lit ':') (.seq (.star true (.chr isSpace))
            (.seq (.group 2 (plusLazy (.chr isDot)))
              (.seq (.star true (.chr isSpace)) (.seq (.lit '=')
                (.seq (.star true (.chr isSpace))
                  (.seq (.group 3 (plus (.chr isDot))) .eol)))))))))))) := rfl
  have htext : constText name (t0 :: ts) value
      = 'c' :: 'o' :: 'n' :: 's' :: 't' :: ' ' :: (name ++ (' ' :: ':' :: ' ' ::
          (t0 :: (ts ++ (" = ".toList ++ value))))) := by
    simp [constText]
  have hnhead : ∀ x ∈ (name ++ (' ' :: ':' :: ' ' ::
      (t0 :: (ts ++ (" = ".toList ++ value))))).head?, isSpace x = false := by
    intro x hx
    rw [List.head?_append_of_ne_nil _ hn1] at hx
    exact isWord_not_isSpace x (hn2 x (List.mem_of_mem_head? hx))
  have htake : List.take ((t0 :: (ts ++ (" = ".toList ++ value))).length
      - (" = ".toList ++ value).length) (t0 :: (ts ++ (" = ".toList ++ value))) = t0 :: ts := by
    have : (t0 :: (ts ++ (" = ".toList ++ value))).length - (" = ".toList ++ value).length
        = (t0 :: ts).length := by
      simp only [List.length_cons, List.length_append]; omega
    rw [this, ← List.cons_append, List.take_left]
  unfold regex_match
  rw [hregex, run_seq, run_bol, if_pos rfl, run_seq, htext,
    star_stop _ _ _ _ _ _ (by intro x hx; simp at hx; subst hx; decide),
    run_seq, run_seq, Regex.liti, run_chr_cons, if_pos (by decide),
    run_seq, Regex.liti, run_chr_cons, if_pos (by decide),
    run_seq, Regex.liti, run_chr_cons, if_pos (by decide),
    run_seq, Regex.liti, run_chr_cons, if_pos (by decide),
    Regex.liti, run_chr_cons, if_pos (by decide),
    run_seq, run_plus_space _ _ _ _ hnhead, run_seq,
    run_group_plus _ 1 isWord name _ [] _ ([], [(3, value), (2, t0 :: ts), (1, name)]) hn1 hn2]
  · intro j c2 hj1 hj2
    have : ((' ' :: ':' :: ' ' :: (t0 :: (ts ++ (" = ".toList ++ value)))).takeWhile
        isWord).length = 0 := by
      simp [List.takeWhile, (by decide : isWord ' ' = false)]
    omega
  · rw [run_seq]
    apply run_star_space _ _ _ _ _ (by intro x hx; simp at hx; subst hx; decide)
    rw [run_seq, Regex.lit, run_chr_cons, if_pos (by decide), run_seq]
    apply run_star_space _ _ _ _ _ (by intro x hx; simp at hx; subst hx
                                       exact isWord_not_isSpace _ (ht2 _ (List.mem_cons_self _ _)))
    rw [run_seq, run_group, Regex.plusLazy, run_seq, run_chr_cons, if_pos ht0,
      star_lazy_append _ isDot _ (" = ".toList ++ value) _ ts hts]
    · have h1 : " = ".toList ++ value = ' ' :: ('=' :: ' ' :: value) := rfl
      rw [h1, star_lazy_cons, ← h1]
      simp only [htake]
      rw [constTail_match _ value _ hv hdot hhead]
      rfl
    · intro j hj
      have hne : ts.drop j ≠ [] := by
        intro h
        have := List.drop_eq_nil_iff.mp h
        omega
      obtain ⟨y, ys, hy⟩ := List.exists_cons_of_ne_nil hne
      have hmem : y ∈ ts := List.mem_of_mem_drop (by rw [hy]; exact List.mem_cons_self _ _)
      rw [hy, List.cons_append]
      exact constTail_none _ y _ _ (ht2 y (List.mem_cons_of_mem _ hmem)) _

/-- A text without a slash behind a text without a slash has no comment. -/
theorem constText_shape (name type value : Str) (hname : isName name = true)
    (htype : isName type = true) (hv : value ≠ [])
    (hslash : '/' ∉ value) (hlast : ∀ x ∈ value.getLast?, isSpace x = false) :
    trim (stripLineComment (constText name type value)) = constText name type value := by
  obtain ⟨_, hn2⟩ := isName_spec name hname
  obtain ⟨_, ht2⟩ := isName_spec type htype
  have hword : ∀ x : Char, isWord x = true → x ≠ '/' := by
    intro x hx e
    rw [e] at hx
    exact absurd hx (by decide)
  have hmem : '/' ∉ constText name type value := by
    intro hx
    simp only [constText, List.mem_append] at hx
    rcases hx with h | h | h | h | h | h
    · exact absurd h (by decide)
    · exact hword _ (hn2 _ h) rfl
    · exact absurd h (by decide)
    · exact hword _ (ht2 _ h) rfl
    · exact absurd h (by decide)
    · exact hslash h
  have hl : (constText name type value).getLast? = value.getLast? := by
    have h1 : constText name type value
        = ("const ".toList ++ (name ++ (" : ".toList ++ (type ++ " = ".toList)))) ++ value := by
      simp [constText]
    rw [h1, List.getLast?_append_of_ne_nil _ hv]
  rw [stripLineComment_eq_self _ hmem]
  apply trim_eq_self
  · simp [constText]
  · intro c hc
    have : c = 'c' := by simpa [constText] using hc.symm
    rw [this]; decide
  · intro c hc
    rw [hl] at hc
    exact hlast c hc

/-- What the loop of `resolveType` returns is no alias. -/
theorem resolveLoop_ok_stable (td : TypeDefs) : ∀ (fuel : Nat) (seen : List Str)
    (current r : Str), resolveLoop td fuel seen current = .ok r →
      ∀ (n : Nat) (seen2 : List Str), resolveLoop td (n + 1) seen2 r = .ok r := by
  intro fuel
  induction fuel with
  | zero => intro seen current r h; simp [resolveLoop] at h
  | succ fuel ih =>
    intro seen current r h n seen2
    simp only [resolveLoop] at h
    cases hf : Map.find td current with
    | none =>
      rw [hf] at h
      have hr : current = r := Except.ok.inj h
      subst hr
      simp only [resolveLoop, hf]
    | some d =>
      rw [hf] at h
      simp only at h
      by_cases ha : (d.type == "alias".toList) = true
      · rw [if_pos ha] at h
        by_cases hs : seen.contains current = true
        · rw [if_pos hs] at h; cases h
        · rw [if_neg hs] at h
          exact ih _ _ _ h n seen2
      · rw [if_neg ha] at h
        have hr : current = r := Except.ok.inj h
        subst hr
        simp only [resolveLoop, hf, ha, Bool.false_eq_true, if_false]

/-- A primitive name that a name resolves to resolves to itself. -/
theorem resolveType_target (td : TypeDefs) (type p : Str) (htype : isName type = true)
    (hp : parseType p = .ok ⟨p, []⟩) (hres : resolveType td type = .ok p) :
    resolveType td p = .ok p := by
  have hpt := parseType_name_dims type [] htype (by simp)
  have h0 : type ++ dimsText [] = type := by simp [dimsText]
  rw [h0] at hpt
  unfold resolveType at hres
  rw [hpt] at hres
  simp only at hres
  cases hl : resolveLoop td (td.length + 1) [] type with
  | error e => rw [hl] at hres; cases hres
  | ok c =>
    rw [hl] at hres
    have hc : c = p := by
      have := Except.ok.inj hres
      simpa [dimsText] using this
    subst hc
    unfold resolveType
    rw [hp]
    simp only [resolveLoop_ok_stable td _ _ _ _ hl td.length [], dimsText, List.append_nil]

/-- The loop of `parseKamus` over the declarations, at a line
`const NAME : TYPE = VALUE`. -/
theorem parseBindings_const {D : Type} [StdDouble D] (td : TypeDefs) (fuel : Nat)
    (rest : List Str) (env : Env D) (name type value : Str)
    (hname : isName name = true) (htype : isName type = true)
    (hv : value ≠ []) (hdot : ∀ x ∈ value, isDot x = true ∧ x ≠ '/')
    (hhead : ∀ x ∈ value.head?, isSpace x = false)
    (hlast : ∀ x ∈ value.getLast?, isSpace x = false) :
    (∀ env2 e, declareConst td [(3, value), (2, type), (1, name)] env = (env2, some e) →
        parseBindings td fuel (constText name type value :: rest) false env
          = some (env2, some e))
      ∧ (∀ env2, declareConst td [(3, value), (2, type), (1, name)] env = (env2, none) →
        parseBindings td fuel (constText name type value :: rest) false env
          = parseBindings td fuel rest false env2) := by
  have hshape := constText_shape name type value hname htype hv
    (fun h => (hdot _ h).2 rfl) hlast
  have hm := const_match name type value hname htype hv (fun x hx => (hdot x hx).1) hhead
  have hne : (constText name type value).isEmpty = false := rfl
  have hstart : startsWith (constText name type value) "type ".toList = false := rfl
  constructor
  · intro env2 e h
    simp only [parseBindings, hshape, hne, hstart, hm, Bool.or_self, Bool.false_eq_true,
      if_false, h]
  · intro env2 h
    simp only [parseBindings, hshape, hne, hstart, hm, Bool.or_self, Bool.false_eq_true,
      if_false, h]

/-- A name is its own `trim`. -/
theorem trim_name (x : Str) (hx : isName x = true) : trim x = x := by
  obtain ⟨h1, h2⟩ := isName_spec x hx
  exact trim_eq_self x h1 (fun c hc => isWord_not_isSpace c (h2 c (List.mem_of_mem_head? hc)))
    (fun c hc => isWord_not_isSpace c (h2 c (List.mem_of_mem_getLast? hc)))

/-- The test of the quotes of a constant. -/
theorem quote_test (value : Str) (q : Char) :
    (value.head? != some q || value.getLast? != some q)
      = !decide (value.head? = some q ∧ value.getLast? = some q) := by
  by_cases h1 : value.head? = some q <;> by_cases h2 : value.getLast? = some q <;>
    simp [h1, h2]

/-- The branch of `parseKamus` for a constant whose type resolves to `string`. -/
theorem declareConst_string {D : Type} [StdDouble D] (td : TypeDefs) (env : Env D)
    (name type value : Str) (hname : isName name = true) (htype : isName type = true)
    (hv : value ≠ []) (hhead : ∀ x ∈ value.head?, isSpace x = false)
    (hlast : ∀ x ∈ value.getLast?, isSpace x = false)
    (hres : resolveType td type = .ok "string".toList) :
    declareConst td [(3, value), (2, type), (1, name)] env
      = if value.head? = some (Char.ofNat 34) ∧ value.getLast? = some (Char.ofNat 34) then
          (Map.set env name
            { value := .str (unquoted value), type := "string".toList, isConst := true }, none)
        else (env, some (.constString name)) := by
  have hp : parseType "string".toList = .ok ⟨"string".toList, []⟩ := by rfl
  have hres2 := resolveType_target td type "string".toList htype hp hres
  have hs1 : sub [(3, value), (2, type), (1, name)] 1 = name := rfl
  have hs2 : sub [(3, value), (2, type), (1, name)] 2 = type := rfl
  have hs3 : sub [(3, value), (2, type), (1, name)] 3 = value := rfl
  have hcast : ∀ t : Str, castValue td (.str t : Value D) "string".toList = .ok (.str t) := by
    intro t
    rw [castValue_eq td _ _ _ hres2 hp]
    rfl
  have hb1 : ("string".toList == "string".toList) = true := by decide
  have hb2 : ("string".toList == "character".toList) = false := by decide
  unfold declareConst
  simp only [hs1, hs2, hs3, trim_name name hname, trim_name type htype,
    trim_eq_self value hv hhead hlast, hres, hp, quote_test, hb1, hb2, Bool.true_and,
    Bool.false_and, Bool.false_eq_true, if_false, Bool.true_or, hcast]
  by_cases hq : value.head? = some (Char.ofNat 34) ∧ value.getLast? = some (Char.ofNat 34)
  · simp only [hq, and_self, decide_True, Bool.not_true, Bool.false_eq_true, if_false, if_true,
      unquoted]
    by_cases hlen : value.length > 1
    · simp [hlen]
    · simp [hlen]
  · simp only [hq, decide_False, Bool.not_false, if_true, if_false]

/-- The branch of `parseKamus` for a constant whose type resolves to
`character`. -/
theorem declareConst_character {D : Type} [StdDouble D] (td : TypeDefs) (env : Env D)
    (name type value : Str) (hname : isName name = true) (htype : isName type = true)
    (hv : value ≠ []) (hhead : ∀ x ∈ value.head?, isSpace x = false)
    (hlast : ∀ x ∈ value.getLast?, isSpace x = false)
    (hres : resolveType td type = .ok "character".toList) :
    declareConst td [(3, value), (2, type), (1, name)] env
      = if value.head? = some (Char.ofNat 39) ∧ value.getLast? = some (Char.ofNat 39) then
          (Map.set env name
            { value := .str ((unquoted value).take 1), type := "character".toList,
              isConst := true }, none)
        else (env, some (.constCharacter name)) := by
  have hp : parseType "character".toList = .ok ⟨"character".toList, []⟩ := by rfl
  have hres2 := resolveType_target td type "character".toList htype hp hres
  have hs1 : sub [(3, value), (2, type), (1, name)] 1 = name := rfl
  have hs2 : sub [(3, value), (2, type), (1, name)] 2 = type := rfl
  have hs3 : sub [(3, value), (2, type), (1, name)] 3 = value := rfl
  have hcast : ∀ t : Str, castValue td (.str t : Value D) "character".toList
      = .ok (.str (t.take 1)) := by
    intro t
    rw [castValue_eq td _ _ _ hres2 hp]
    rfl
  have hb1 : ("character".toList == "character".toList) = true := by decide
  have hb2 : ("character".toList == "string".toList) = false := by decide
  unfold declareConst
  simp only [hs1, hs2, hs3, trim_name name hname, trim_name type htype,
    trim_eq_self value hv hhead hlast, hres, hp, quote_test, hb1, hb2, Bool.true_and,
    Bool.false_and, Bool.false_eq_true, if_false, Bool.true_or, Bool.or_true, Bool.false_or,
    hcast]
  by_cases hq : value.head? = some (Char.ofNat 39) ∧ value.getLast? = some (Char.ofNat 39)
  · simp only [hq, and_self, decide_True, Bool.not_true, Bool.false_eq_true, if_false, if_true,
      unquoted]
    by_cases hlen : value.length > 1
    · simp [hlen]
    · simp [hlen]
  · simp only [hq, decide_False, Bool.not_false, if_true, if_false]

/-- C26 (amended): let NAME and TYPE be names and let VALUE be a text on one
line, without a slash and without white space at either end.  At the line
`const NAME : TYPE = VALUE`, when TYPE resolves to `string`, `parseKamus`
raises the error of the double quotes unless the first and the last character
of VALUE are double quotes, which holds for the text of one double quote too;
otherwise it goes on with NAME declared as a const of type `string` whose
value is the text between the first and the last character of VALUE, or VALUE
itself when VALUE is one character.  When TYPE resolves to `character` the
same holds with single quotes, the error of the single quotes and, as the
value, the first character of that text. -/
theorem const_text_line {D : Type} [StdDouble D] (td : TypeDefs) (fuel : Nat)
    (rest : List Str) (env : Env D) (name type value : Str)
    (hname : isName name = true) (htype : isName type = true)
    (hv : value ≠ []) (hdot : ∀ x ∈ value, isDot x = true ∧ x ≠ '/')
    (hhead : ∀ x ∈ value.head?, isSpace x = false)
    (hlast : ∀ x ∈ value.getLast?, isSpace x = false) :
    (resolveType td type = .ok "string".toList →
        ((value.head? = some (Char.ofNat 34) ∧ value.getLast? = some (Char.ofNat 34)) →
          parseBindings td fuel (constText name type value :: rest) false env
            = parseBindings td fuel rest false
                (Map.set env name
                  { value := .str (unquoted value), type := "string".toList, isConst := true }))
        ∧ (¬ (value.head? = some (Char.ofNat 34) ∧ value.getLast? = some (Char.ofNat 34)) →
          parseBindings td fuel (constText name type value :: rest) false env
            = some (env, some (.constString name))))
      ∧ (resolveType td type = .ok "character".toList →
        ((value.head? = some (Char.ofNat 39) ∧ value.getLast? = some (Char.ofNat 39)) →
          parseBindings td fuel (constText name type value :: rest) false env
            = parseBindings td fuel rest false
                (Map.set env name
                  { value := .str ((unquoted value).take 1), type := "character".toList,
                    isConst := true }))
        ∧ (¬ (value.head? = some (Char.ofNat 39) ∧ value.getLast? = some (Char.ofNat 39)) →
          parseBindings td fuel (constText name type value :: rest) false env
            = some (env, some (.constCharacter name)))) := by
  obtain ⟨hbad, hgood⟩ := parseBindings_const td fuel rest env name type value hname htype hv
    hdot hhead hlast
  refine ⟨fun hres => ⟨fun hq => ?_, fun hq => ?_⟩, fun hres => ⟨fun hq => ?_, fun hq => ?_⟩⟩
  · apply hgood
    rw [declareConst_string td env name type value hname htype hv hhead hlast hres, if_pos hq]
  · apply hbad
    rw [declareConst_string td env name type value hname htype hv hhead hlast hres, if_neg hq]
  · apply hgood
    rw [declareConst_character td env name type value hname htype hv hhead hlast hres, if_pos hq]
  · apply hbad
    rw [declareConst_character td env name type value hname htype hv hhead hlast hres, if_neg hq]

/-- C26, an instance of the amended claim: after `type Text string` the line
`const G : Text = "hi"` declares the const `G` of type `string` with the value
`hi`, the line `const G : Text = hi` raises the error of the double quotes,
and the line `const K : character = 'ab'` declares the const `K` with the
value `a`. -/
theorem const_text_line_witness :
    parseKamus 0 ["type Text string".toList,
        constText "G".toList "Text".toList [Char.ofNat 34, 'h', 'i', Char.ofNat 34]]
        ([] : Env Decimal)
      = some { typeDefinitions := aliasTextTypes,
               environment := [("G".toList,
                 { value := .str "hi".toList, type := "string".toList, isConst := true })],
               error := none }
      ∧ parseBindings aliasTextTypes 0
          [constText "G".toList "Text".toList [Char.ofNat 34, 'h', 'i', Char.ofNat 34]]
          false ([] : Env Decimal)
        = parseBindings aliasTextTypes 0 [] false
            (Map.set [] "G".toList
              { value := .str (unquoted [Char.ofNat 34, 'h', 'i', Char.ofNat 34]),
                type := "string".toList, isConst := true })
      ∧ parseBindings aliasTextTypes 0 [constText "G".toList "Text".toList "hi".toList]
          false ([] : Env Decimal)
        = some ([], some (.constString "G".toList))
      ∧ parseBindings aliasTextTypes 0
          [constText "K".toList "character".toList [Char.ofNat 39, 'a', 'b', Char.ofNat 39]]
          false ([] : Env Decimal)
        = parseBindings aliasTextTypes 0 [] false
            (Map.set [] "K".toList
              { value := .str ((unquoted [Char.ofNat 39, 'a', 'b', Char.ofNat 39]).take 1),
                type := "character".toList, isConst := true }) :=
  ⟨rfl,
    ((const_text_line (D := Decimal) aliasTextTypes 0 [] [] "G".toList "Text".toList
      [Char.ofNat 34, 'h', 'i', Char.ofNat 34] (by decide) (by decide) (by decide) (by decide)
      (by decide) (by decide)).1 rfl).1 ⟨rfl, rfl⟩,
    ((const_text_line (D := Decimal) aliasTextTypes 0 [] [] "G".toList "Text".toList
      "hi".toList (by decide) (by decide) (by decide) (by decide)
      (by decide) (by decide)).1 rfl).2 (by decide),
    ((const_text_line (D := Decimal) aliasTextTypes 0 [] [] "K".toList "character".toList
      [Char.ofNat 39, 'a', 'b', Char.ofNat 39] (by decide) (by decide) (by decide) (by decide)
      (by decide) (by decide)).2 rfl).1 ⟨rfl, rfl⟩⟩

/-- C26 (counterexample): the value of `const Q : string = "`, one double
quote, is not enclosed in a pair of quotes, and `parseKamus` raises no error:
it declares `Q` with that one character as its value.  The value of
`const U : string = "a//b"` is enclosed in a pair of quotes, and `parseKamus`
raises the error of the double quotes, as it reads the line up to the two
slashes. -/
theorem const_quote_check_fails :
    parseKamus 0 [constText "Q".toList "string".toList [Char.ofNat 34]] ([] : Env Decimal)
      = some { typeDefinitions := initializeTypeSystem,
               environment := [("Q".toList,
                 { value := .str [Char.ofNat 34], type := "string".toList, isConst := true })],
               error := none }
      ∧ parseKamus 0
          [constText "U".toList "string".toList
            [Char.ofNat 34, 'a', '/', '/', 'b', Char.ofNat 34]] ([] : Env Decimal)
        = some { typeDefinitions := initializeTypeSystem, environment := [],
                 error := some (.constString "U".toList) } :=
  ⟨rfl, rfl⟩

end

/-! ## C30: the end of createDefaultValue -/

section
open Regex

/-- The keys of a registry whose keys are names. -/
theorem keys_are_names (td : TypeDefs) (hkeys : td.all (fun e => isName e.1) = true)
    (k : Str) (d : TypeDef) (h : Map.find td k = some d) : isName k = true := by
  induction td with
  | nil => simp [Map.find] at h
  | cons e rest ih =>
    obtain ⟨k2, d2⟩ := e
    simp only [List.all_cons, Bool.and_eq_true] at hkeys
    by_cases hk : (k2 == k) = true
    · have : k2 = k := by simpa using hk
      rw [← this]; exact hkeys.1
    · have hr : Map.find rest k = some d := by simpa [Map.find, hk] using h
      exact ih hkeys.2 hr

/-- A grounded base is registered, and not as an alias. -/
theorem Grounded.registered (td : TypeDefs) (B : Str) (h : Grounded td B) :
    ∃ d, Map.find td B = some d ∧ (d.type == "alias".toList) = false := by
  cases h with
  | plain _ d hf ha _ => exact ⟨d, hf, ha⟩
  | record _ d hf hs _ _ =>
    refine ⟨d, hf, ?_⟩
    have : d.type = "struct".toList := by simpa using hs
    rw [this]; decide

/-- The default of a type name whose resolved base has a default. -/
theorem default_of_base {D : Type} [StdDouble D] (td : TypeDefs)
    (hkeys : td.all (fun e => isName e.1) = true) (typeName b : Str) (d : TypeDef)
    (hbase : resolvedBase td typeName = some b)
    (hfind : Map.find td b = some d) (halias : (d.type == "alias".toList) = false)
    (hb : ∃ (v : Value D) (f0 : Nat), ∀ fuel, f0 ≤ fuel →
      createDefaultValue td fuel b = some (.ok v)) :
    ∃ (v : Value D) (f0 : Nat), ∀ fuel, f0 ≤ fuel →
      createDefaultValue td fuel typeName = some (.ok v) := by
  obtain ⟨vb, f0, hvb⟩ := hb
  have hname := keys_are_names td hkeys b d hfind
  have hB0 : b ++ dimsText [] = b := by simp [dimsText]
  have hresB := resolveType_registered td b d [] hname hfind halias (by simp)
  have hpB := parseType_name_dims b [] hname (by simp)
  rw [hB0] at hresB hpB
  -- the default of the base, behind the call on the base itself
  have hbd : ∀ fuel, f0 ≤ fuel + 1 →
      baseDefault (D := D) (createDefaultValue td fuel) b d = some (.ok vb) := by
    intro fuel hf
    have h1 := hvb (fuel + 1) hf
    have e := createDefaultValue_eq (D := D) td fuel b b ⟨b, []⟩ d hresB hpB hfind
    rw [e] at h1
    cases hx : baseDefault (D := D) (createDefaultValue td fuel) b d with
    | none => rw [hx] at h1; exact absurd h1 (by simp)
    | some x =>
      rw [hx] at h1
      cases x with
      | error e2 => simp at h1
      | ok v2 => simpa using h1
  -- the resolution of the type name
  cases hr : resolveType td typeName with
  | error e => simp [resolvedBase, hr] at hbase
  | ok r =>
    cases hp : parseType r with
    | error e => simp [resolvedBase, hr, hp] at hbase
    | ok pt =>
      have hptb : pt.baseType = b := by simpa [resolvedBase, hr, hp] using hbase
      have hfind2 : Map.find td pt.baseType = some d := by rw [hptb]; exact hfind
      cases hdims : pt.dimensions with
      | nil =>
        refine ⟨vb, f0 + 1, fun fuel hf => ?_⟩
        obtain ⟨g, rfl⟩ : ∃ g, fuel = g + 1 := ⟨fuel - 1, by omega⟩
        rw [createDefaultValue_eq (D := D) td g typeName r pt d hr hp hfind2, hptb,
          hbd g (by omega)]
        simp [hdims]
      | cons d0 ds =>
        refine ⟨nestedArray vb (d0 :: ds), f0 + 1, fun fuel hf => ?_⟩
        obtain ⟨g, rfl⟩ : ∃ g, fuel = g + 1 := ⟨fuel - 1, by omega⟩
        rw [createDefaultValue_eq (D := D) td g typeName r pt d hr hp hfind2, hptb,
          hbd g (by omega)]
        simp only [hdims, List.isEmpty_cons, Bool.false_eq_true, if_false]
        exact createArrayRecursive_ok _ b vb (hvb g (by omega)) d0 ds

/-- The loop over the fields of a record when every field has a default. -/
theorem defaultFields_returns {D : Type} [StdDouble D] (td : TypeDefs) :
    ∀ (fields : Map Str),
      (∀ f ty, (f, ty) ∈ fields → ∃ (v : Value D) (f0 : Nat), ∀ fuel, f0 ≤ fuel →
        createDefaultValue td fuel ty = some (.ok v)) →
      ∀ acc : Map (Value D), ∃ (fs : Map (Value D)) (f0 : Nat), ∀ fuel, f0 ≤ fuel →
        defaultFields (createDefaultValue td fuel) fields acc = some (.ok fs) := by
  intro fields
  induction fields with
  | nil => intro _ acc; exact ⟨acc, 0, fun _ _ => rfl⟩
  | cons e rest ih =>
    intro h acc
    obtain ⟨name, ty⟩ := e
    obtain ⟨v, f1, hv⟩ := h name ty (List.mem_cons_self _ _)
    obtain ⟨fs, f2, hfs⟩ := ih (fun f t hm => h f t (List.mem_cons_of_mem _ hm))
      (Map.set acc name v)
    refine ⟨fs, max f1 f2, fun fuel hf => ?_⟩
    simp only [defaultFields, hv fuel (le_trans (le_max_left _ _) hf)]
    exact hfs fuel (le_trans (le_max_right _ _) hf)

/-- The default of a grounded base. -/
theorem default_of_grounded {D : Type} [StdDouble D] (td : TypeDefs)
    (hkeys : td.all (fun e => isName e.1) = true) (B : Str) (hg : Grounded td B) :
    ∃ (v : Value D) (f0 : Nat), ∀ fuel, f0 ≤ fuel →
      createDefaultValue td fuel B = some (.ok v) := by
  induction hg with
  | plain B d hfind halias hstruct =>
    have hname := keys_are_names td hkeys B d hfind
    have hB0 : B ++ dimsText [] = B := by simp [dimsText]
    have hresB := resolveType_registered td B d [] hname hfind halias (by simp)
    have hpB := parseType_name_dims B [] hname (by simp)
    rw [hB0] at hresB hpB
    have hbd : ∃ v : Value D, ∀ mk, baseDefault (D := D) mk B d = some (.ok v) := by
      unfold baseDefault
      simp only [hstruct, Bool.false_eq_true, if_false]
      split_ifs <;> exact ⟨_, fun _ => rfl⟩
    obtain ⟨v, hv⟩ := hbd
    refine ⟨v, 1, fun fuel hf => ?_⟩
    obtain ⟨g, rfl⟩ : ∃ g, fuel = g + 1 := ⟨fuel - 1, by omega⟩
    rw [createDefaultValue_eq (D := D) td g B B ⟨B, []⟩ d hresB hpB hfind, hv]
    rfl
  | record B d hfind hstruct hres hsub ih =>
    have hname := keys_are_names td hkeys B d hfind
    have htype : d.type = "struct".toList := by simpa using hstruct
    have halias : (d.type == "alias".toList) = false := by rw [htype]; decide
    have hprim : (d.type == "primitive".toList) = false := by rw [htype]; decide
    have hB0 : B ++ dimsText [] = B := by simp [dimsText]
    have hresB := resolveType_registered td B d [] hname hfind halias (by simp)
    have hpB := parseType_name_dims B [] hname (by simp)
    rw [hB0] at hresB hpB
    have hfields : ∀ f ty, (f, ty) ∈ d.fields → ∃ (v : Value D) (f0 : Nat), ∀ fuel, f0 ≤ fuel →
        createDefaultValue td fuel ty = some (.ok v) := by
      intro f ty hm
      obtain ⟨b, hb⟩ := Option.isSome_iff_exists.mp (hres f ty hm)
      have hgb : Grounded td b := hsub f ty b hm hb
      obtain ⟨d2, hf2, ha2⟩ := Grounded.registered td b hgb
      exact default_of_base td hkeys ty b d2 hb hf2 ha2 (ih f ty b hm hb)
    obtain ⟨fs, f0, hfs⟩ := defaultFields_returns (D := D) td d.fields hfields []
    refine ⟨.struct fs, f0 + 1, fun fuel hf => ?_⟩
    obtain ⟨g, rfl⟩ : ∃ g, fuel = g + 1 := ⟨fuel - 1, by omega⟩
    rw [createDefaultValue_eq (D := D) td g B B ⟨B, []⟩ d hresB hpB hfind]
    simp only [baseDefault, hprim, hstruct, Bool.false_eq_true, if_false, if_true,
      hfs g (by omega)]
    rfl

/-- C30: let every key of the type definitions be a name, as after
`parseKamus`, and let the type name resolve to a base B that is grounded: B is
registered, every field type that is reached from B resolves to a registered
type, and no record that is reached from B contains itself.  Then
`createDefaultValue` of the type name returns a value: there are a value and
a depth of the recursion from which on the call returns that value. -/
theorem createDefaultValue_returns {D : Type} [StdDouble D] (td : TypeDefs)
    (typeName B : Str) (hkeys : td.all (fun e => isName e.1) = true)
    (hbase : resolvedBase td typeName = some B) (hg : Grounded td B) :
    ∃ (v : Value D) (f0 : Nat), ∀ fuel, f0 ≤ fuel →
      createDefaultValue td fuel typeName = some (.ok v) := by
  obtain ⟨d, hf, ha⟩ := Grounded.registered td B hg
  exact default_of_base td hkeys typeName B d hbase hf ha (default_of_grounded td hkeys B hg)

/-- The base `integer` of the registry `nestedTypes` is grounded. -/
theorem nested_integer_grounded : Grounded nestedTypes "integer".toList :=
  Grounded.plain "integer".toList { type := "primitive".toList, aliasedTo := [], fields := [] }
    rfl rfl rfl

/-- The record `P` of the registry `nestedTypes` is grounded. -/
theorem nested_P_grounded : Grounded nestedTypes "P".toList := by
  refine Grounded.record "P".toList
    { type := "struct".toList, aliasedTo := [],
      fields := [("x".toList, "Num".toList), ("y".toList, "Num".toList)] } rfl rfl ?_ ?_
  · intro f ty hm
    simp only [List.mem_cons, Prod.mk.injEq, List.mem_singleton, List.not_mem_nil,
      or_false] at hm
    rcases hm with ⟨_, rfl⟩ | ⟨_, rfl⟩ <;> rfl
  · intro f ty b hm hb
    have hnum : resolvedBase nestedTypes "Num".toList = some "integer".toList := rfl
    simp only [List.mem_cons, Prod.mk.injEq, List.mem_singleton, List.not_mem_nil,
      or_false] at hm
    rcases hm with ⟨_, rfl⟩ | ⟨_, rfl⟩ <;>
      (rw [hnum] at hb; cases hb; exact nested_integer_grounded)

/-- The record `L` of the registry `nestedTypes` is grounded. -/
theorem nested_L_grounded : Grounded nestedTypes "L".toList := by
  refine Grounded.record "L".toList
    { type := "struct".toList, aliasedTo := [],
      fields := [("a".toList, "P".toList), ("b".toList, "P[2]".toList)] } rfl rfl ?_ ?_
  · intro f ty hm
    simp only [List.mem_cons, Prod.mk.injEq, List.mem_singleton, List.not_mem_nil,
      or_false] at hm
    rcases hm with ⟨_, rfl⟩ | ⟨_, rfl⟩ <;> rfl
  · intro f ty b hm hb
    have h1 : resolvedBase nestedTypes "P".toList = some "P".toList := rfl
    have h2 : resolvedBase nestedTypes "P[2]".toList = some "P".toList := rfl
    simp only [List.mem_cons, Prod.mk.injEq, List.mem_singleton, List.not_mem_nil,
      or_false] at hm
    rcases hm with ⟨_, rfl⟩ | ⟨_, rfl⟩
    · rw [h1] at hb; cases hb; exact nested_P_grounded
    · rw [h2] at hb; cases hb; exact nested_P_grounded

/-- C30, an instance: after the declarations of `Num` as an alias of
`integer`, of the record `P` with the members `x, y : Num` and of the record
`L` with the members `a : P` and `b : P[2]`, `createDefaultValue` of `L[2]`
returns a value; within the depth 5 it returns the array of two records. -/
theorem createDefaultValue_returns_witness :
    nestedTypes.all (fun e => isName e.1) = true
      ∧ resolvedBase nestedTypes "L[2]".toList = some "L".toList
      ∧ (∃ (v : Value Decimal) (f0 : Nat), ∀ fuel, f0 ≤ fuel →
          createDefaultValue nestedTypes fuel "L[2]".toList = some (.ok v))
      ∧ (createDefaultValue nestedTypes 5 "L[2]".toList : Option (Except Err (Value Decimal)))
        = some (.ok (.arr (List.replicate 2 (.struct
            [("a".toList, .struct [("x".toList, .int 0), ("y".toList, .int 0)]),
             ("b".toList, .arr (List.replicate 2
                (.struct [("x".toList, .int 0), ("y".toList, .int 0)])))])))) :=
  ⟨rfl, rfl,
    createDefaultValue_returns (D := Decimal) nestedTypes "L[2]".toList "L".toList rfl rfl
      nested_L_grounded,
    rfl⟩

end

/-! ## C2: the element written through a member and an index -/

section
open Regex

/-- The dimensions that `parseType` reads are in the range of `int`. -/
theorem parseDims_range : ∀ (l : List (Str × Caps)) (ds : List Nat),
    parseDims l = .ok ds → ∀ d ∈ ds, d ≤ 2147483647 := by
  intro l
  induction l with
  | nil =>
    intro ds h d hd
    have : ds = [] := by simpa [parseDims] using h.symm
    rw [this] at hd
    exact absurd hd (List.not_mem_nil _)
  | cons x rest ih =>
    intro ds h d hd
    obtain ⟨m, c⟩ := x
    simp only [parseDims] at h
    cases hs : stoi (sub c 1) with
    | none => rw [hs] at h; cases h
    | some n =>
      rw [hs] at h
      simp only at h
      cases hr : parseDims rest with
      | error e => rw [hr] at h; cases h
      | ok ds2 =>
        rw [hr] at h
        have hds : ds = n.toNat :: ds2 := (Except.ok.inj h).symm
        rw [hds] at hd
        rcases List.mem_cons.mp hd with h1 | h1
        · have := stoi_range _ _ hs
          rw [h1]
          omega
        · exact ih ds2 hr d h1

theorem parseType_dims_range (typeName : Str) (pt : ParsedType)
    (h : parseType typeName = .ok pt) : ∀ d ∈ pt.dimensions, d ≤ 2147483647 := by
  unfold parseType at h
  cases hm : regex_match typeNameRegex typeName with
  | none =>
    rw [hm] at h
    have : pt = ⟨typeName, []⟩ := (Except.ok.inj h).symm
    rw [this]
    intro d hd
    exact absurd hd (List.not_mem_nil _)
  | some m =>
    rw [hm] at h
    simp only at h
    cases hd : parseDims (regex_all dimRegex (sub m 2)) with
    | error e => rw [hd] at h; cases h
    | ok ds =>
      rw [hd] at h
      have : pt = ⟨sub m 1, ds⟩ := (Except.ok.inj h).symm
      rw [this]
      exact parseDims_range _ ds hd

/-- The cast to an array type of a registered base that is no alias looks at
the base only: the dimensions make no difference. -/
theorem castValue_dims {D : Type} [StdDouble D] (td : TypeDefs) (B : Str) (dB : TypeDef)
    (hB : isName B = true) (hfind : Map.find td B = some dB)
    (halias : (dB.type == "alias".toList) = false) (value : Value D)
    (ds1 ds2 : List Nat) (h1 : ∀ d ∈ ds1, d ≤ 2147483647) (h2 : ∀ d ∈ ds2, d ≤ 2147483647) :
    castValue td value (B ++ dimsText ds1) = castValue td value (B ++ dimsText ds2) := by
  rw [castValue_eq td _ _ ⟨B, ds1⟩ (resolveType_registered td B dB ds1 hB hfind halias h1)
      (parseType_name_dims B ds1 hB h1) value,
    castValue_eq td _ _ ⟨B, ds2⟩ (resolveType_registered td B dB ds2 hB hfind halias h2)
      (parseType_name_dims B ds2 hB h2) value]

/-- The target of the cast at a terminal index, `B` followed by the second
dimension only, gives the cast to the element type `B[d1]...[dn]`. -/
theorem castValue_elementType {D : Type} [StdDouble D] (td : TypeDefs) (B : Str) (dB : TypeDef)
    (hB : isName B = true) (hfind : Map.find td B = some dB)
    (halias : (dB.type == "alias".toList) = false) (value : Value D)
    (d0 : Nat) (ds : List Nat) (hds : ∀ d ∈ ds, d ≤ 2147483647) :
    castValue td value (elementTypeOf ⟨B, d0 :: ds⟩) = castValue td value (B ++ dimsText ds) := by
  cases ds with
  | nil =>
    have : elementTypeOf ⟨B, [d0]⟩ = B ++ dimsText [] := by simp [elementTypeOf, dimsText]
    rw [this]
  | cons d1 ds2 =>
    have : elementTypeOf ⟨B, d0 :: d1 :: ds2⟩ = B ++ dimsText [d1] := by
      simp [elementTypeOf, dimsText]
    rw [this]
    exact castValue_dims td B dB hB hfind halias value [d1] (d1 :: ds2)
      (fun d hd => hds d (by
        have : d = d1 := by simpa using hd
        rw [this]; exact List.mem_cons_self _ _)) hds

/-- C2: let `rec` be a variable that is not const and holds a record whose
member `field` is declared in the record type of `rec` with a type that
resolves to the array type `B[d0][d1]...[dn]` of a primitive base `B`, and
holds the array `xs`; let the index expression `idx` evaluate to the integer
`i`, in the range of `xs`, and let `castValue` of `value` to the element type
of that array, `B[d1]...[dn]` (`B` itself for one dimension), return `cv`.
Then `assignValue` on the path `rec.field[idx]` throws nothing, and
afterwards every other entry of the environment is as before, `rec` has its
type and const flag and holds a record in which every other member is as
before and `field` holds an array of the same length that has `cv` at `i` and
the elements of `xs` elsewhere. -/
theorem assign_field_element {D : Type} [StdDouble D] (td : TypeDefs) (env : Env D)
    (rec field idx : Str) (v : Variable D) (fs : Map (Value D)) (xs : List (Value D))
    (resolved fieldType resolved2 : Str) (pt : ParsedType) (typeDef dB : TypeDef)
    (B : Str) (d0 : Nat) (ds : List Nat) (i : Int) (value cv : Value D)
    (hrec : isName rec = true) (hfield : isName field = true)
    (hidx : idx ≠ [] ∧ ∀ c ∈ idx, isDot c = true ∧ c ≠ ']')
    (hfind : Map.find env rec = some v) (hconst : v.isConst = false)
    (hvalue : v.value = .struct fs)
    (hres : resolveType td v.type = .ok resolved) (hpt : parseType resolved = .ok pt)
    (htd : Map.find td pt.baseType = some typeDef) (hstruct : typeDef.type = "struct".toList)
    (hmember : Map.find typeDef.fields field = some fieldType)
    (harr : Map.find fs field = some (.arr xs))
    (hres2 : resolveType td fieldType = .ok resolved2)
    (hpt2 : parseType resolved2 = .ok ⟨B, d0 :: ds⟩)
    (hB : isName B = true) (hfindB : Map.find td B = some dB)
    (hprim : dB.type = "primitive".toList)
    (heval : evaluateExpression idx env = .ok (.int i)) (hi : 0 ≤ i ∧ i < xs.length)
    (hcast : castValue td value (B ++ dimsText ds) = .ok cv) :
    (assignValue td (fieldIndexPath rec field idx) value env).2 = none
      ∧ (∀ y, y ≠ rec →
          Map.find (assignValue td (fieldIndexPath rec field idx) value env).1 y = Map.find env y)
      ∧ ∃ (fs2 : Map (Value D)) (xs2 : List (Value D)),
          Map.find (assignValue td (fieldIndexPath rec field idx) value env).1 rec
              = some { value := .struct fs2, type := v.type, isConst := v.isConst }
            ∧ (∀ g, g ≠ field → Map.find fs2 g = Map.find fs g)
            ∧ Map.find fs2 field = some (.arr xs2)
            ∧ xs2.length = xs.length
            ∧ (∀ j, j ≠ i.toNat → xs2.get? j = xs.get? j)
            ∧ xs2.get? i.toNat = some cv := by
  have halias : (dB.type == "alias".toList) = false := by rw [hprim]; decide
  have hrange := parseType_dims_range resolved2 ⟨B, d0 :: ds⟩ hpt2
  have hcast2 : castValue td value (elementTypeOf ⟨B, d0 :: ds⟩) = .ok cv := by
    rw [castValue_elementType td B dB hB hfindB halias value d0 ds
      (fun d hd => hrange d (List.mem_cons_of_mem _ hd))]
    exact hcast
  exact assign_field_walk td env rec field idx v fs xs resolved fieldType resolved2 pt
    ⟨B, d0 :: ds⟩ typeDef i value cv hrec hfield hidx hfind hconst hvalue hres hpt htd hstruct
    hmember harr hres2 hpt2 (by simp) heval hi hcast2

/-- C2, an instance: after the declarations of a record `r` with the members
`a : integer[3]` and `b : integer` and of `n : integer`, the assignment of the
text `42` to `r.a[1]` makes the element 1 of `r.a` the integer 42, the cast of
the text to `integer`, and changes nothing else. -/
theorem assign_field_element_witness :
    parseKamus 3 recordKamus ([] : Env Decimal)
        = some ⟨recordTypes, recordEnv [.int 0, .int 0, .int 0], none⟩
      ∧ castValue recordTypes (.str "42".toList : Value Decimal) "integer".toList
        = .ok (.int 42)
      ∧ assignValue recordTypes "r.a[1]".toList (.str "42".toList)
          (recordEnv [.int 0, .int 0, .int 0])
        = (recordEnv [.int 0, .int 42, .int 0], none)
      ∧ (∀ y, y ≠ "r".toList →
          Map.find (assignValue recordTypes (fieldIndexPath "r".toList "a".toList "1".toList)
            (.str "42".toList) (recordEnv [.int 0, .int 0, .int 0])).1 y
            = Map.find (recordEnv [.int 0, .int 0, .int 0]) y)
      ∧ ∃ (fs2 : Map (Value Decimal)) (xs2 : List (Value Decimal)),
          Map.find (assignValue recordTypes (fieldIndexPath "r".toList "a".toList "1".toList)
            (.str "42".toList) (recordEnv [.int 0, .int 0, .int 0])).1 "r".toList
              = some { value := .struct fs2, type := "R".toList, isConst := false }
            ∧ (∀ g, g ≠ "a".toList → Map.find fs2 g
                = Map.find [("a".toList, .arr [.int 0, .int 0, .int 0]), ("b".toList, .int 0)] g)
            ∧ Map.find fs2 "a".toList = some (.arr xs2)
            ∧ xs2.length = 3
            ∧ (∀ j, j ≠ 1 → xs2.get? j = [Value.int 0, .int 0, .int 0].get? j)
            ∧ xs2.get? 1 = some (.int 42) := by
  have h := assign_field_element recordTypes (recordEnv [.int 0, .int 0, .int 0])
    "r".toList "a".toList "1".toList
    { value := .struct [("a".toList, .arr [.int 0, .int 0, .int 0]), ("b".toList, .int 0)],
      type := "R".toList, isConst := false }
    [("a".toList, .arr [.int 0, .int 0, .int 0]), ("b".toList, .int 0)]
    [.int 0, .int 0, .int 0] "R".toList "integer[3]".toList "integer[3]".toList
    ⟨"R".toList, []⟩
    { type := "struct".toList, aliasedTo := [],
      fields := [("a".toList, "integer[3]".toList), ("b".toList, "integer".toList)] }
    { type := "primitive".toList, aliasedTo := [], fields := [] }
    "integer".toList 3 [] 1 (.str "42".toList) (.int 42)
    (by decide) (by decide) ⟨by decide, by decide⟩ rfl rfl rfl rfl rfl rfl rfl rfl rfl rfl rfl
    (by decide) rfl rfl rfl (by decide) rfl
  exact ⟨rfl, rfl, rfl, h.2.1, h.2.2⟩

end

/-! ## C4: the post-test loop -/

section
open Regex

/-- The backward scan of `findMatchingBlock` from an `untuk` goes over lines
that do not start with `repeat` or `untuk` and stops at the `repeat` line. -/
theorem findBlockScan_repeat (rl : Str) (before : List Str)
    (hrl : trim (stripLineComment rl) = "repeat".toList) :
    ∀ (bs : List Str), (∀ l ∈ bs, noRepeatKeyword l = true) →
      findBlockScan "repeat".toList "untuk".toList (bs ++ rl :: before) 0
        = some before.length := by
  intro bs
  induction bs with
  | nil =>
    intro _
    have hfs : firstStatementOf "repeat".toList = "repeat".toList := rfl
    have hnee : ("repeat".toList).isEmpty = false := rfl
    have h1 : startsWith "repeat".toList "untuk".toList = false := rfl
    have h2 : startsWith "repeat".toList "repeat".toList = true := rfl
    simp only [List.nil_append, findBlockScan, hrl, hfs, hnee, h1, h2, Bool.false_eq_true,
      if_false, if_true, beq_self_eq_true]
  | cons l bs ih =>
    intro hbody
    have hl := hbody l (List.mem_cons_self _ _)
    have ih2 := ih (fun x hx => hbody x (List.mem_cons_of_mem _ hx))
    simp only [noRepeatKeyword, Bool.and_eq_true, Bool.not_eq_true'] at hl
    simp only [List.cons_append, findBlockScan, hl.1, hl.2, Bool.false_eq_true, if_false,
      ite_self]
    exact ih2

/-- From the `untuk` of a loop whose body lines do not start with `repeat` or
`untuk`, `findMatchingBlock` finds the `repeat` line of the loop. -/
theorem findMatchingBlock_repeat (pre body post : List Str) (rl ul : Str)
    (hrl : trim (stripLineComment rl) = "repeat".toList)
    (hbody : ∀ l ∈ body, noRepeatKeyword l = true) :
    findMatchingBlock (pre ++ rl :: (body ++ ul :: post)) (pre.length + 1 + body.length)
      "repeat".toList = some pre.length := by
  have hlines : pre ++ rl :: (body ++ ul :: post) = (pre ++ rl :: body) ++ ul :: post := by simp
  have htake : (pre ++ rl :: (body ++ ul :: post)).take (pre.length + 1 + body.length)
      = pre ++ rl :: body := by
    rw [hlines]
    exact List.take_left' (by simp; omega)
  have hrev : (pre ++ rl :: body).reverse = body.reverse ++ rl :: pre.reverse := by simp
  have hend : endKeywordOf "repeat".toList = "untuk".toList := by rfl
  unfold findMatchingBlock
  rw [htake, hrev, hend, findBlockScan_repeat rl pre.reverse hrl body.reverse
    (fun l hl => hbody l (List.mem_reverse.mp hl)), List.length_reverse]

/-- The line `repeat` does nothing. -/
theorem repeat_line {D : Type} [StdDouble D] (td : TypeDefs) (lines : List Str) (pc : Nat)
    (st : State D) (hline : trim (stripLineComment (lines.getD pc [])) = "repeat".toList) :
    executeLine td lines pc st = .next st := by
  unfold executeLine
  simp only [hline]
  rfl

/-- The literals `true` and `false` in every environment. -/
theorem evaluate_boolean_literal {D : Type} [StdDouble D] (env : Env D) :
    evaluateExpression "true".toList env = .ok (.bool true)
      ∧ evaluateExpression "false".toList env = .ok (.bool false) :=
  ⟨rfl, rfl⟩

/-- The rounds of a post-test loop whose condition is true after every pass:
from the line after the `repeat`, `n` passes through the body and the `untuk`
line bring the run back to the line after the `repeat`. -/
theorem untuk_rounds {D : Type} [StdDouble D] (td : TypeDefs) (lines : List Str)
    (p count : Nat) (hlen : p + 1 + count < lines.length)
    (huntuk : ∀ s : State D, executeLine td lines (p + 1 + count) s = .jump (p + 1) s) :
    ∀ (n : Nat) (st stn : State D), bodyPasses td lines (p + 1) count n st = some stn →
      ∀ fuel, executeFrom td lines (fuel + n * (count + 1)) (p + 1) st
        = executeFrom td lines fuel (p + 1) stn := by
  intro n
  induction n with
  | zero =>
    intro st stn h fuel
    simp only [bodyPasses, Option.some.injEq] at h
    rw [h]
    simp
  | succ n ih =>
    intro st stn h fuel
    unfold bodyPasses at h
    cases hrun : runBody td lines count (p + 1) st with
    | none => rw [hrun] at h; simp at h
    | some st1 =>
      rw [hrun] at h
      simp only at h
      have hfuel : fuel + (n + 1) * (count + 1) = (fuel + n * (count + 1) + 1) + count := by ring
      rw [hfuel, runBody_exec td lines count (p + 1) st st1 hrun (by omega),
        executeFrom_succ, if_pos hlen, huntuk st1]
      exact ih st1 stn h fuel

/-- C4 (amended): let the program hold a line `repeat`, then the lines of
BODY, none of which starts with the letters `repeat` or `untuk`, then a line
`untuk EXPR`, EXPR without `=`, `;` and line terminators.  At the `untuk`
line, when EXPR evaluates to true the program counter becomes the line after
that `repeat` (the loop goes on), and when EXPR evaluates to false the engine
falls through to the next line (the loop ends).  Hence, when EXPR is `false`
and a pass through BODY runs without an exception and without a jump, the run
from the `repeat` line makes that one pass and goes on behind the `untuk`
line; and when EXPR is `true`, after every number `n` of such passes the run
is at the line after the `repeat` again, about to run BODY once more. -/
theorem repeat_untuk_loop {D : Type} [StdDouble D] (td : TypeDefs) (pre body post : List Str)
    (rl ul e : Str)
    (hrl : trim (stripLineComment rl) = "repeat".toList)
    (hul : trim (stripLineComment ul) = "untuk ".toList ++ e)
    (he : e ≠ []) (hhead : ∀ c ∈ e.head?, isSpace c = false)
    (hchars : ∀ c ∈ e, isDot c = true ∧ c ≠ ';' ∧ c ≠ '=')
    (hbody : ∀ l ∈ body, noRepeatKeyword l = true) :
    (∀ (st : State D) (b : Bool), evaluateExpression e st.environment = .ok (.bool b) →
        executeLine td (pre ++ rl :: (body ++ ul :: post)) (pre.length + 1 + body.length) st
          = if b then .jump (pre.length + 1) st else .next st)
      ∧ (e = "false".toList → ∀ (st st2 : State D),
          runBody td (pre ++ rl :: (body ++ ul :: post)) body.length (pre.length + 1) st
            = some st2 →
          ∀ fuel, executeFrom td (pre ++ rl :: (body ++ ul :: post)) (fuel + body.length + 2)
              pre.length st
            = executeFrom td (pre ++ rl :: (body ++ ul :: post)) fuel
              (pre.length + body.length + 2) st2)
      ∧ (e = "true".toList → ∀ (n : Nat) (st stn : State D),
          bodyPasses td (pre ++ rl :: (body ++ ul :: post)) (pre.length + 1) body.length n st
            = some stn →
          ∀ fuel, executeFrom td (pre ++ rl :: (body ++ ul :: post))
              (fuel + n * (body.length + 1) + 1) pre.length st
            = executeFrom td (pre ++ rl :: (body ++ ul :: post)) fuel (pre.length + 1) stn) := by
  have hlines : pre ++ rl :: (body ++ ul :: post) = (pre ++ rl :: body) ++ ul :: post := by simp
  have hlen : (pre ++ rl :: (body ++ ul :: post)).length
      = pre.length + 1 + body.length + 1 + post.length := by
    simp only [List.length_append, List.length_cons]; omega
  have hgetr : (pre ++ rl :: (body ++ ul :: post)).getD pre.length [] = rl :=
    getD_append_cons _ _ _ _
  have hgetu : (pre ++ rl :: (body ++ ul :: post)).getD (pre.length + 1 + body.length) []
      = ul := by
    have h1 := getD_append_cons (pre ++ rl :: body) post ul []
    have h2 : (pre ++ rl :: body).length = pre.length + 1 + body.length := by
      simp only [List.length_append, List.length_cons]; omega
    rw [← hlines, h2] at h1
    exact h1
  have hblock := findMatchingBlock_repeat pre body post rl ul hrl hbody
  have hline : ∀ (st : State D) (b : Bool), evaluateExpression e st.environment = .ok (.bool b) →
      executeLine td (pre ++ rl :: (body ++ ul :: post)) (pre.length + 1 + body.length) st
        = if b then .jump (pre.length + 1) st else .next st := fun st b hb =>
    untuk_line td _ _ st e b pre.length (by rw [hgetu]; exact hul) he hhead hchars hb hblock
  have hrepeat : ∀ st : State D,
      executeLine td (pre ++ rl :: (body ++ ul :: post)) pre.length st = .next st := fun st =>
    repeat_line td _ _ st (by rw [hgetr]; exact hrl)
  refine ⟨hline, fun hfalse st st2 hrun fuel => ?_, fun htrue n st stn hpass fuel => ?_⟩
  · have hev : evaluateExpression e st2.environment = .ok (.bool false) := by
      rw [hfalse]; exact (evaluate_boolean_literal st2.environment).2
    have hu := hline st2 false hev
    simp only [Bool.false_eq_true, if_false] at hu
    have hfuel : fuel + body.length + 2 = ((fuel + 1) + body.length) + 1 := by omega
    rw [hfuel, executeFrom_succ, if_pos (by rw [hlen]; omega), hrepeat st]
    show executeFrom td (pre ++ rl :: (body ++ ul :: post)) ((fuel + 1) + body.length)
      (pre.length + 1) st = _
    rw [runBody_exec td _ body.length (pre.length + 1) st st2 hrun (by rw [hlen]; omega),
      executeFrom_succ, if_pos (by rw [hlen]; omega), hu]
    show executeFrom td (pre ++ rl :: (body ++ ul :: post)) fuel
      (pre.length + 1 + body.length + 1) st2 = _
    have hpc : pre.length + 1 + body.length + 1 = pre.length + body.length + 2 := by omega
    rw [hpc]
  · have hu : ∀ s : State D,
        executeLine td (pre ++ rl :: (body ++ ul :: post)) (pre.length + 1 + body.length) s
          = .jump (pre.length + 1) s := by
      intro s
      have hev : evaluateExpression e s.environment = .ok (.bool true) := by
        rw [htrue]; exact (evaluate_boolean_literal s.environment).1
      have := hline s true hev
      simpa using this
    rw [executeFrom_succ, if_pos (by rw [hlen]; omega), hrepeat st]
    exact untuk_rounds td _ pre.length body.length (by rw [hlen]; omega) hu n st stn hpass fuel

/-- C4, instances of the amended claim: in `repeat`, `output("a")`,
`untuk true` the `untuk` line sets the program counter to line 1, after the
`repeat`, and after seven rounds the body has run three times and the run is
at line 1 again; `repeat`, `output("a")`, `untuk false` runs its body once
and ends. -/
theorem repeat_untuk_loop_witness :
    executeLine initializeTypeSystem repeatProgram 2 (startState [])
        = .jump 1 (startState [])
      ∧ executeAlgoritma initializeTypeSystem repeatOnceProgram 3 (startState [])
        = .finished { startState [] with outputBuffer := ["a".toList] }
      ∧ executeAlgoritma initializeTypeSystem repeatProgram 7 (startState [])
        = .running 1
            { startState [] with outputBuffer := ["a".toList, "a".toList, "a".toList] } :=
  ⟨(repeat_untuk_loop (D := Decimal) initializeTypeSystem []
      [['o', 'u', 't', 'p', 'u', 't', '(', Char.ofNat 34, 'a', Char.ofNat 34, ')']] []
      "repeat".toList "untuk true".toList "true".toList rfl rfl (by decide) (by decide)
      (by decide) (by decide)).1 (startState []) true rfl,
    (repeat_untuk_loop (D := Decimal) initializeTypeSystem []
      [['o', 'u', 't', 'p', 'u', 't', '(', Char.ofNat 34, 'a', Char.ofNat 34, ')']] []
      "repeat".toList "untuk false".toList "false".toList rfl rfl (by decide) (by decide)
      (by decide) (by decide)).2.1 rfl (startState [])
      { startState [] with outputBuffer := ["a".toList] } rfl 0,
    (repeat_untuk_loop (D := Decimal) initializeTypeSystem []
      [['o', 'u', 't', 'p', 'u', 't', '(', Char.ofNat 34, 'a', Char.ofNat 34, ')']] []
      "repeat".toList "untuk true".toList "true".toList rfl rfl (by decide) (by decide)
      (by decide) (by decide)).2.2 rfl 3 (startState [])
      { startState [] with outputBuffer := ["a".toList, "a".toList, "a".toList] } rfl 0⟩

end

end Psd
